import Mathlib

/-!
# nvmap page pool (drivers/video/tegra/nvmap/nvmap_pp.c, nvmap_priv.h)

A shallow embedding of the page-pool ring and of the operations built on it.

Modelling conventions.

* A page handle (`struct page *`, non-NULL) is a natural number; a slot of
  `page_array` or a returned pointer is an `Option Page`, `none` being NULL.
* `u32` fields are natural numbers and every `u32` arithmetic result is taken
  modulo 2^32.  `int` return values that carry a `u32` counter are given as
  that counter.
* The kernel is built without `CONFIG_NVMAP_PAGE_POOL_DEBUG`: the `BUG_ON`
  sanity checks and the `pp_*_add` counters compile to nothing.
* Dereferencing a NULL `page_array`, indexing outside the allocated array and
  `__free_page(NULL)` are faults: the operations return `Except Fault`.
* The pool lock is taken and released around each public operation; the
  embedding is sequential, so `nvmap_page_pool_lock/unlock` are no-ops.
* There is one pool, `nvmap_dev->pool`; every caller passes its address.
* Calls into the rest of the kernel are recorded in the state: pages handed to
  `__free_page`, cache cleans, `wake_up_process`, `vfree`; the answers of
  `si_meminfo`, `vzalloc` and `alloc_page` are read from oracles indexed by the
  number of calls made so far.
-/

namespace Nvmap

/-- A non-NULL `struct page *`. -/
abbrev Page := Nat

/-- What goes wrong when the C code has no defined behaviour, and the marker
`no_progress` of a loop model that ran out of iterations. -/
inductive Fault where
  | null_deref
  | out_of_bounds
  | no_progress
  deriving DecidableEq, Repr

/-- The fields of `struct sysinfo` that the pool reads. -/
structure sysinfo where
  freeram : Nat
  mem_unit : Nat
  deriving DecidableEq, Repr

/-- The `struct nvmap_page_pool` of nvmap_priv.h (lock and debug counters left out).
`page_array = none` is a NULL pointer; otherwise the list is the allocated array. -/
structure nvmap_page_pool where
  alloc : Nat
  fill : Nat
  count : Nat
  length : Nat
  page_array : Option (List (Option Page))
  deriving DecidableEq, Repr

/-- The file-level variables of nvmap_pp.c, the pool of `nvmap_dev`, and the record of
calls into the rest of the kernel. -/
structure State where
  pool : nvmap_page_pool
  /-- Source: `static bool enable_pp` -/
  enable_pp : Bool
  /-- Source: `extern bool zero_memory` -/
  zero_memory : Bool
  /-- Source: `static atomic_t bg_pages_to_fill` -/
  bg_pages_to_fill : Nat
  /-- Source: `static atomic_t pp_dirty` (only ever 0 or 1) -/
  pp_dirty : Bool
  /-- Source: `PAGE_SHIFT` of the architecture (not defined in these files) -/
  PAGE_SHIFT : Nat
  /-- the answer of the k-th `si_meminfo` call -/
  meminfo : Nat → sysinfo
  meminfo_calls : Nat
  /-- whether the k-th `vzalloc` call succeeds -/
  vzalloc_ok : Nat → Bool
  vzalloc_calls : Nat
  /-- the result of the k-th `alloc_page` call -/
  page_alloc : Nat → Option Page
  page_alloc_calls : Nat
  /-- arguments of the `__free_page` calls, oldest first -/
  freed : List Page
  /-- number of `inner_clean_cache_all(); outer_clean_all();` pairs executed -/
  cache_cleans : Nat
  /-- number of `wake_up_process(background_allocator)` calls -/
  wakeups : Nat
  /-- number of calls of `nvmap_pp_wake_up_allocator` -/
  policy_evals : Nat
  /-- contents of the arrays handed to `vfree` (non-NULL arguments only), oldest first -/
  vfreed : List (List (Option Page))

/-- Source: `#define NVMAP_PP_DEF_FILL_THRESH (1024)` -/
def NVMAP_PP_DEF_FILL_THRESH : Nat := 1024

/-- Source: `#define NVMAP_PP_ZERO_MEM_FILL_MIN (256)` -/
def NVMAP_PP_ZERO_MEM_FILL_MIN : Nat := 256

/-- Source: `#define MIN_AVAILABLE_MB 128` -/
def MIN_AVAILABLE_MB : Nat := 128

/-- Truncation of an arithmetic result to `u32`. -/
def u32 (n : Nat) : Nat := n % 4294967296

/-- Subtraction `a - b` computed in `u32`. -/
def u32_sub (a b : Nat) : Nat := (a % 4294967296 + 4294967296 - b % 4294967296) % 4294967296

/-- Read of `pool->page_array[i]`. -/
def slot (pool : nvmap_page_pool) (i : Nat) : Except Fault (Option Page) :=
  match pool.page_array with
  | none => .error .null_deref
  | some arr =>
    match arr[i]? with
    | none => .error .out_of_bounds
    | some v => .ok v

/-- Assignment `pool->page_array[i] = v`. -/
def set_slot (pool : nvmap_page_pool) (i : Nat) (v : Option Page) : Except Fault nvmap_page_pool :=
  match pool.page_array with
  | none => .error .null_deref
  | some arr =>
    if i < arr.length then .ok { pool with page_array := some (arr.set i v) }
    else .error .out_of_bounds

/-- Source: `#define pp_empty(pp) ((pp)->fill == (pp)->alloc && !(pp)->page_array[(pp)->alloc])`;
the array is read only when the indices are equal. -/
def pp_empty (pool : nvmap_page_pool) : Except Fault Bool :=
  if pool.fill = pool.alloc then
    match slot pool pool.alloc with
    | .error e => .error e
    | .ok v => .ok v.isNone
  else .ok false

/-- Source: `#define pp_full(pp) ((pp)->fill == (pp)->alloc && (pp)->page_array[(pp)->alloc])`. -/
def pp_full (pool : nvmap_page_pool) : Except Fault Bool :=
  if pool.fill = pool.alloc then
    match slot pool pool.alloc with
    | .error e => .error e
    | .ok v => .ok v.isSome
  else .ok false

/-- Source: `nvmap_pp_inc_index`: `*ind += 1; if (*ind >= pp->length) *ind = 0;`, giving the new
value of `*ind`. -/
def nvmap_pp_inc_index (length ind : Nat) : Nat :=
  if u32 (ind + 1) ≥ length then 0 else u32 (ind + 1)

/-- Source: `nvmap_pp_alloc_inc(pp)`. -/
def nvmap_pp_alloc_inc (pool : nvmap_page_pool) : nvmap_page_pool :=
  { pool with alloc := nvmap_pp_inc_index pool.length pool.alloc }

/-- Source: `nvmap_pp_fill_inc(pp)`. -/
def nvmap_pp_fill_inc (pool : nvmap_page_pool) : nvmap_page_pool :=
  { pool with fill := nvmap_pp_inc_index pool.length pool.fill }

/-- Source: `pp_clean_cache`. -/
def pp_clean_cache (s : State) : State :=
  if s.pp_dirty then { s with cache_cleans := s.cache_cleans + 1, pp_dirty := false }
  else s

/-- Source: `__free_page(page)`. -/
def __free_page (s : State) (page : Option Page) : Except Fault State :=
  match page with
  | none => .error .null_deref
  | some p => .ok { s with freed := s.freed ++ [p] }

/-- Source: `vfree(addr)`; `vfree(NULL)` does nothing. -/
def vfree (s : State) (addr : Option (List (Option Page))) : State :=
  match addr with
  | none => s
  | some arr => { s with vfreed := s.vfreed ++ [arr] }

/-- Source: `nvmap_pp_wake_up_allocator`.  `unsigned long` is 32 bits wide (arch/arm). -/
def nvmap_pp_wake_up_allocator (s0 : State) : State :=
  let s := { s0 with policy_evals := s0.policy_evals + 1 }
  if !s.enable_pp then s
  else if !s.zero_memory && s.pool.count > NVMAP_PP_ZERO_MEM_FILL_MIN then s
  else if u32_sub s.pool.length s.pool.count < NVMAP_PP_DEF_FILL_THRESH then s
  else
    let info := s.meminfo s.meminfo_calls
    let s1 := { s with meminfo_calls := s.meminfo_calls + 1 }
    let free_pages := u32 (u32 (info.freeram * info.mem_unit) >>> s.PAGE_SHIFT)
    let tmp := u32_sub free_pages (MIN_AVAILABLE_MB <<< (20 - s.PAGE_SHIFT))
    if tmp ≤ 0 then s1
    else
      { s1 with
        bg_pages_to_fill := min tmp (u32_sub s.pool.length s.pool.count),
        wakeups := s1.wakeups + 1 }

/-- Source: `nvmap_page_pool_alloc_locked`: the returned pointer and the state afterwards. -/
def nvmap_page_pool_alloc_locked (s : State) : Except Fault (Option Page × State) :=
  match pp_empty s.pool with
  | .error e => .error e
  | .ok true => .ok (none, nvmap_pp_wake_up_allocator s)
  | .ok false =>
    let s1 := pp_clean_cache s
    match slot s1.pool s1.pool.alloc with
    | .error e => .error e
    | .ok page =>
      match set_slot s1.pool s1.pool.alloc none with
      | .error e => .error e
      | .ok pool1 =>
        let pool2 := nvmap_pp_alloc_inc pool1
        let pool3 := { pool2 with count := u32_sub pool2.count 1 }
        .ok (page, nvmap_pp_wake_up_allocator { s1 with pool := pool3 })

/-- Source: `nvmap_page_pool_alloc` (the pool pointer is `&nvmap_dev->pool`, never NULL). -/
def nvmap_page_pool_alloc (s : State) : Except Fault (Option Page × State) :=
  nvmap_page_pool_alloc_locked s

/-- The `while (real_nr--)` loop of `__nvmap_page_pool_alloc_lots_locked`; `out` is
`pages[0..ind)`. -/
def alloc_lots_loop : Nat → nvmap_page_pool → List (Option Page) →
    Except Fault (nvmap_page_pool × List (Option Page))
  | 0, pool, out => .ok (pool, out)
  | real_nr + 1, pool, out =>
    match slot pool pool.alloc with
    | .error e => .error e
    | .ok v =>
      match set_slot pool pool.alloc none with
      | .error e => .error e
      | .ok pool1 => alloc_lots_loop real_nr (nvmap_pp_alloc_inc pool1) (out ++ [v])

/-- Source: `__nvmap_page_pool_alloc_lots_locked`: the returned `ind`, the entries written to
`pages[0..ind)`, and the state afterwards. -/
def __nvmap_page_pool_alloc_lots_locked (s : State) (nr : Nat) :
    Except Fault (Nat × List (Option Page) × State) :=
  let s1 := pp_clean_cache s
  let real_nr := min nr s1.pool.count
  match alloc_lots_loop real_nr s1.pool [] with
  | .error e => .error e
  | .ok (pool1, out) =>
    let ind := out.length
    let pool2 := { pool1 with count := u32_sub pool1.count ind }
    .ok (ind, out, nvmap_pp_wake_up_allocator { s1 with pool := pool2 })

/-- Source: `nvmap_page_pool_fill_locked`; callers pass a valid page. -/
def nvmap_page_pool_fill_locked (s : State) (page : Page) : Except Fault (Bool × State) :=
  match pp_full s.pool with
  | .error e => .error e
  | .ok true => .ok (false, s)
  | .ok false =>
    let s1 := { s with pp_dirty := true }
    match set_slot s1.pool s1.pool.fill (some page) with
    | .error e => .error e
    | .ok pool1 =>
      let pool2 := nvmap_pp_fill_inc pool1
      let pool3 := { pool2 with count := u32 (pool2.count + 1) }
      .ok (true, { s1 with pool := pool3 })

/-- Source: `nvmap_page_pool_fill`. -/
def nvmap_page_pool_fill (s : State) (page : Page) : Except Fault (Bool × State) :=
  nvmap_page_pool_fill_locked s page

/-- The `while (real_nr--)` loop of `__nvmap_page_pool_fill_lots_locked`, carrying `ind`. -/
def fill_lots_loop (pages : List Page) : Nat → nvmap_page_pool → Nat →
    Except Fault (nvmap_page_pool × Nat)
  | 0, pool, ind => .ok (pool, ind)
  | real_nr + 1, pool, ind =>
    match pages[ind]? with
    | none => .error .out_of_bounds
    | some p =>
      match set_slot pool pool.fill (some p) with
      | .error e => .error e
      | .ok pool1 => fill_lots_loop pages real_nr (nvmap_pp_fill_inc pool1) (ind + 1)

/-- Source: `__nvmap_page_pool_fill_lots_locked`: the returned `ind` and the state afterwards.
The array `pages` holds valid pages and is only read. -/
def __nvmap_page_pool_fill_lots_locked (s : State) (pages : List Page) (nr : Nat) :
    Except Fault (Nat × State) :=
  let real_nr := min (u32_sub s.pool.length s.pool.count) nr
  if real_nr = 0 then .ok (0, s)
  else
    match fill_lots_loop pages real_nr s.pool 0 with
    | .error e => .error e
    | .ok (pool1, ind) =>
      .ok (ind, { s with pool := { pool1 with count := u32 (pool1.count + ind) } })

/-- Source: `nvmap_page_pool_get_available_count`. -/
def nvmap_page_pool_get_available_count (pool : nvmap_page_pool) : Nat := pool.count

/-- The `while (i)` loop of `nvmap_page_pool_free`: the final `i` and state. -/
def free_loop : Nat → State → Except Fault (Nat × State)
  | 0, s => .ok (0, s)
  | i + 1, s =>
    match nvmap_page_pool_alloc_locked s with
    | .error e => .error e
    | .ok (none, s1) => .ok (i + 1, s1)
    | .ok (some p, s1) =>
      match __free_page s1 (some p) with
      | .error e => .error e
      | .ok s2 => free_loop i s2

/-- Source: `nvmap_page_pool_free(pool, nr_free)` for `nr_free >= 0`: the returned `i` and the
state afterwards. -/
def nvmap_page_pool_free (s : State) (nr_free : Nat) : Except Fault (Nat × State) :=
  if nr_free = 0 then .ok (nr_free, s)
  else free_loop nr_free s

/-- Source: `nvmap_page_pool_get_unused_pages` (`nvmap_dev` is set). -/
def nvmap_page_pool_get_unused_pages (s : State) : Nat :=
  nvmap_page_pool_get_available_count s.pool

/-- Source: `nvmap_page_pool_shrink` with `sc->nr_to_scan = nr_to_scan`, a value that fits
the `int shrink_pages` it is copied to. -/
def nvmap_page_pool_shrink (s : State) (nr_to_scan : Nat) : Except Fault (Nat × State) :=
  let shrink_pages := nr_to_scan
  if shrink_pages = 0 then .ok (nvmap_page_pool_get_unused_pages s, s)
  else
    match nvmap_page_pool_free s shrink_pages with
    | .error e => .error e
    | .ok (_, s1) => .ok (nvmap_page_pool_get_unused_pages s1, s1)

/-- The loop `while (!pp_empty(pool)) __free_page(nvmap_page_pool_alloc_locked(pool));`
of `nvmap_page_pool_resize`, run for at most `fuel` tests of the condition. -/
def resize_free_loop : Nat → State → Except Fault State
  | 0, _ => .error .no_progress
  | fuel + 1, s =>
    match pp_empty s.pool with
    | .error e => .error e
    | .ok true => .ok s
    | .ok false =>
      match nvmap_page_pool_alloc_locked s with
      | .error e => .error e
      | .ok (page, s1) =>
        match __free_page s1 page with
        | .error e => .error e
        | .ok s2 => resize_free_loop fuel s2

/-- Number of slots of the allocated array (0 for NULL). -/
def array_size (pool : nvmap_page_pool) : Nat :=
  match pool.page_array with
  | none => 0
  | some arr => arr.length

/-- Source: `nvmap_page_pool_resize(pool, size)` for `size >= 0`.  The request
`vzalloc(sizeof(struct page *) * size)` is computed in the 32-bit `size_t` (pointers are 4
bytes wide): it asks for `(4 * size) mod 2^32` bytes, which is room for `size` slots only
when `size < 2^30`, and the array returned has `bytes / 4` slots.  A request of 0 bytes
returns NULL (mm/vmalloc.c, outside these files).  The salvage call writes `pages[0..ind)`
into the new array, which is out of bounds when the array has fewer than `ind` slots.
Every pass of the release loop that does not fault clears one occupied slot, so
`array_size + 1` tests of its condition are enough. -/
def nvmap_page_pool_resize (s : State) (size : Nat) : Except Fault State :=
  if size = s.pool.length then .ok s
  else if size = 0 then
    let s1 := vfree s s.pool.page_array
    .ok { s1 with pool := { s1.pool with page_array := none, length := size } }
  else
    let bytes := u32 (4 * size)
    let ok := s.vzalloc_ok s.vzalloc_calls && decide (bytes ≠ 0)
    let s0 := { s with vzalloc_calls := s.vzalloc_calls + 1 }
    if !ok then .ok s0
    else
      let slots := bytes / 4
      match __nvmap_page_pool_alloc_lots_locked s0 size with
      | .error e => .error e
      | .ok (ind, out, s1) =>
        if slots < ind then .error .out_of_bounds
        else
          match resize_free_loop (array_size s1.pool + 1) s1 with
          | .error e => .error e
          | .ok s2 =>
            let page_array := out ++ List.replicate (slots - out.length) none
            let old := s2.pool.page_array
            let pool1 : nvmap_page_pool :=
              { s2.pool with
                page_array := some page_array,
                alloc := 0,
                fill := if ind = size then 0 else ind,
                count := ind,
                length := size }
            .ok (vfree { s2 with pool := pool1 } old)

/-- The pool as `nvmap_page_pool_init` leaves it: zeroed structure, `length` slots, all
NULL (`vzalloc`). -/
def empty_pool (length : Nat) : nvmap_page_pool :=
  { alloc := 0, fill := 0, count := 0, length := length,
    page_array := some (List.replicate length none) }

/-! ## The ring as a bounded queue -/

/-- The ring invariant against the queue `q` of pooled pages, oldest first; `count` is
left out because the bulk loops update it only after the loop. -/
structure Ring (pool : nvmap_page_pool) (arr : List (Option Page)) (q : List Page) : Prop where
  harr : pool.page_array = some arr
  hlen : arr.length = pool.length
  hpos : 0 < pool.length
  hu32 : pool.length < 4294967296
  halloc : pool.alloc < pool.length
  hq : q.length ≤ pool.length
  hfill : pool.fill = (pool.alloc + q.length) % pool.length
  hslots : ∀ i, i < pool.length → arr[(pool.alloc + i) % pool.length]? = some q[i]?

/-- The pool holds exactly the queue `q`. -/
def Abs (pool : nvmap_page_pool) (q : List Page) : Prop :=
  ∃ arr, Ring pool arr q ∧ pool.count = q.length

/-- The pool after one removal from a ring stored in `arr`. -/
def pool_after_take (pool : nvmap_page_pool) (arr : List (Option Page)) : nvmap_page_pool :=
  { alloc := (pool.alloc + 1) % pool.length,
    fill := pool.fill,
    count := pool.count - 1,
    length := pool.length,
    page_array := some (arr.set pool.alloc none) }

/-- The pool after one insertion of `p` into a ring stored in `arr`. -/
def pool_after_put (pool : nvmap_page_pool) (arr : List (Option Page)) (p : Page) :
    nvmap_page_pool :=
  { alloc := pool.alloc,
    fill := (pool.fill + 1) % pool.length,
    count := pool.count + 1,
    length := pool.length,
    page_array := some (arr.set pool.fill (some p)) }

/-- The slots of the ring read circularly from the alloc index, `count` of them. -/
def pool_queue (pool : nvmap_page_pool) : List (Option Page) :=
  match pool.page_array with
  | none => []
  | some arr =>
    (List.range pool.count).map (fun i => arr.getD ((pool.alloc + i) % pool.length) none)

/-- The pages held by the pool, oldest first: the abstraction of a ring state. -/
def pool_pages (pool : nvmap_page_pool) : List Page :=
  (pool_queue pool).reduceOption

/-- The ring invariants of the data model on a pool with storage: the array has `length`
slots, `1 <= length < 2^32`, `count <= length`, both indices are below `length`,
`fill = (alloc + count) mod length`, and the occupied slots are exactly the `count` slots
from `alloc` on, circularly. -/
def ring_inv (pool : nvmap_page_pool) : Prop :=
  match pool.page_array with
  | none => False
  | some arr =>
    arr.length = pool.length ∧ 0 < pool.length ∧ pool.length < 4294967296 ∧
    pool.count ≤ pool.length ∧ pool.alloc < pool.length ∧ pool.fill < pool.length ∧
    pool.fill = (pool.alloc + pool.count) % pool.length ∧
    ∀ i, i < pool.length →
      ((arr.getD ((pool.alloc + i) % pool.length) none).isSome ↔ i < pool.count)

instance (pool : nvmap_page_pool) : Decidable (ring_inv pool) := by
  unfold ring_inv
  cases pool.page_array <;> simp only <;> infer_instance

/-- A state around `pool` right after module initialisation: pooling enabled,
`zero_memory` off, 4 KiB pages, `si_meminfo` reporting 100000 free units of size 1,
`vzalloc` and `alloc_page` succeeding, nothing recorded yet. -/
def boot_state (pool : nvmap_page_pool) : State :=
  { pool := pool, enable_pp := true, zero_memory := false, bg_pages_to_fill := 0,
    pp_dirty := false, PAGE_SHIFT := 12,
    meminfo := fun _ => { freeram := 100000, mem_unit := 1 }, meminfo_calls := 0,
    vzalloc_ok := fun _ => true, vzalloc_calls := 0,
    page_alloc := fun k => some (1000 + k), page_alloc_calls := 0,
    freed := [], cache_cleans := 0, wakeups := 0, policy_evals := 0, vfreed := [] }

/-- A call of one of the two single-page operations. -/
inductive Op where
  | fill (p : Page)
  | alloc
  deriving DecidableEq, Repr

/-- What a sequence of calls leaves behind: the final state, the number of fills that
returned true, the number of allocs that returned a page, and `count` after each call. -/
structure Outcome where
  final : State
  fills_ok : Nat
  allocs_ok : Nat
  counts : List Nat

/-- Runs `nvmap_page_pool_fill` / `nvmap_page_pool_alloc` calls in order, carrying the
tallies of successful calls made so far. -/
def run_ops : List Op → State → Nat → Nat → List Nat → Except Fault Outcome
  | [], s, f, a, cs => .ok { final := s, fills_ok := f, allocs_ok := a, counts := cs }
  | Op.fill p :: ops, s, f, a, cs =>
    match nvmap_page_pool_fill s p with
    | .error e => .error e
    | .ok (r, s1) => run_ops ops s1 (if r then f + 1 else f) a (cs ++ [s1.pool.count])
  | Op.alloc :: ops, s, f, a, cs =>
    match nvmap_page_pool_alloc s with
    | .error e => .error e
    | .ok (page, s1) =>
      run_ops ops s1 f (if page.isSome then a + 1 else a) (cs ++ [s1.pool.count])

/-- What the scenario of the testable properties observes. -/
structure Observed where
  count_after_abc : Nat
  first_alloc : Option Page
  count_after_alloc : Nat
  fill_d : Bool
  fill_e : Bool
  count_after_de : Nat
  bulk_returned : Nat
  bulk_pages : List (Option Page)
  count_at_end : Nat
  deriving DecidableEq, Repr

/-- The scenario: fill(A), fill(B), fill(C), alloc(), fill(D), fill(E), alloc_bulk(10). -/
def scenario (s0 : State) (A B C D E : Page) : Except Fault Observed :=
  match nvmap_page_pool_fill s0 A with
  | .error e => .error e
  | .ok (_, s1) =>
  match nvmap_page_pool_fill s1 B with
  | .error e => .error e
  | .ok (_, s2) =>
  match nvmap_page_pool_fill s2 C with
  | .error e => .error e
  | .ok (_, s3) =>
  match nvmap_page_pool_alloc s3 with
  | .error e => .error e
  | .ok (page, s4) =>
  match nvmap_page_pool_fill s4 D with
  | .error e => .error e
  | .ok (rd, s5) =>
  match nvmap_page_pool_fill s5 E with
  | .error e => .error e
  | .ok (re, s6) =>
  match __nvmap_page_pool_alloc_lots_locked s6 10 with
  | .error e => .error e
  | .ok (ind, out, s7) =>
    .ok { count_after_abc := s3.pool.count, first_alloc := page,
          count_after_alloc := s4.pool.count, fill_d := rd, fill_e := re,
          count_after_de := s6.pool.count, bulk_returned := ind, bulk_pages := out,
          count_at_end := s7.pool.count }

/-- A pool of length 4 holding pages 21, 22, 23 in slots 3, 0, 1 (the ring has wrapped). -/
def wrapped_pool : nvmap_page_pool :=
  { alloc := 3, fill := 2, count := 3, length := 4,
    page_array := some [some 22, some 23, none, some 21] }

/-- The state `boot_state wrapped_pool`. -/
def wrapped_state : State := boot_state wrapped_pool

/-- Bounded FIFO queue, specification side: `fill_one` appends the page at the tail iff
the queue is shorter than the capacity and reports whether it did. -/
def fifo_fill (cap : Nat) (q : List Page) (p : Page) : Bool × List Page :=
  if q.length < cap then (true, q ++ [p]) else (false, q)

/-- Bounded FIFO queue, specification side: `fill_bulk` appends the first
`min(n, cap - len)` pages in order and reports how many. -/
def fifo_fill_bulk (cap : Nat) (q : List Page) (pages : List Page) (n : Nat) :
    Nat × List Page :=
  (min n (cap - q.length), q ++ pages.take (min n (cap - q.length)))

/-- Bounded FIFO queue, specification side: `alloc_one` removes and returns the head. -/
def fifo_alloc (q : List Page) : Option Page × List Page :=
  (q.head?, q.tail)

/-- Bounded FIFO queue, specification side: `alloc_bulk(n)` removes and returns the first
`min(n, len)` elements in order. -/
def fifo_alloc_bulk (q : List Page) (n : Nat) : List Page × List Page :=
  (q.take (min n q.length), q.drop (min n q.length))

/-- A pool of length 64 holding the 50 pages 100..149 in slots 0..49. -/
def pool_of_fifty : nvmap_page_pool :=
  { alloc := 0, fill := 50, count := 50, length := 64,
    page_array := some ((List.range 50).map (fun i => some (100 + i)) ++ List.replicate 14 none) }

/-- Number of occupied slots of the allocated array (0 for NULL). -/
def occupied (pool : nvmap_page_pool) : Nat :=
  match pool.page_array with
  | none => 0
  | some arr => arr.countP Option.isSome

/-- The errno `ENOMEM` of the kernel headers (not defined in these files). -/
def ENOMEM : Int := 12

/-- The loop `while ((page = nvmap_page_pool_alloc_locked(pool)) != NULL) __free_page(page);`
of `nvmap_page_pool_clear`, run for at most `fuel` calls of the removal. -/
def clear_loop : Nat → State → Except Fault State
  | 0, _ => .error .no_progress
  | fuel + 1, s =>
    match nvmap_page_pool_alloc_locked s with
    | .error e => .error e
    | .ok (none, s1) => .ok s1
    | .ok (some p, s1) =>
      match __free_page s1 (some p) with
      | .error e => .error e
      | .ok s2 => clear_loop fuel s2

/-- Source: `nvmap_page_pool_clear`: the returned `int` and the state afterwards.  Every
removal that returns a page clears one occupied slot, so `array_size + 1` calls are
enough for the loop. -/
def nvmap_page_pool_clear (s : State) : Except Fault (Int × State) :=
  match s.pool.page_array with
  | none => .ok (0, s)
  | some _ =>
    match clear_loop (array_size s.pool + 1) s with
    | .error e => .error e
    | .ok s1 =>
      match pp_empty s1.pool with
      | .error e => .error e
      | .ok false => .ok (-ENOMEM, s1)
      | .ok true => .ok (0, nvmap_pp_wake_up_allocator s1)

/-- Source: `nvmap_page_pool_fini`: `pool->length = 0; vfree(pool->page_array); return 0;`.
The `kthread_stop` of the worker is outside the sequential model.  The pointer
`page_array` is left as it is. -/
def nvmap_page_pool_fini (s : State) : Int × State :=
  let s1 := { s with pool := { s.pool with length := 0 } }
  (0, vfree s1 s1.pool.page_array)

/-- Source: `pool_size_set` once `param_set_int` has stored the value `v >= 0` in
`pool_size`: `nvmap_page_pool_resize(&nvmap_dev->pool, pool_size); return 0;`. -/
def pool_size_set (s : State) (v : Nat) : Except Fault (Int × State) :=
  match nvmap_page_pool_resize s v with
  | .error e => .error e
  | .ok s1 => .ok (0, s1)

/-- The estimate `free_pages` of `nvmap_pp_wake_up_allocator` from a `si_meminfo` answer. -/
def policy_free_pages (page_shift : Nat) (info : sysinfo) : Nat :=
  u32 (u32 (info.freeram * info.mem_unit) >>> page_shift)

/-- The reserved floor `MIN_AVAILABLE_MB << (20 - PAGE_SHIFT)`, in pages. -/
def reserved_floor (page_shift : Nat) : Nat :=
  MIN_AVAILABLE_MB <<< (20 - page_shift)

/-- A state whose `vzalloc` fails, around a wrapped pool of three pages. -/
def no_memory_state : State :=
  { wrapped_state with vzalloc_ok := fun _ => false }

/-- A state with an empty pool of 2048 slots on a machine reporting 1000 free pages of
4096 bytes, below the reserved floor of 32768 pages. -/
def low_memory_state : State :=
  { boot_state (empty_pool 2048) with
    meminfo := fun _ => { freeram := 1000, mem_unit := 4096 } }


/-! ## Background refill, policy summary and reachable states -/

/-- Source: `#define PENDING_PAGES_SIZE (SZ_1M / PAGE_SIZE)`, with `PAGE_SIZE = 1 << PAGE_SHIFT`. -/
def PENDING_PAGES_SIZE (page_shift : Nat) : Nat := 1048576 / 2 ^ page_shift

/-- Source: `alloc_page(flags)`: the next answer of the page allocator. -/
def alloc_page (s : State) : Option Page × State :=
  (s.page_alloc s.page_alloc_calls, { s with page_alloc_calls := s.page_alloc_calls + 1 })

/-- The calls `__free_page(p)` for the valid pages `p` of `ps`, in order. -/
def free_each (s : State) (ps : List Page) : State :=
  { s with freed := s.freed ++ ps }

/-- The `for` loop of `__nvmap_pp_alloc_n_pages` with `got = pages[0..i)`: the returned
`int`, the pages written to the array, and the state.  On a failed `alloc_page` the pages
obtained so far are freed from the last to the first. -/
def alloc_n_loop : Nat → State → List Page → Int × List Page × State
  | 0, s, got => (0, got, s)
  | n + 1, s, got =>
    match alloc_page s with
    | (none, s1) => (-ENOMEM, got, free_each s1 got.reverse)
    | (some p, s1) => alloc_n_loop n s1 (got ++ [p])

/-- Source: `__nvmap_pp_alloc_n_pages(pages, n, flags)`. -/
def __nvmap_pp_alloc_n_pages (s : State) (n : Nat) : Int × List Page × State :=
  alloc_n_loop n s []

/-- The `do ... while (pages && i == nr)` loop of `nvmap_pp_do_background_fill` together
with the code after it, run for at most `fuel` passes; `pages` is the remaining target.
The two `return` statements inside the loop skip the release of left-over pages and the
final `pp_clean_cache`. -/
def bg_fill_loop : Nat → State → Nat → Except Fault State
  | 0, _, _ => .error .no_progress
  | fuel + 1, s, pages =>
    let info := s.meminfo s.meminfo_calls
    let s1 := { s with meminfo_calls := s.meminfo_calls + 1 }
    if info.freeram ≤ MIN_AVAILABLE_MB <<< (20 - s.PAGE_SHIFT) then .ok s1
    else
      let nr := min (PENDING_PAGES_SIZE s.PAGE_SHIFT) pages
      match __nvmap_pp_alloc_n_pages s1 nr with
      | (err, pending_pages, s2) =>
        if err ≠ 0 then .ok s2
        else
          let s3 := { s2 with pp_dirty := true }
          match __nvmap_page_pool_fill_lots_locked s3 pending_pages nr with
          | .error e => .error e
          | .ok (i, s4) =>
            let pages1 := u32_sub pages nr
            if pages1 ≠ 0 ∧ i = nr then bg_fill_loop fuel s4 pages1
            else .ok (pp_clean_cache (free_each s4 (pending_pages.drop i)))

/-- Source: `nvmap_pp_do_background_fill`.  Every pass of the loop lowers the remaining
target by `nr >= 1` (for `PAGE_SHIFT <= 20`), so `pages + 1` passes are enough. -/
def nvmap_pp_do_background_fill (s : State) : Except Fault State :=
  let pages := u32 s.bg_pages_to_fill
  let s1 := { s with bg_pages_to_fill := 0 }
  if pages = 0 ∨ s1.enable_pp = false then .ok s1
  else bg_fill_loop (pages + 1) s1 pages

/-- Whether `nvmap_pp_wake_up_allocator` reaches `wake_up_process` in state `s`: none of
its four `return` tests fires. -/
def policy_signals (s : State) : Bool :=
  s.enable_pp &&
  !(!s.zero_memory && decide (s.pool.count > NVMAP_PP_ZERO_MEM_FILL_MIN)) &&
  !decide (u32_sub s.pool.length s.pool.count < NVMAP_PP_DEF_FILL_THRESH) &&
  !decide (u32_sub (policy_free_pages s.PAGE_SHIFT (s.meminfo s.meminfo_calls))
      (reserved_floor s.PAGE_SHIFT) ≤ 0)

/-- The value `min(tmp, pool->length - pool->count)` that `nvmap_pp_wake_up_allocator`
stores in `bg_pages_to_fill` when it signals. -/
def policy_target (s : State) : Nat :=
  min (u32_sub (policy_free_pages s.PAGE_SHIFT (s.meminfo s.meminfo_calls))
        (reserved_floor s.PAGE_SHIFT))
    (u32_sub s.pool.length s.pool.count)

/-- The ring bounds: `0 <= count <= length`, `alloc < length`, `fill < length`. -/
def ring_bounds (pool : nvmap_page_pool) : Prop :=
  0 ≤ pool.count ∧ pool.count ≤ pool.length ∧ pool.alloc < pool.length ∧
  pool.fill < pool.length

/-- The allocator hands out, from now on, only pages that are not pooled, and no page
twice. -/
def fresh_allocator (s : State) : Prop :=
  (∀ i j p, s.page_alloc_calls ≤ i → s.page_alloc_calls ≤ j →
    s.page_alloc i = some p → s.page_alloc j = some p → i = j) ∧
  (∀ i p, s.page_alloc_calls ≤ i → s.page_alloc i = some p → p ∉ pool_pages s.pool)

/-- The states reachable from an initialised empty pool through the pool operations.
With `teardown` the resize to length 0 is among the operations; with `fresh` the callers
never fill a page that is already pooled (and the allocator never hands one out).  The
resize to a non-zero length is taken for `size < 2^30`, the lengths whose `vzalloc`
request does not wrap in the 32-bit `size_t`. -/
inductive Reachable (teardown fresh : Bool) : State → Prop where
  | init (s : State) (L : Nat) : 1 ≤ L → L < 4294967296 → s.pool = empty_pool L →
      Reachable teardown fresh s
  | frame (s s1 : State) : Reachable teardown fresh s → s1.pool = s.pool →
      Reachable teardown fresh s1
  | fill (s s1 : State) (p : Page) (r : Bool) : Reachable teardown fresh s →
      (fresh = true → p ∉ pool_pages s.pool) →
      nvmap_page_pool_fill s p = .ok (r, s1) → Reachable teardown fresh s1
  | fill_lots (s s1 : State) (pages : List Page) (nr k : Nat) : Reachable teardown fresh s →
      nr ≤ pages.length →
      (fresh = true → (pages.take nr).Nodup ∧ ∀ p ∈ pages.take nr, p ∉ pool_pages s.pool) →
      __nvmap_page_pool_fill_lots_locked s pages nr = .ok (k, s1) →
      Reachable teardown fresh s1
  | alloc (s s1 : State) (page : Option Page) : Reachable teardown fresh s →
      nvmap_page_pool_alloc s = .ok (page, s1) → Reachable teardown fresh s1
  | alloc_lots (s s1 : State) (nr ind : Nat) (out : List (Option Page)) :
      Reachable teardown fresh s →
      __nvmap_page_pool_alloc_lots_locked s nr = .ok (ind, out, s1) →
      Reachable teardown fresh s1
  | free (s s1 : State) (nr_free r : Nat) : Reachable teardown fresh s →
      nvmap_page_pool_free s nr_free = .ok (r, s1) → Reachable teardown fresh s1
  | shrink (s s1 : State) (nr_to_scan r : Nat) : Reachable teardown fresh s →
      nvmap_page_pool_shrink s nr_to_scan = .ok (r, s1) → Reachable teardown fresh s1
  | clear (s s1 : State) (r : Int) : Reachable teardown fresh s →
      nvmap_page_pool_clear s = .ok (r, s1) → Reachable teardown fresh s1
  | resize (s s1 : State) (size : Nat) : Reachable teardown fresh s →
      1 ≤ size → size < 1073741824 →
      nvmap_page_pool_resize s size = .ok s1 → Reachable teardown fresh s1
  | resize_zero (s s1 : State) : teardown = true → Reachable teardown fresh s →
      nvmap_page_pool_resize s 0 = .ok s1 → Reachable teardown fresh s1
  | background_fill (s s1 : State) : Reachable teardown fresh s →
      (fresh = true → fresh_allocator s) →
      nvmap_pp_do_background_fill s = .ok s1 → Reachable teardown fresh s1

/-- A state like `boot_state pool` on a machine reporting 100000 free pages of 4096
bytes, well above the reserved floor. -/
def plenty_state (pool : nvmap_page_pool) : State :=
  { boot_state pool with meminfo := fun _ => { freeram := 100000, mem_unit := 4096 } }

/-- A pool of length 2048 holding the 256 pages 100..355 in slots 0..255. -/
def pool_at_threshold : nvmap_page_pool :=
  { alloc := 0, fill := 256, count := 256, length := 2048,
    page_array := some ((List.range 256).map (fun i => some (100 + i))
      ++ List.replicate 1792 none) }

/-- An empty pool of 3000 slots on a machine reporting 37768 free pages of 4096 bytes,
5000 above the reserved floor. -/
def roomy_state : State :=
  { boot_state (empty_pool 3000) with
    meminfo := fun _ => { freeram := 37768, mem_unit := 4096 } }

/-- An empty pool of 300 slots on a machine reporting 33268 free pages of 4096 bytes,
500 above the reserved floor. -/
def narrow_state : State :=
  { boot_state (empty_pool 300) with
    meminfo := fun _ => { freeram := 33268, mem_unit := 4096 } }

/-- The state `wrapped_state` with the dirty flag set. -/
def dirty_state : State := { wrapped_state with pp_dirty := true }

/-- The pool holds a queue of pages under the ring invariant; with `fresh`, no page twice. -/
def pool_ok (fresh : Bool) (pool : nvmap_page_pool) : Prop :=
  ∃ q, Abs pool q ∧ (fresh = true → q.Nodup)

/-- The pool as a resize to length 0 leaves it: no storage, `length = 0`. -/
def torn (pool : nvmap_page_pool) : Prop :=
  pool.page_array = none ∧ pool.length = 0

/-- The state after `nvmap_page_pool_fill(pool, 7)` on `boot_state (empty_pool 4)`. -/
def one_page_state : State :=
  { boot_state (empty_pool 4) with
    pp_dirty := true,
    pool := { alloc := 0, fill := 1, count := 1, length := 4,
              page_array := some [some 7, none, none, none] } }


/-! ## Accounting of the refill pass, and the shrinker entry points -/

/-- The pages handed out by the `alloc_page` calls numbered `start .. start + n - 1` of the
oracle `f`, in call order; a failed call hands out nothing. -/
def pages_obtained (f : Nat → Option Page) (start n : Nat) : List Page :=
  ((List.range n).map (fun k => f (start + k))).reduceOption

/-- Source: `shrink_page_pools(&total_pages, &available_pages)` for `*total_pages >= 0`: the
values left in `*total_pages` and `*available_pages`, and the state afterwards. -/
def shrink_page_pools (s : State) (total_pages : Nat) : Except Fault (Nat × Nat × State) :=
  let first : Except Fault (Nat × State) :=
    if total_pages = 0 then nvmap_page_pool_shrink s 0 else .ok (total_pages, s)
  match first with
  | .error e => .error e
  | .ok (total, s1) =>
    match nvmap_page_pool_shrink s1 total with
    | .error e => .error e
    | .ok (available, s2) => .ok (total, available, s2)

/-- Source: `enable_pp_set` once `param_set_bool` has stored the value `v` in `enable_pp`
(`ret = 0`): the returned `int` and the state afterwards.  The two counts are only
printed. -/
def enable_pp_set (s : State) (v : Bool) : Except Fault (Int × State) :=
  let s1 := { s with enable_pp := v }
  if !s1.enable_pp then
    match shrink_page_pools s1 0 with
    | .error e => .error e
    | .ok (_, _, s2) => .ok (0, s2)
  else .ok (0, s1)

/-- The state `plenty_state (empty_pool 4)` with a pending refill target of 6 pages. -/
def refill_state : State :=
  { plenty_state (empty_pool 4) with bg_pages_to_fill := 6 }

/-- The state `refill_state` with an allocator that fails from its third call on. -/
def failing_refill_state : State :=
  { refill_state with page_alloc := fun k => if k < 2 then some (1000 + k) else none }

/-- An empty pool of 1024 slots with a pending target of 600 pages, on a machine whose
free memory is 100000 pages at the first `si_meminfo` call and 1000 pages afterwards. -/
def fading_state : State :=
  { boot_state (empty_pool 1024) with
    bg_pages_to_fill := 600,
    meminfo := fun k => if k = 0 then { freeram := 100000, mem_unit := 4096 }
                        else { freeram := 1000, mem_unit := 4096 } }

/-- A pool of length 2048 holding the pages 7 and 8 in slots 0 and 1. -/
def pool_of_two : nvmap_page_pool :=
  { alloc := 0, fill := 2, count := 2, length := 2048,
    page_array := some (some 7 :: some 8 :: List.replicate 2046 none) }

/-- The state `sl` reads the same configuration and the same `si_meminfo` answers as `s`
and is not behind it in `si_meminfo` calls and worker signals. -/
def policy_inputs_kept (s sl : State) : Prop :=
  sl.enable_pp = s.enable_pp ∧ sl.zero_memory = s.zero_memory ∧
  sl.PAGE_SHIFT = s.PAGE_SHIFT ∧ sl.meminfo = s.meminfo ∧
  s.meminfo_calls ≤ sl.meminfo_calls ∧ s.wakeups ≤ sl.wakeups

/-! ## Lemmas on the ring -/

theorem mod_wrap (L n : Nat) (h : n < 2 * L) :
    n % L = if n < L then n else n - L := by
  split
  · exact Nat.mod_eq_of_lt (by assumption)
  · rw [Nat.mod_eq_sub_mod (by omega)]
    exact Nat.mod_eq_of_lt (by omega)

theorem inc_index_eq (L a : Nat) (hL : L < 4294967296) (ha : a < L) :
    nvmap_pp_inc_index L a = (a + 1) % L := by
  unfold nvmap_pp_inc_index u32
  rw [mod_wrap L (a + 1) (by omega)]
  have : (a + 1) % 4294967296 = a + 1 := by omega
  rw [this]
  split <;> split <;> omega

theorem wake_pool (s : State) : (nvmap_pp_wake_up_allocator s).pool = s.pool := by
  unfold nvmap_pp_wake_up_allocator
  simp only
  split_ifs <;> rfl

theorem wake_freed (s : State) : (nvmap_pp_wake_up_allocator s).freed = s.freed := by
  unfold nvmap_pp_wake_up_allocator
  simp only
  split_ifs <;> rfl

theorem clean_pool (s : State) : (pp_clean_cache s).pool = s.pool := by
  unfold pp_clean_cache
  split <;> rfl

theorem clean_freed (s : State) : (pp_clean_cache s).freed = s.freed := by
  unfold pp_clean_cache
  split <;> rfl

theorem Ring.slot_at {pool : nvmap_page_pool} {arr : List (Option Page)} {q : List Page}
    (h : Ring pool arr q) (i : Nat) (hi : i < pool.length) :
    slot pool ((pool.alloc + i) % pool.length) = .ok q[i]? := by
  unfold slot
  rw [h.harr]
  simp only [h.hslots i hi]

theorem Ring.slot_alloc {pool : nvmap_page_pool} {arr : List (Option Page)} {q : List Page}
    (h : Ring pool arr q) : slot pool pool.alloc = .ok q[0]? := by
  have := h.slot_at 0 h.hpos
  rwa [Nat.add_zero, Nat.mod_eq_of_lt h.halloc] at this

theorem Ring.fill_eq_alloc_iff {pool : nvmap_page_pool} {arr : List (Option Page)}
    {q : List Page} (h : Ring pool arr q) :
    pool.fill = pool.alloc ↔ (q.length = 0 ∨ q.length = pool.length) := by
  have h1 := h.hfill
  have h2 := h.halloc
  have h3 := h.hq
  rw [mod_wrap _ _ (by omega)] at h1
  split at h1 <;> omega

theorem Ring.pp_empty_eq {pool : nvmap_page_pool} {arr : List (Option Page)} {q : List Page}
    (h : Ring pool arr q) : pp_empty pool = .ok (decide (q.length = 0)) := by
  unfold pp_empty
  have hiff := h.fill_eq_alloc_iff
  have hpos := h.hpos
  split
  · rw [h.slot_alloc]
    cases q <;> simp
  · rename_i hne
    have : ¬ q.length = 0 := fun h0 => hne (hiff.2 (Or.inl h0))
    simp [this]

theorem Ring.pp_full_eq {pool : nvmap_page_pool} {arr : List (Option Page)} {q : List Page}
    (h : Ring pool arr q) : pp_full pool = .ok (decide (q.length = pool.length)) := by
  unfold pp_full
  have hiff := h.fill_eq_alloc_iff
  have hpos := h.hpos
  split
  · rename_i heq
    rw [h.slot_alloc]
    have := hiff.1 heq
    cases q with
    | nil => simp at this ⊢; omega
    | cons x q => simp at this ⊢; omega
  · rename_i hne
    have : ¬ q.length = pool.length := fun h0 => hne (hiff.2 (Or.inr h0))
    simp [this]

/-- One removal (read `page_array[alloc]`, clear the slot, advance `alloc`) takes the ring
of `x :: q` to the ring of `q`. -/
theorem Ring.take {pool : nvmap_page_pool} {arr : List (Option Page)} {x : Page}
    {q : List Page} (h : Ring pool arr (x :: q)) :
    slot pool pool.alloc = .ok (some x) ∧
    set_slot pool pool.alloc none
      = .ok { pool with page_array := some (arr.set pool.alloc none) } ∧
    Ring (nvmap_pp_alloc_inc { pool with page_array := some (arr.set pool.alloc none) })
      (arr.set pool.alloc none) q := by
  have ha := h.halloc
  have hL := h.hu32
  have hq := h.hq
  have hlen := h.hlen
  simp only [List.length_cons] at hq
  refine ⟨by simpa using h.slot_alloc, ?_, ?_⟩
  · unfold set_slot
    rw [h.harr]
    simp [hlen, ha]
  · have hinc : nvmap_pp_inc_index pool.length pool.alloc = (pool.alloc + 1) % pool.length :=
      inc_index_eq _ _ hL ha
    refine ⟨rfl, by simp [nvmap_pp_alloc_inc, hlen], h.hpos, hL, ?_, by
      simp only [nvmap_pp_alloc_inc]; omega, ?_, ?_⟩
    · simp only [nvmap_pp_alloc_inc, hinc]
      exact Nat.mod_lt _ h.hpos
    · simp only [nvmap_pp_alloc_inc, hinc, Nat.mod_add_mod]
      rw [h.hfill, List.length_cons]
      congr 1
      omega
    · intro i hi
      simp only [nvmap_pp_alloc_inc, hinc, Nat.mod_add_mod] at hi ⊢
      have hidx : pool.alloc + 1 + i = pool.alloc + (i + 1) := by omega
      rw [hidx]
      by_cases hlast : i + 1 < pool.length
      · have hold := h.hslots (i + 1) hlast
        have hne : pool.alloc ≠ (pool.alloc + (i + 1)) % pool.length := by
          rw [mod_wrap _ _ (by omega)]
          split <;> omega
        rw [List.getElem?_set_ne hne, hold]
        simp
      · have hi1 : i + 1 = pool.length := by omega
        have hself : (pool.alloc + (i + 1)) % pool.length = pool.alloc := by
          rw [mod_wrap _ _ (by omega)]
          split <;> omega
        rw [hself, List.getElem?_set_self (by omega)]
        have : q[i]? = none := List.getElem?_eq_none (by omega)
        rw [this]

/-- One insertion (store at `page_array[fill]`, advance `fill`) into a ring that is not
full takes the ring of `q` to the ring of `q ++ [p]`. -/
theorem Ring.put {pool : nvmap_page_pool} {arr : List (Option Page)} {q : List Page}
    (h : Ring pool arr q) (hlt : q.length < pool.length) (p : Page) :
    set_slot pool pool.fill (some p)
      = .ok { pool with page_array := some (arr.set pool.fill (some p)) } ∧
    Ring (nvmap_pp_fill_inc { pool with page_array := some (arr.set pool.fill (some p)) })
      (arr.set pool.fill (some p)) (q ++ [p]) := by
  have ha := h.halloc
  have hL := h.hu32
  have hlen := h.hlen
  have hfill := h.hfill
  have hf : pool.fill < pool.length := by
    rw [hfill]; exact Nat.mod_lt _ h.hpos
  refine ⟨?_, ?_⟩
  · unfold set_slot
    rw [h.harr]
    simp [hlen, hf]
  · have hinc : nvmap_pp_inc_index pool.length pool.fill = (pool.fill + 1) % pool.length :=
      inc_index_eq _ _ hL hf
    refine ⟨rfl, by simp [nvmap_pp_fill_inc, hlen], h.hpos, hL, ha, by
      simp only [nvmap_pp_fill_inc, List.length_append, List.length_singleton]; omega, ?_, ?_⟩
    · simp only [nvmap_pp_fill_inc, hinc, List.length_append, List.length_singleton]
      rw [hfill, Nat.mod_add_mod]
      rfl
    · intro i hi
      simp only [nvmap_pp_fill_inc] at hi ⊢
      by_cases hiq : i = q.length
      · subst hiq
        rw [← hfill, List.getElem?_set_self (by omega)]
        simp
      · have hne : pool.fill ≠ (pool.alloc + i) % pool.length := by
          rw [hfill, mod_wrap _ (pool.alloc + i) (by omega),
            mod_wrap _ (pool.alloc + q.length) (by omega)]
          split <;> split <;> omega
        rw [List.getElem?_set_ne hne, h.hslots i hi]
        by_cases hlt2 : i < q.length
        · rw [List.getElem?_append_left hlt2]
        · have h1 : q[i]? = none := List.getElem?_eq_none (by omega)
          have h2 : (q ++ [p])[i]? = none :=
            List.getElem?_eq_none (by simp only [List.length_append, List.length_singleton]; omega)
          rw [h1, h2]

theorem u32_sub_of_le (a b : Nat) (hab : b ≤ a) (ha : a < 4294967296) : u32_sub a b = a - b := by
  unfold u32_sub
  omega

theorem u32_of_lt (a : Nat) (ha : a < 4294967296) : u32 a = a := by
  unfold u32
  omega

theorem alloc_locked_cons {s : State} {arr : List (Option Page)} {x : Page} {q : List Page}
    (h : Ring s.pool arr (x :: q)) (hc : s.pool.count = (x :: q).length) :
    nvmap_page_pool_alloc_locked s
      = .ok (some x, nvmap_pp_wake_up_allocator
          { pp_clean_cache s with pool := pool_after_take s.pool arr }) ∧
    Ring (pool_after_take s.pool arr) (arr.set s.pool.alloc none) q ∧
    (pool_after_take s.pool arr).count = q.length := by
  obtain ⟨h1, h2, h3⟩ := h.take
  have hL := h.hu32
  have hq := h.hq
  have hinc := inc_index_eq _ _ hL h.halloc
  simp only [List.length_cons] at hq hc
  have hpool : nvmap_pp_alloc_inc { s.pool with page_array := some (arr.set s.pool.alloc none) }
      = { pool_after_take s.pool arr with count := s.pool.count } := by
    simp [nvmap_pp_alloc_inc, pool_after_take, hinc]
  refine ⟨?_, ?_, ?_⟩
  · unfold nvmap_page_pool_alloc_locked
    rw [h.pp_empty_eq]
    simp only [List.length_cons, Nat.add_one_ne_zero, decide_False, clean_pool, h1, h2]
    rw [hpool]
    simp only [pool_after_take, u32_sub_of_le s.pool.count 1 (by omega) (by omega)]
  · rw [hpool] at h3
    exact ⟨rfl, h3.hlen, h3.hpos, h3.hu32, h3.halloc, h3.hq, h3.hfill, h3.hslots⟩
  · simp [pool_after_take, hc]

theorem alloc_locked_nil {s : State} {arr : List (Option Page)}
    (h : Ring s.pool arr []) :
    nvmap_page_pool_alloc_locked s = .ok (none, nvmap_pp_wake_up_allocator s) := by
  unfold nvmap_page_pool_alloc_locked
  rw [h.pp_empty_eq]
  simp

theorem fill_locked_room {s : State} {arr : List (Option Page)} {q : List Page}
    (h : Ring s.pool arr q) (hc : s.pool.count = q.length) (hlt : q.length < s.pool.length)
    (p : Page) :
    nvmap_page_pool_fill_locked s p
      = .ok (true, { s with pp_dirty := true, pool := pool_after_put s.pool arr p }) ∧
    Ring (pool_after_put s.pool arr p) (arr.set s.pool.fill (some p)) (q ++ [p]) ∧
    (pool_after_put s.pool arr p).count = (q ++ [p]).length := by
  obtain ⟨h2, h3⟩ := h.put hlt p
  have hL := h.hu32
  have hf : s.pool.fill < s.pool.length := by
    rw [h.hfill]; exact Nat.mod_lt _ h.hpos
  have hinc := inc_index_eq _ _ hL hf
  have hpool : nvmap_pp_fill_inc { s.pool with page_array := some (arr.set s.pool.fill (some p)) }
      = { pool_after_put s.pool arr p with count := s.pool.count } := by
    simp [nvmap_pp_fill_inc, pool_after_put, hinc]
  refine ⟨?_, ?_, ?_⟩
  · unfold nvmap_page_pool_fill_locked
    rw [h.pp_full_eq]
    have hne : ¬ q.length = s.pool.length := by omega
    simp only [hne, decide_False, h2]
    rw [hpool]
    simp only [pool_after_put, u32_of_lt (s.pool.count + 1) (by omega)]
  · rw [hpool] at h3
    exact ⟨rfl, h3.hlen, h3.hpos, h3.hu32, h3.halloc, h3.hq, h3.hfill, h3.hslots⟩
  · simp [pool_after_put, hc]

theorem fill_locked_full {s : State} {arr : List (Option Page)} {q : List Page}
    (h : Ring s.pool arr q) (hfull : q.length = s.pool.length) (p : Page) :
    nvmap_page_pool_fill_locked s p = .ok (false, s) := by
  unfold nvmap_page_pool_fill_locked
  rw [h.pp_full_eq]
  simp [hfull]

theorem alloc_lots_loop_ring : ∀ (n : Nat) (pool : nvmap_page_pool) (arr : List (Option Page))
    (q : List Page) (out : List (Option Page)),
    Ring pool arr q → n ≤ q.length →
    ∃ pool1 arr1, alloc_lots_loop n pool out = .ok (pool1, out ++ (q.take n).map some) ∧
      Ring pool1 arr1 (q.drop n) ∧ pool1.count = pool.count ∧
      pool1.length = pool.length ∧ pool1.fill = pool.fill := by
  intro n
  induction n with
  | zero =>
    intro pool arr q out h _
    exact ⟨pool, arr, by simp [alloc_lots_loop], by simpa using h, rfl, rfl, rfl⟩
  | succ n ih =>
    intro pool arr q out h hn
    cases q with
    | nil => simp at hn
    | cons x q =>
      obtain ⟨h1, h2, h3⟩ := h.take
      obtain ⟨pool1, arr1, e, hr, hc, hl, hf⟩ :=
        ih _ _ q (out ++ [some x]) h3 (by simpa using hn)
      refine ⟨pool1, arr1, ?_, by simpa using hr, ?_, ?_, ?_⟩
      · simp only [alloc_lots_loop, h1, h2, e]
        simp
      · rw [hc]; rfl
      · rw [hl]; rfl
      · rw [hf]; rfl

theorem fill_lots_loop_ring (pages : List Page) : ∀ (n : Nat) (pool : nvmap_page_pool)
    (arr : List (Option Page)) (q : List Page) (ind : Nat),
    Ring pool arr q → q.length + n ≤ pool.length → ind + n ≤ pages.length →
    ∃ pool1 arr1, fill_lots_loop pages n pool ind = .ok (pool1, ind + n) ∧
      Ring pool1 arr1 (q ++ (pages.drop ind).take n) ∧ pool1.count = pool.count ∧
      pool1.length = pool.length ∧ pool1.alloc = pool.alloc := by
  intro n
  induction n with
  | zero =>
    intro pool arr q ind h _ _
    exact ⟨pool, arr, by simp [fill_lots_loop], by simpa using h, rfl, rfl, rfl⟩
  | succ n ih =>
    intro pool arr q ind h hn hp
    have hind : ind < pages.length := by omega
    obtain ⟨h2, h3⟩ := h.put (by omega) pages[ind]
    obtain ⟨pool1, arr1, e, hr, hc, hl, ha⟩ :=
      ih _ _ (q ++ [pages[ind]]) (ind + 1) h3 (by
        simp only [List.length_append, List.length_singleton, nvmap_pp_fill_inc]; omega) (by omega)
    refine ⟨pool1, arr1, ?_, ?_, ?_, ?_, ?_⟩
    · simp only [fill_lots_loop, List.getElem?_eq_getElem hind, h2, e]
      congr 2
      omega
    · rw [List.drop_eq_getElem_cons hind, List.take_succ_cons]
      simpa using hr
    · rw [hc]; rfl
    · rw [hl]; rfl
    · rw [ha]; rfl

theorem reduceOption_map_some_eq (q : List Page) : (q.map some).reduceOption = q := by
  induction q with
  | nil => rfl
  | cons x q ih => simpa [List.reduceOption_cons_of_some] using ih

theorem abs_pages {pool : nvmap_page_pool} {q : List Page} (h : Abs pool q) :
    pool_pages pool = q := by
  obtain ⟨arr, hr, hc⟩ := h
  have hq : pool_queue pool = q.map some := by
    unfold pool_queue
    rw [hr.harr]
    simp only
    apply List.ext_getElem
    · simp [hc]
    · intro i h1 h2
      simp only [List.length_map, List.length_range] at h1 h2
      have := hr.hslots i (by have := hr.hq; omega)
      simp [this, List.getElem?_eq_getElem h2]
  unfold pool_pages
  rw [hq]
  exact reduceOption_map_some_eq q

theorem inv_abs {pool : nvmap_page_pool} (h : ring_inv pool) : Abs pool (pool_pages pool) := by
  unfold ring_inv at h
  cases harr : pool.page_array with
  | none => simp [harr] at h
  | some arr =>
    simp only [harr] at h
    obtain ⟨hlen, hpos, hL, hc, ha, hf, hfill, hocc⟩ := h
    let q : List Page :=
      (List.range pool.count).map
        (fun i => (arr.getD ((pool.alloc + i) % pool.length) none).getD 0)
    have hql : q.length = pool.count := by simp [q]
    have habs : Abs pool q := by
      refine ⟨arr, ⟨harr, hlen, hpos, hL, ha, by omega, by rw [hql]; exact hfill, ?_⟩, hql.symm⟩
      intro i hi
      have hidx : (pool.alloc + i) % pool.length < arr.length := by
        rw [hlen]; exact Nat.mod_lt _ hpos
      have hocc1 := hocc i hi
      rw [List.getD_eq_getElem?_getD, List.getElem?_eq_getElem hidx] at hocc1
      simp only [Option.getD_some] at hocc1
      rw [List.getElem?_eq_getElem hidx]
      by_cases hic : i < pool.count
      · have hs := hocc1.2 hic
        obtain ⟨x, hx⟩ := Option.isSome_iff_exists.1 hs
        have : q[i]? = some x := by
          simp [q, List.getElem?_range hic, List.getElem?_eq_getElem hidx, hx]
        rw [this, hx]
      · have hn : arr[(pool.alloc + i) % pool.length] = none := by
          cases hv : arr[(pool.alloc + i) % pool.length] with
          | none => rfl
          | some x => rw [hv] at hocc1; exact absurd (hocc1.1 rfl) hic
        have : q[i]? = none := List.getElem?_eq_none (by omega)
        rw [this, hn]
    rw [abs_pages habs]
    exact habs

theorem alloc_lots_abs {s : State} {q : List Page} (h : Abs s.pool q) (nr : Nat) :
    ∃ pool2, __nvmap_page_pool_alloc_lots_locked s nr
        = .ok (min nr q.length, (q.take nr).map some,
            nvmap_pp_wake_up_allocator { pp_clean_cache s with pool := pool2 }) ∧
      Abs pool2 (q.drop nr) ∧ pool2.length = s.pool.length ∧ pool2.fill = s.pool.fill := by
  obtain ⟨arr, hr, hc⟩ := h
  have hq := hr.hq
  have hL := hr.hu32
  obtain ⟨pool1, arr1, e, hr1, hc1, hl1, hf1⟩ :=
    alloc_lots_loop_ring (min nr q.length) s.pool arr q [] hr (Nat.min_le_right _ _)
  have htake : List.take (min nr q.length) q = List.take nr q := by
    rw [List.take_eq_take]; simp
  have hdrop : List.drop (min nr q.length) q = List.drop nr q := by
    apply List.ext_getElem? ; intro i
    simp only [List.getElem?_drop]
    by_cases hnr : nr ≤ q.length
    · rw [Nat.min_eq_left hnr]
    · rw [Nat.min_eq_right (by omega), List.getElem?_eq_none (by omega),
        List.getElem?_eq_none (by omega)]
  rw [htake, List.nil_append] at e
  rw [hdrop] at hr1
  refine ⟨{ pool1 with count := q.length - min nr q.length }, ?_, ?_, hl1, hf1⟩
  · unfold __nvmap_page_pool_alloc_lots_locked
    simp only [clean_pool, hc, e, List.length_map, List.length_take]
    rw [hc1, hc, u32_sub_of_le _ _ (Nat.min_le_right _ _) (by omega)]
  · refine ⟨arr1, ⟨hr1.harr, hr1.hlen, hr1.hpos, hr1.hu32, hr1.halloc, hr1.hq, hr1.hfill,
      hr1.hslots⟩, ?_⟩
    simp only [List.length_drop]
    omega

theorem fill_lots_abs {s : State} {q : List Page} (h : Abs s.pool q) (pages : List Page)
    (nr : Nat) (hnr : min nr (s.pool.length - q.length) ≤ pages.length) :
    ∃ pool2, __nvmap_page_pool_fill_lots_locked s pages nr
        = .ok (min nr (s.pool.length - q.length), { s with pool := pool2 }) ∧
      Abs pool2 (q ++ pages.take (min nr (s.pool.length - q.length))) ∧
      pool2.length = s.pool.length ∧ pool2.alloc = s.pool.alloc := by
  obtain ⟨arr, hr, hc⟩ := h
  have hq := hr.hq
  have hL := hr.hu32
  have hsub : u32_sub s.pool.length s.pool.count = s.pool.length - q.length := by
    rw [hc, u32_sub_of_le _ _ hq hL]
  have hmin : min (s.pool.length - q.length) nr = min nr (s.pool.length - q.length) :=
    Nat.min_comm _ _
  by_cases hz : min nr (s.pool.length - q.length) = 0
  · refine ⟨s.pool, ?_, ?_, rfl, rfl⟩
    · unfold __nvmap_page_pool_fill_lots_locked
      simp only [hsub, hmin, hz, if_true]
    · rw [hz]
      exact ⟨arr, by simpa using hr, by simpa using hc⟩
  · obtain ⟨pool1, arr1, e, hr1, hc1, hl1, ha1⟩ :=
      fill_lots_loop_ring pages (min nr (s.pool.length - q.length)) s.pool arr q 0 hr
        (by omega) (by omega)
    simp only [Nat.zero_add, List.drop_zero] at e hr1
    refine ⟨{ pool1 with count := q.length + min nr (s.pool.length - q.length) }, ?_, ?_, hl1, ha1⟩
    · unfold __nvmap_page_pool_fill_lots_locked
      simp only [hsub, hmin, hz, if_false, e]
      rw [hc1, hc, u32_of_lt _ (by omega)]
    · refine ⟨arr1, ⟨hr1.harr, hr1.hlen, hr1.hpos, hr1.hu32, hr1.halloc, hr1.hq, hr1.hfill,
        hr1.hslots⟩, ?_⟩
      simp only [List.length_append, List.length_take]
      omega


theorem free_loop_abs : ∀ (n : Nat) (s : State) (q : List Page), Abs s.pool q →
    ∃ s1, free_loop n s = .ok (n - min n q.length, s1) ∧ Abs s1.pool (q.drop n) ∧
      s1.freed = s.freed ++ q.take n ∧ s1.pool.length = s.pool.length ∧
      s1.pool.fill = s.pool.fill := by
  intro n
  induction n with
  | zero =>
    intro s q h
    exact ⟨s, by simp [free_loop], by simpa using h, by simp, rfl, rfl⟩
  | succ n ih =>
    intro s q h
    obtain ⟨arr, hr, hc⟩ := h
    cases q with
    | nil =>
      refine ⟨nvmap_pp_wake_up_allocator s, ?_, ?_, ?_, ?_, ?_⟩
      · simp [free_loop, alloc_locked_nil hr]
      · rw [wake_pool]; exact ⟨arr, by simpa using hr, by simpa using hc⟩
      · simp [wake_freed]
      · rw [wake_pool]
      · rw [wake_pool]
    | cons x q =>
      obtain ⟨e, hr1, hc1⟩ := alloc_locked_cons hr hc
      obtain ⟨s1, e1, habs, hfr, hl, hf⟩ := ih
        { nvmap_pp_wake_up_allocator
            { pp_clean_cache s with pool := pool_after_take s.pool arr } with
          freed := (nvmap_pp_wake_up_allocator
            { pp_clean_cache s with pool := pool_after_take s.pool arr }).freed ++ [x] } q
        (by simp only [wake_pool]; exact ⟨_, hr1, hc1⟩)
      refine ⟨s1, ?_, by simpa using habs, ?_, ?_, ?_⟩
      · simp only [free_loop, e, __free_page, e1, List.length_cons]
        congr 2
        omega
      · rw [hfr]
        simp [wake_freed, clean_freed]
      · rw [hl]; simp [wake_pool, pool_after_take]
      · rw [hf]; simp [wake_pool, pool_after_take]

theorem resize_free_loop_abs : ∀ (q : List Page) (s : State) (fuel : Nat), Abs s.pool q →
    q.length < fuel →
    ∃ s1, resize_free_loop fuel s = .ok s1 ∧ Abs s1.pool [] ∧
      s1.freed = s.freed ++ q ∧ s1.pool.length = s.pool.length := by
  intro q
  induction q with
  | nil =>
    intro s fuel h hfuel
    obtain ⟨arr, hr, hc⟩ := h
    cases fuel with
    | zero => omega
    | succ fuel =>
      exact ⟨s, by simp [resize_free_loop, hr.pp_empty_eq], ⟨arr, hr, hc⟩, by simp, rfl⟩
  | cons x q ih =>
    intro s fuel h hfuel
    obtain ⟨arr, hr, hc⟩ := h
    cases fuel with
    | zero => omega
    | succ fuel =>
      obtain ⟨e, hr1, hc1⟩ := alloc_locked_cons hr hc
      obtain ⟨s1, e1, habs, hfr, hl⟩ := ih
        { nvmap_pp_wake_up_allocator
            { pp_clean_cache s with pool := pool_after_take s.pool arr } with
          freed := (nvmap_pp_wake_up_allocator
            { pp_clean_cache s with pool := pool_after_take s.pool arr }).freed ++ [x] } fuel
        (by simp only [wake_pool]; exact ⟨_, hr1, hc1⟩)
        (by simp only [List.length_cons] at hfuel; omega)
      refine ⟨s1, ?_, habs, ?_, ?_⟩
      · simp only [resize_free_loop, hr.pp_empty_eq, List.length_cons, Nat.add_one_ne_zero,
          decide_False, e, __free_page, e1]
      · rw [hfr]
        simp [wake_freed, clean_freed]
      · rw [hl]; simp [wake_pool, pool_after_take]

theorem vfree_pool (s : State) (a : Option (List (Option Page))) : (vfree s a).pool = s.pool := by
  unfold vfree
  split <;> rfl

theorem vfree_freed (s : State) (a : Option (List (Option Page))) :
    (vfree s a).freed = s.freed := by
  unfold vfree
  split <;> rfl

theorem Abs.array_size_ge {pool : nvmap_page_pool} {q : List Page} (h : Abs pool q) :
    q.length ≤ array_size pool := by
  obtain ⟨arr, hr, _⟩ := h
  unfold array_size
  rw [hr.harr]
  simp only [hr.hlen]
  exact hr.hq

/-- The resized pool holds the `size` oldest pages; the others went to `__free_page`. -/
theorem resize_abs {s : State} {q : List Page} (h : Abs s.pool q) (size : Nat)
    (h1 : 0 < size) (h2 : size < 1073741824) (hv : s.vzalloc_ok s.vzalloc_calls = true) :
    ∃ s1, nvmap_page_pool_resize s size = .ok s1 ∧ Abs s1.pool (q.take size) ∧
      s1.pool.length = size ∧ s1.freed = s.freed ++ q.drop size ∧
      (size ≠ s.pool.length → s1.pool.alloc = 0) := by
  by_cases hsz : size = s.pool.length
  · obtain ⟨arr, hr, hc⟩ := h
    have hq := hr.hq
    refine ⟨s, by simp [nvmap_page_pool_resize, hsz], ?_, hsz.symm, ?_, fun h0 => absurd hsz h0⟩
    · rw [List.take_of_length_le (by omega)]; exact ⟨arr, hr, hc⟩
    · rw [List.drop_of_length_le (by omega)]; simp
  · obtain ⟨pool2, e, habs2, hl2, _⟩ := alloc_lots_abs
      (s := { s with vzalloc_calls := s.vzalloc_calls + 1 }) h size
    obtain ⟨s2, e2, habs3, hfr, hl3⟩ := resize_free_loop_abs (q.drop size)
      (nvmap_pp_wake_up_allocator
        { pp_clean_cache { s with vzalloc_calls := s.vzalloc_calls + 1 } with pool := pool2 })
      (array_size pool2 + 1)
      (by rw [wake_pool]; exact habs2)
      (by have := habs2.array_size_ge; omega)
    refine ⟨vfree { s2 with pool :=
        { s2.pool with
          page_array := some ((q.take size).map some
            ++ List.replicate (size - ((q.take size).map some).length) none),
          alloc := 0,
          fill := if min size q.length = size then 0 else min size q.length,
          count := min size q.length,
          length := size } } s2.pool.page_array, ?_, ?_, ?_, ?_, ?_⟩
    · have hbytes : u32 (4 * size) = 4 * size := u32_of_lt _ (by omega)
      have hnz : ¬ 4 * size = 0 := by omega
      have hslots : 4 * size / 4 = size := by omega
      have hfit : ¬ size < min size q.length := by omega
      simp only [nvmap_page_pool_resize, hsz, if_false, Nat.pos_iff_ne_zero.1 h1, hv,
        hbytes, ne_eq, hnz, not_false_eq_true, decide_True, Bool.and_self, Bool.not_true,
        Bool.false_eq_true, hslots, hfit, e, wake_pool, e2]
    · rw [vfree_pool]
      have hmin : min size q.length ≤ size := Nat.min_le_left _ _
      refine ⟨_, ⟨rfl, ?_, h1, Nat.lt_trans h2 (by decide), h1, ?_, ?_, ?_⟩, ?_⟩
      · simp only [List.length_append, List.length_map, List.length_take, List.length_replicate]
        omega
      · simp only [List.length_take]; omega
      · simp only [List.length_take, Nat.zero_add]
        split
        · rename_i heq; rw [heq, Nat.mod_self]
        · rename_i hne; rw [Nat.mod_eq_of_lt (by omega)]
      · intro i hi
        simp only [Nat.zero_add] at hi ⊢
        rw [Nat.mod_eq_of_lt hi]
        by_cases hiq : i < min size q.length
        · have hi2 : i < (List.take size q).length := by
            simp only [List.length_take]; exact hiq
          rw [List.getElem?_append_left (by simpa using hi2), List.getElem?_map,
            List.getElem?_eq_getElem hi2]
          rfl
        · rw [List.getElem?_append_right (by
            simp only [List.length_map, List.length_take]; omega)]
          have hnone : (List.take size q)[i]? = none :=
            List.getElem?_eq_none (by simp only [List.length_take]; omega)
          rw [hnone, List.getElem?_replicate_of_lt (by
            simp only [List.length_map, List.length_take]; omega)]
      · simp
    · rw [vfree_pool]
    · rw [vfree_freed, hfr]
      simp [wake_freed, clean_freed]
    · intro _
      rw [vfree_pool]


theorem wake_dirty (s : State) : (nvmap_pp_wake_up_allocator s).pp_dirty = s.pp_dirty := by
  unfold nvmap_pp_wake_up_allocator
  simp only
  split_ifs <;> rfl

theorem wake_cleans (s : State) :
    (nvmap_pp_wake_up_allocator s).cache_cleans = s.cache_cleans := by
  unfold nvmap_pp_wake_up_allocator
  simp only
  split_ifs <;> rfl

theorem wake_evals (s : State) :
    (nvmap_pp_wake_up_allocator s).policy_evals = s.policy_evals + 1 := by
  unfold nvmap_pp_wake_up_allocator
  simp only
  split_ifs <;> rfl

theorem wake_vfreed (s : State) : (nvmap_pp_wake_up_allocator s).vfreed = s.vfreed := by
  unfold nvmap_pp_wake_up_allocator
  simp only
  split_ifs <;> rfl

theorem clean_evals (s : State) : (pp_clean_cache s).policy_evals = s.policy_evals := by
  unfold pp_clean_cache
  split <;> rfl

theorem clear_loop_abs : ∀ (q : List Page) (s : State) (fuel : Nat), Abs s.pool q →
    q.length < fuel →
    ∃ s1, clear_loop fuel s = .ok s1 ∧ Abs s1.pool [] ∧
      s1.freed = s.freed ++ q ∧ s1.pool.length = s.pool.length ∧
      s1.policy_evals = s.policy_evals + q.length + 1 := by
  intro q
  induction q with
  | nil =>
    intro s fuel h hfuel
    obtain ⟨arr, hr, hc⟩ := h
    cases fuel with
    | zero => omega
    | succ fuel =>
      refine ⟨nvmap_pp_wake_up_allocator s, by simp [clear_loop, alloc_locked_nil hr], ?_,
        by simp [wake_freed], by rw [wake_pool], by simp [wake_evals]⟩
      rw [wake_pool]; exact ⟨arr, hr, hc⟩
  | cons x q ih =>
    intro s fuel h hfuel
    obtain ⟨arr, hr, hc⟩ := h
    cases fuel with
    | zero => omega
    | succ fuel =>
      obtain ⟨e, hr1, hc1⟩ := alloc_locked_cons hr hc
      obtain ⟨s1, e1, habs, hfr, hl, hev⟩ := ih
        { nvmap_pp_wake_up_allocator
            { pp_clean_cache s with pool := pool_after_take s.pool arr } with
          freed := (nvmap_pp_wake_up_allocator
            { pp_clean_cache s with pool := pool_after_take s.pool arr }).freed ++ [x] } fuel
        (by simp only [wake_pool]; exact ⟨_, hr1, hc1⟩)
        (by simp only [List.length_cons] at hfuel; omega)
      refine ⟨s1, ?_, habs, ?_, ?_, ?_⟩
      · simp only [clear_loop, e, __free_page, e1]
      · rw [hfr]
        simp [wake_freed, clean_freed]
      · rw [hl]; simp [wake_pool, pool_after_take]
      · rw [hev]
        simp only [wake_evals, clean_evals, List.length_cons]
        omega

/-! ## The release loop of resize never runs out of iterations -/

theorem countP_set_none : ∀ (arr : List (Option Page)) (i : Nat) (x : Page),
    arr[i]? = some (some x) →
    (arr.set i none).countP Option.isSome + 1 = arr.countP Option.isSome := by
  intro arr
  induction arr with
  | nil => intro i x h; simp at h
  | cons a arr ih =>
    intro i x h
    cases i with
    | zero =>
      simp only [List.getElem?_cons_zero, Option.some.injEq] at h
      subst h
      simp [List.countP_cons]
    | succ i =>
      simp only [List.getElem?_cons_succ] at h
      have := ih i x h
      simp only [List.set_cons_succ, List.countP_cons]
      omega

theorem slot_progress (pool : nvmap_page_pool) (i : Nat) :
    slot pool i ≠ .error .no_progress := by
  unfold slot
  split
  · simp
  · split <;> simp

theorem set_slot_progress (pool : nvmap_page_pool) (i : Nat) (v : Option Page) :
    set_slot pool i v ≠ .error .no_progress := by
  unfold set_slot
  split
  · simp
  · split <;> simp

theorem pp_empty_progress (pool : nvmap_page_pool) : pp_empty pool ≠ .error .no_progress := by
  unfold pp_empty
  split
  · have := slot_progress pool pool.alloc
    cases h : slot pool pool.alloc with
    | error e => rw [h] at this; simpa using this
    | ok v => simp
  · simp

theorem alloc_locked_progress (s : State) :
    nvmap_page_pool_alloc_locked s ≠ .error .no_progress := by
  unfold nvmap_page_pool_alloc_locked
  have h1 := pp_empty_progress s.pool
  have h2 := slot_progress (pp_clean_cache s).pool (pp_clean_cache s).pool.alloc
  have h3 := set_slot_progress (pp_clean_cache s).pool (pp_clean_cache s).pool.alloc none
  cases he : pp_empty s.pool with
  | error e => rw [he] at h1; simpa using h1
  | ok b =>
    cases b with
    | true => simp
    | false =>
      simp only
      cases hs : slot (pp_clean_cache s).pool (pp_clean_cache s).pool.alloc with
      | error e => rw [hs] at h2; simpa using h2
      | ok page =>
        simp only
        cases hw : set_slot (pp_clean_cache s).pool (pp_clean_cache s).pool.alloc none with
        | error e => rw [hw] at h3; simpa using h3
        | ok pool1 => simp

/-- A removal that returns a page leaves one occupied slot less. -/
theorem alloc_locked_occupied (s s1 : State) (x : Page)
    (h : nvmap_page_pool_alloc_locked s = .ok (some x, s1)) :
    occupied s1.pool + 1 = occupied s.pool := by
  unfold nvmap_page_pool_alloc_locked at h
  cases he : pp_empty s.pool with
  | error e => rw [he] at h; simp at h
  | ok b =>
    rw [he] at h
    cases b with
    | true => simp at h
    | false =>
      simp only [clean_pool] at h
      cases harr : s.pool.page_array with
      | none => simp [slot, harr] at h
      | some arr =>
        cases hget : arr[s.pool.alloc]? with
        | none => simp [slot, harr, hget] at h
        | some v =>
          have hlt : s.pool.alloc < arr.length := by
            by_contra hn
            rw [List.getElem?_eq_none (by omega)] at hget
            simp at hget
          simp only [slot, harr, hget, set_slot, hlt, if_true, Except.ok.injEq,
            Prod.mk.injEq] at h
          obtain ⟨hv, hs1⟩ := h
          subst hv
          rw [← hs1, wake_pool]
          simp only [occupied, nvmap_pp_alloc_inc, harr]
          exact countP_set_none arr s.pool.alloc x hget

theorem resize_free_loop_progress : ∀ (fuel : Nat) (s : State), occupied s.pool < fuel →
    resize_free_loop fuel s ≠ .error .no_progress := by
  intro fuel
  induction fuel with
  | zero => intro s h; omega
  | succ fuel ih =>
    intro s h
    unfold resize_free_loop
    have h1 := pp_empty_progress s.pool
    have h2 := alloc_locked_progress s
    cases he : pp_empty s.pool with
    | error e => rw [he] at h1; simpa using h1
    | ok b =>
      cases b with
      | true => simp
      | false =>
        simp only
        cases ha : nvmap_page_pool_alloc_locked s with
        | error e => rw [ha] at h2; simpa using h2
        | ok r =>
          obtain ⟨page, s1⟩ := r
          cases page with
          | none => simp [__free_page]
          | some x =>
            have hocc := alloc_locked_occupied s s1 x ha
            simp only [__free_page]
            exact ih _ (by simp only; omega)

/-- The bound `array_size + 1` used in `nvmap_page_pool_resize` is enough in every state:
the release loop returns or faults, it never runs out of iterations. -/
theorem resize_free_loop_fuel (s : State) :
    resize_free_loop (array_size s.pool + 1) s ≠ .error .no_progress := by
  apply resize_free_loop_progress
  unfold occupied array_size
  cases s.pool.page_array with
  | none => simp
  | some arr =>
    simp only
    have := List.countP_le_length Option.isSome (l := arr)
    omega


theorem clear_loop_progress : ∀ (fuel : Nat) (s : State), occupied s.pool < fuel →
    clear_loop fuel s ≠ .error .no_progress := by
  intro fuel
  induction fuel with
  | zero => intro s h; omega
  | succ fuel ih =>
    intro s h
    unfold clear_loop
    have h2 := alloc_locked_progress s
    cases ha : nvmap_page_pool_alloc_locked s with
    | error e => rw [ha] at h2; simpa using h2
    | ok r =>
      obtain ⟨page, s1⟩ := r
      cases page with
      | none => simp
      | some x =>
        have hocc := alloc_locked_occupied s s1 x ha
        simp only [__free_page]
        exact ih _ (by simp only; omega)

/-- The bound `array_size + 1` used in `nvmap_page_pool_clear` is enough in every state. -/
theorem clear_loop_fuel (s : State) :
    clear_loop (array_size s.pool + 1) s ≠ .error .no_progress := by
  apply clear_loop_progress
  unfold occupied array_size
  cases s.pool.page_array with
  | none => simp
  | some arr =>
    simp only
    have := List.countP_le_length Option.isSome (l := arr)
    omega


/-! ## Properties of the pool operations -/

theorem abs_inv {pool : nvmap_page_pool} {q : List Page} (h : Abs pool q) : ring_inv pool := by
  obtain ⟨arr, hr, hc⟩ := h
  unfold ring_inv
  rw [hr.harr]
  simp only
  have hq := hr.hq
  refine ⟨hr.hlen, hr.hpos, hr.hu32, by omega, hr.halloc, ?_, by rw [hc]; exact hr.hfill, ?_⟩
  · rw [hr.hfill]; exact Nat.mod_lt _ hr.hpos
  · intro i hi
    rw [List.getD_eq_getElem?_getD, hr.hslots i hi, hc, Option.getD_some]
    constructor
    · intro hs
      by_contra hn
      rw [List.getElem?_eq_none (by omega)] at hs
      simp at hs
    · intro hs
      rw [List.getElem?_eq_getElem hs]
      rfl

theorem abs_empty_pool (L : Nat) (h1 : 1 ≤ L) (h2 : L < 4294967296) : Abs (empty_pool L) [] := by
  refine ⟨List.replicate L none, ⟨rfl, by simp [empty_pool], h1, h2, h1, Nat.zero_le _, ?_, ?_⟩, rfl⟩
  · simp [empty_pool]
  · intro i hi
    simp only [empty_pool] at hi ⊢
    rw [List.getElem?_replicate_of_lt (Nat.mod_lt _ h1)]
    rfl

theorem Abs.count_eq {pool : nvmap_page_pool} {q : List Page} (h : Abs pool q) :
    pool.count = q.length := by
  obtain ⟨_, _, hc⟩ := h
  exact hc

theorem Abs.len_le {pool : nvmap_page_pool} {q : List Page} (h : Abs pool q) :
    q.length ≤ pool.length := by
  obtain ⟨_, hr, _⟩ := h
  exact hr.hq

/-- Single fill against the queue. -/
theorem fill_abs {s : State} {q : List Page} (h : Abs s.pool q) (p : Page) :
    ∃ s1, nvmap_page_pool_fill s p = .ok (decide (q.length < s.pool.length), s1) ∧
      Abs s1.pool (if q.length < s.pool.length then q ++ [p] else q) ∧
      s1.pool.length = s.pool.length ∧ s1.freed = s.freed := by
  obtain ⟨arr, hr, hc⟩ := h
  have hq := hr.hq
  by_cases hlt : q.length < s.pool.length
  · obtain ⟨e, hr1, hc1⟩ := fill_locked_room hr hc hlt p
    exact ⟨{ s with pp_dirty := true, pool := pool_after_put s.pool arr p },
      by simpa [nvmap_page_pool_fill, hlt] using e, by
      simp only [hlt, if_true]; exact ⟨_, hr1, hc1⟩, rfl, rfl⟩
  · have e := fill_locked_full hr (by omega) p
    exact ⟨s, by simpa [nvmap_page_pool_fill, hlt] using e, by
      simp only [hlt, if_false]; exact ⟨_, hr, hc⟩, rfl, rfl⟩

/-- Single alloc against the queue. -/
theorem alloc_abs {s : State} {q : List Page} (h : Abs s.pool q) :
    ∃ s1, nvmap_page_pool_alloc s = .ok (q.head?, s1) ∧ Abs s1.pool q.tail ∧
      s1.pool.length = s.pool.length ∧ s1.pool.fill = s.pool.fill ∧ s1.freed = s.freed := by
  obtain ⟨arr, hr, hc⟩ := h
  cases q with
  | nil =>
    refine ⟨_, by simpa [nvmap_page_pool_alloc] using alloc_locked_nil hr, ?_, ?_, ?_, ?_⟩
    · rw [wake_pool]; exact ⟨arr, hr, hc⟩
    · rw [wake_pool]
    · rw [wake_pool]
    · rw [wake_freed]
  | cons x q =>
    obtain ⟨e, hr1, hc1⟩ := alloc_locked_cons hr hc
    refine ⟨_, by simpa [nvmap_page_pool_alloc] using e, ?_, ?_, ?_, ?_⟩
    · rw [wake_pool]; exact ⟨_, hr1, hc1⟩
    · rw [wake_pool]; rfl
    · rw [wake_pool]; rfl
    · rw [wake_freed]; simp [clean_freed]

theorem run_ops_abs : ∀ (ops : List Op) (s : State) (q : List Page) (f a : Nat) (cs : List Nat),
    Abs s.pool q → a + q.length = f → (∀ c ∈ cs, c ≤ s.pool.length) →
    ∃ r, run_ops ops s f a cs = .ok r ∧ r.allocs_ok + r.final.pool.count = r.fills_ok ∧
      r.final.pool.length = s.pool.length ∧ r.counts.length = cs.length + ops.length ∧
      (∀ c ∈ r.counts, c ≤ s.pool.length) ∧ r.final.pool.count ≤ s.pool.length := by
  intro ops
  induction ops with
  | nil =>
    intro s q f a cs h hfa hcs
    exact ⟨_, rfl, by simp [h.count_eq, hfa], rfl, by simp, hcs, by
      simp only [h.count_eq]; exact h.len_le⟩
  | cons op ops ih =>
    intro s q f a cs h hfa hcs
    cases op with
    | fill p =>
      obtain ⟨s1, e, h1, hl, _⟩ := fill_abs h p
      have hle := h.len_le
      obtain ⟨r, er, hr1, hr2, hr3, hr4, hr5⟩ := ih s1 _
        (if decide (q.length < s.pool.length) = true then f + 1 else f) a
        (cs ++ [s1.pool.count]) h1
        (by by_cases hlt : q.length < s.pool.length <;> simp [hlt] <;> omega)
        (by
          intro c hc
          rw [List.mem_append, List.mem_singleton] at hc
          rcases hc with hc | hc
          · rw [hl]; exact hcs c hc
          · rw [hc, h1.count_eq]; exact h1.len_le)
      refine ⟨r, by simp only [run_ops, e, er], hr1, by rw [hr2, hl], ?_, by rwa [hl] at hr4,
        by rwa [hl] at hr5⟩
      rw [hr3]; simp; omega
    | alloc =>
      obtain ⟨s1, e, h1, hl, _, _⟩ := alloc_abs h
      obtain ⟨r, er, hr1, hr2, hr3, hr4, hr5⟩ := ih s1 _ f
        (if q.head?.isSome = true then a + 1 else a)
        (cs ++ [s1.pool.count]) h1
        (by cases q <;> simp at hfa ⊢ <;> omega)
        (by
          intro c hc
          rw [List.mem_append, List.mem_singleton] at hc
          rcases hc with hc | hc
          · rw [hl]; exact hcs c hc
          · rw [hc, h1.count_eq]; exact h1.len_le)
      refine ⟨r, by simp only [run_ops, e, er], hr1, by rw [hr2, hl], ?_, by rwa [hl] at hr4,
        by rwa [hl] at hr5⟩
      rw [hr3]; simp; omega

/-- C1: on a pool of length `L >= 1` (a `u32`) that starts empty, every finite sequence of
`nvmap_page_pool_fill` / `nvmap_page_pool_alloc` calls runs without fault, the final
`count` equals the number of fills that returned true minus the number of allocs that
returned a page, and `count` was at most `L` after every call of the sequence. -/
theorem count_is_fills_minus_allocs (s : State) (L : Nat) (hL : 1 ≤ L) (hL32 : L < 4294967296)
    (hs : s.pool = empty_pool L) (ops : List Op) :
    ∃ r, run_ops ops s 0 0 [] = .ok r ∧
      r.allocs_ok ≤ r.fills_ok ∧
      r.final.pool.count = r.fills_ok - r.allocs_ok ∧
      r.counts.length = ops.length ∧
      (∀ c ∈ r.counts, 0 ≤ c ∧ c ≤ L) ∧
      r.final.pool.count ≤ L := by
  have habs : Abs s.pool [] := by rw [hs]; exact abs_empty_pool L hL hL32
  obtain ⟨r, e, h1, h2, h3, h4, h5⟩ := run_ops_abs ops s [] 0 0 [] habs rfl (by simp)
  have hlen : s.pool.length = L := by rw [hs]; rfl
  refine ⟨r, e, by omega, by omega, by simpa using h3, ?_, ?_⟩
  · intro c hc
    exact ⟨Nat.zero_le _, by rw [← hlen]; exact h4 c hc⟩
  · rw [← hlen]; exact h5


/-- Witness of C1: a run of eight calls on an empty pool of length 2. -/
theorem count_is_fills_minus_allocs_witness :
    1 ≤ 2 ∧ ∃ r, run_ops [Op.fill 7, Op.alloc, Op.alloc, Op.fill 8, Op.fill 9, Op.fill 10,
        Op.alloc, Op.fill 11] (boot_state (empty_pool 2)) 0 0 [] = .ok r ∧
      r.allocs_ok ≤ r.fills_ok ∧
      r.final.pool.count = r.fills_ok - r.allocs_ok ∧
      r.counts.length = 8 ∧
      (∀ c ∈ r.counts, 0 ≤ c ∧ c ≤ 2) ∧
      r.final.pool.count ≤ 2 :=
  ⟨by decide, count_is_fills_minus_allocs (boot_state (empty_pool 2)) 2 (by decide) (by decide)
    rfl [Op.fill 7, Op.alloc, Op.alloc, Op.fill 8, Op.fill 9, Op.fill 10, Op.alloc, Op.fill 11]⟩

/-- C2 as stated fails: in the scenario on an empty pool of length 4 the fifth page E is
accepted, not rejected (only three pages are pooled when it arrives), and the bulk
allocation hands out four pages `[B, C, D, E]`, not `[B, C, D]`. -/
theorem scenario_fifth_page_accepted :
    scenario (boot_state (empty_pool 4)) 1 2 3 4 5
      = .ok { count_after_abc := 3, first_alloc := some 1, count_after_alloc := 2,
              fill_d := true, fill_e := true, count_after_de := 4, bulk_returned := 4,
              bulk_pages := [some 2, some 3, some 4, some 5], count_at_end := 0 } ∧
    scenario (boot_state (empty_pool 4)) 1 2 3 4 5
      ≠ .ok { count_after_abc := 3, first_alloc := some 1, count_after_alloc := 2,
              fill_d := true, fill_e := false, count_after_de := 4, bulk_returned := 3,
              bulk_pages := [some 2, some 3, some 4], count_at_end := 0 } := by
  have e : scenario (boot_state (empty_pool 4)) 1 2 3 4 5
      = .ok { count_after_abc := 3, first_alloc := some 1, count_after_alloc := 2,
              fill_d := true, fill_e := true, count_after_de := 4, bulk_returned := 4,
              bulk_pages := [some 2, some 3, some 4, some 5], count_at_end := 0 } := by rfl
  refine ⟨e, ?_⟩
  rw [e]
  intro h
  simp at h

/-- C2 (amended): on every empty pool of length 4 and for all pages A..E, fill(A), fill(B),
fill(C) give count = 3; alloc() returns A and count = 2; fill(D) and fill(E) both succeed,
leaving count = 4; alloc_bulk(10) then returns exactly `[B, C, D, E]` and count = 0. -/
theorem scenario_on_length_four (s0 : State) (A B C D E : Page)
    (h : s0.pool = empty_pool 4) :
    scenario s0 A B C D E
      = .ok { count_after_abc := 3, first_alloc := some A, count_after_alloc := 2,
              fill_d := true, fill_e := true, count_after_de := 4, bulk_returned := 4,
              bulk_pages := [some B, some C, some D, some E], count_at_end := 0 } := by
  have h0 : Abs s0.pool [] := by rw [h]; exact abs_empty_pool 4 (by decide) (by decide)
  have hl0 : s0.pool.length = 4 := by rw [h]; rfl
  obtain ⟨s1, e1, a1, l1, _⟩ := fill_abs h0 A
  rw [hl0] at e1 a1 l1
  obtain ⟨s2, e2, a2, l2, _⟩ := fill_abs a1 B
  rw [l1] at e2 a2 l2
  obtain ⟨s3, e3, a3, l3, _⟩ := fill_abs a2 C
  rw [l2] at e3 a3 l3
  obtain ⟨s4, e4, a4, l4, _⟩ := alloc_abs a3
  rw [l3] at l4
  obtain ⟨s5, e5, a5, l5, _⟩ := fill_abs a4 D
  rw [l4] at e5 a5 l5
  obtain ⟨s6, e6, a6, l6, _⟩ := fill_abs a5 E
  rw [l5] at e6 a6 l6
  obtain ⟨pool7, e7, a7, _⟩ := alloc_lots_abs a6 10
  have c3 := a3.count_eq
  have c4 := a4.count_eq
  have c6 := a6.count_eq
  have c7 := a7.count_eq
  simp at e1 e2 e3 e4 e5 e6 e7 c3 c4 c6 c7
  simp only [scenario, e1, e2, e3, e4, e5, e6, e7, wake_pool, c3, c4, c6, c7]

/-- Witness of C2 (amended): the scenario with pages 1..5. -/
theorem scenario_on_length_four_witness :
    (boot_state (empty_pool 4)).pool = empty_pool 4 ∧
    scenario (boot_state (empty_pool 4)) 1 2 3 4 5
      = .ok { count_after_abc := 3, first_alloc := some 1, count_after_alloc := 2,
              fill_d := true, fill_e := true, count_after_de := 4, bulk_returned := 4,
              bulk_pages := [some 2, some 3, some 4, some 5], count_at_end := 0 } :=
  ⟨rfl, scenario_on_length_four (boot_state (empty_pool 4)) 1 2 3 4 5 rfl⟩


/-- C3: from every state satisfying the ring invariants and for every `nr`,
`__nvmap_page_pool_alloc_lots_locked` returns without fault exactly
`min(nr, count-before)` pages, all of them valid, and `count` afterwards is
`count-before` minus the number returned. -/
theorem alloc_bulk_returns_min (s : State) (nr : Nat) (h : ring_inv s.pool) :
    ∃ ind out s1, __nvmap_page_pool_alloc_lots_locked s nr = .ok (ind, out, s1) ∧
      ind = min nr s.pool.count ∧
      out.length = ind ∧
      (∀ v ∈ out, v ≠ none) ∧
      s1.pool.count = s.pool.count - ind := by
  have habs := inv_abs h
  obtain ⟨pool2, e, a2, _, _⟩ := alloc_lots_abs habs nr
  have hc := habs.count_eq
  refine ⟨_, _, _, e, by rw [hc], by simp, ?_, ?_⟩
  · intro v hv
    simp only [List.mem_map] at hv
    obtain ⟨x, _, hx⟩ := hv
    rw [← hx]
    simp
  · rw [wake_pool]
    simp only [a2.count_eq, List.length_drop, hc]
    omega

/-- Witness of C3: asking a wrapped pool of three pages for two and for ten. -/
theorem alloc_bulk_returns_min_witness :
    ring_inv (boot_state wrapped_pool).pool ∧
    (∃ ind out s1, __nvmap_page_pool_alloc_lots_locked (boot_state wrapped_pool) 10
        = .ok (ind, out, s1) ∧
      ind = min 10 (boot_state wrapped_pool).pool.count ∧
      out.length = ind ∧
      (∀ v ∈ out, v ≠ none) ∧
      s1.pool.count = (boot_state wrapped_pool).pool.count - ind) :=
  ⟨by decide, alloc_bulk_returns_min (boot_state wrapped_pool) 10 (by decide)⟩

theorem ring_index_surj (L a j : Nat) (ha : a < L) (hj : j < L) :
    ∃ m, m < L ∧ (a + m) % L = j := by
  by_cases h : a ≤ j
  · exact ⟨j - a, by omega, by rw [mod_wrap _ _ (by omega)]; split <;> omega⟩
  · exact ⟨j + L - a, by omega, by rw [mod_wrap _ _ (by omega)]; split <;> omega⟩

theorem fill_lots_loop_congr (pages pages2 : List Page) : ∀ (n : Nat) (pool : nvmap_page_pool)
    (ind : Nat), (∀ i, i < ind + n → pages[i]? = pages2[i]?) →
    fill_lots_loop pages n pool ind = fill_lots_loop pages2 n pool ind := by
  intro n
  induction n with
  | zero => intro pool ind _; rfl
  | succ n ih =>
    intro pool ind hsame
    simp only [fill_lots_loop]
    rw [← hsame ind (by omega)]
    cases pages[ind]? with
    | none => rfl
    | some p =>
      simp only
      cases set_slot pool pool.fill (some p) with
      | error e => rfl
      | ok pool1 =>
        simp only
        exact ih _ _ (fun i hi => hsame i (by omega))

theorem fill_lots_congr (s : State) (pages pages2 : List Page) (nr : Nat)
    (hsame : ∀ i, i < min nr (u32_sub s.pool.length s.pool.count) → pages[i]? = pages2[i]?) :
    __nvmap_page_pool_fill_lots_locked s pages nr
      = __nvmap_page_pool_fill_lots_locked s pages2 nr := by
  unfold __nvmap_page_pool_fill_lots_locked
  simp only
  rw [fill_lots_loop_congr pages pages2 _ s.pool 0 (by
    intro i hi
    rw [Nat.zero_add, Nat.min_comm] at hi
    exact hsame i hi)]

/-- C4: from every state satisfying the ring invariants, for every array `pages` of at
least `nr` pages, `__nvmap_page_pool_fill_lots_locked` returns
`k = min(nr, length - count-before)`, stores `pages[0..k)` in order in the slots
`fill, fill+1, ...` (circularly), leaves every other slot as it was, increases `count` by
`k`, keeps `alloc` and `length`, and does not depend on `pages[k..nr)` in any way. -/
theorem fill_bulk_takes_front (s : State) (pages : List Page) (nr : Nat)
    (h : ring_inv s.pool) (hnr : nr ≤ pages.length) :
    ∃ k s1, __nvmap_page_pool_fill_lots_locked s pages nr = .ok (k, s1) ∧
      k = min nr (s.pool.length - s.pool.count) ∧
      (∀ i, i < k →
        slot s1.pool ((s.pool.fill + i) % s.pool.length) = .ok (pages[i]?)) ∧
      (∀ j, j < s.pool.length → (∀ i, i < k → j ≠ (s.pool.fill + i) % s.pool.length) →
        slot s1.pool j = slot s.pool j) ∧
      s1.pool.count = s.pool.count + k ∧
      s1.pool.fill = (s.pool.fill + k) % s.pool.length ∧
      s1.pool.alloc = s.pool.alloc ∧ s1.pool.length = s.pool.length ∧
      pool_pages s1.pool = pool_pages s.pool ++ pages.take k ∧
      (∀ pages2 : List Page, pages2.take k = pages.take k →
        __nvmap_page_pool_fill_lots_locked s pages2 nr
          = __nvmap_page_pool_fill_lots_locked s pages nr) := by
  have habs := inv_abs h
  have hc := habs.count_eq
  have hle := habs.len_le
  obtain ⟨pool2, e, a2, hl2, ha2⟩ := fill_lots_abs habs pages nr
    (Nat.le_trans (Nat.min_le_left _ _) hnr)
  obtain ⟨arr, hr, _⟩ := habs
  obtain ⟨arr2, hr2, hc2⟩ := a2
  have hpos := hr.hpos
  have hal := hr.halloc
  have hL := hr.hu32
  generalize hq : pool_pages s.pool = q at *
  generalize hk : min nr (s.pool.length - q.length) = k at *
  have hkle : q.length + k ≤ s.pool.length := by omega
  have hlen2 : (q ++ List.take k pages).length = q.length + k := by
    simp only [List.length_append, List.length_take]; omega
  refine ⟨k, _, e, by rw [hc]; exact hk.symm, ?_, ?_, ?_, ?_, ha2, hl2, ?_, ?_⟩
  · intro i hi
    have := hr2.slot_at (q.length + i) (by rw [hl2]; omega)
    rw [hl2, ha2] at this
    simp only
    rw [hr.hfill, Nat.mod_add_mod, Nat.add_assoc, this,
      List.getElem?_append_right (Nat.le_add_right _ _), Nat.add_sub_cancel_left,
      List.getElem?_take_of_lt hi]
  · intro j hj hne
    simp only
    obtain ⟨m, hm, hjm⟩ := ring_index_surj s.pool.length s.pool.alloc j hal hj
    have h1 := hr.slot_at m hm
    have h2 := hr2.slot_at m (by rw [hl2]; exact hm)
    rw [hl2, ha2] at h2
    rw [hjm] at h1 h2
    rw [h1, h2]
    by_cases hmq : m < q.length
    · rw [List.getElem?_append_left hmq]
    · by_cases hmk : m < q.length + k
      · exfalso
        apply hne (m - q.length) (by omega)
        rw [hr.hfill, Nat.mod_add_mod, ← hjm]
        congr 1
        omega
      · rw [List.getElem?_eq_none (by omega), List.getElem?_eq_none (by omega)]
  · simp only [hc2, hlen2, hc]
  · simp only
    rw [hr2.hfill, ha2, hl2, hr.hfill, Nat.mod_add_mod, hlen2, Nat.add_assoc]
  · exact abs_pages ⟨arr2, hr2, hc2⟩
  · intro pages2 h2
    apply fill_lots_congr
    intro i hi
    rw [hc, u32_sub_of_le _ _ hle hL, hk] at hi
    have e1 : (pages2.take k)[i]? = (pages.take k)[i]? := by rw [h2]
    rwa [List.getElem?_take_of_lt hi, List.getElem?_take_of_lt hi] at e1


/-- Witness of C4: three pages offered to a wrapped pool with one free slot. -/
theorem fill_bulk_takes_front_witness :
    ring_inv wrapped_state.pool ∧ 3 ≤ [31, 32, 33].length ∧
    ∃ k s1, __nvmap_page_pool_fill_lots_locked wrapped_state [31, 32, 33] 3 = .ok (k, s1) ∧
      k = min 3 (wrapped_state.pool.length - wrapped_state.pool.count) ∧
      (∀ i, i < k →
        slot s1.pool ((wrapped_state.pool.fill + i) % wrapped_state.pool.length)
          = .ok ([31, 32, 33][i]?)) ∧
      (∀ j, j < wrapped_state.pool.length →
        (∀ i, i < k → j ≠ (wrapped_state.pool.fill + i) % wrapped_state.pool.length) →
        slot s1.pool j = slot wrapped_state.pool j) ∧
      s1.pool.count = wrapped_state.pool.count + k ∧
      s1.pool.fill = (wrapped_state.pool.fill + k) % wrapped_state.pool.length ∧
      s1.pool.alloc = wrapped_state.pool.alloc ∧
      s1.pool.length = wrapped_state.pool.length ∧
      pool_pages s1.pool = pool_pages wrapped_state.pool ++ [31, 32, 33].take k ∧
      (∀ pages2 : List Page, pages2.take k = [31, 32, 33].take k →
        __nvmap_page_pool_fill_lots_locked wrapped_state pages2 3
          = __nvmap_page_pool_fill_lots_locked wrapped_state [31, 32, 33] 3) :=
  ⟨by decide, by decide,
    fill_bulk_takes_front wrapped_state [31, 32, 33] 3 (by decide) (by decide)⟩

/-- C5: on every empty pool of length at least 1 and for every page `p`,
`nvmap_page_pool_fill` returns true and the `nvmap_page_pool_alloc` that follows returns
exactly `p`; afterwards `count = 0` and `pp_empty` holds. -/
theorem fill_then_alloc_round_trip (s : State) (p : Page) (h : ring_inv s.pool)
    (he : s.pool.count = 0) :
    ∃ s1 s2, nvmap_page_pool_fill s p = .ok (true, s1) ∧
      nvmap_page_pool_alloc s1 = .ok (some p, s2) ∧
      s2.pool.count = 0 ∧ pp_empty s2.pool = .ok true := by
  have habs := inv_abs h
  have hc := habs.count_eq
  have hnil : pool_pages s.pool = [] := List.length_eq_zero.1 (by omega)
  rw [hnil] at habs
  obtain ⟨arr, hr, _⟩ := habs
  have hpos := hr.hpos
  obtain ⟨s1, e1, a1, _, _⟩ := fill_abs ⟨arr, hr, he⟩ p
  simp only [List.length_nil, hpos, decide_True, if_true, List.nil_append] at e1 a1
  obtain ⟨s2, e2, a2, _, _⟩ := alloc_abs a1
  simp only [List.head?_cons, List.tail_cons] at e2 a2
  obtain ⟨arr2, hr2, hc2⟩ := a2
  exact ⟨s1, s2, e1, e2, hc2, by simpa using hr2.pp_empty_eq⟩

/-- Witness of C5: page 5 through an empty pool of length 4. -/
theorem fill_then_alloc_round_trip_witness :
    ring_inv (boot_state (empty_pool 4)).pool ∧ (boot_state (empty_pool 4)).pool.count = 0 ∧
    ∃ s1 s2, nvmap_page_pool_fill (boot_state (empty_pool 4)) 5 = .ok (true, s1) ∧
      nvmap_page_pool_alloc s1 = .ok (some 5, s2) ∧
      s2.pool.count = 0 ∧ pp_empty s2.pool = .ok true :=
  ⟨by decide, rfl, fill_then_alloc_round_trip (boot_state (empty_pool 4)) 5 (by decide) rfl⟩

/-- C6: the pool refines a bounded FIFO queue of capacity `length`.  With a ring state
abstracted to `pool_pages` (the `count` pages read circularly from the alloc index),
`nvmap_page_pool_fill` is `fifo_fill`, `__nvmap_page_pool_fill_lots_locked` is
`fifo_fill_bulk`, `nvmap_page_pool_alloc` is `fifo_alloc` and
`__nvmap_page_pool_alloc_lots_locked` is `fifo_alloc_bulk`; each operation keeps the ring
invariants and the length. -/
theorem pool_refines_fifo (s : State) (h : ring_inv s.pool) :
    (∀ p : Page, ∃ s1,
      nvmap_page_pool_fill s p
        = .ok ((fifo_fill s.pool.length (pool_pages s.pool) p).1, s1) ∧
      pool_pages s1.pool = (fifo_fill s.pool.length (pool_pages s.pool) p).2 ∧
      ring_inv s1.pool ∧ s1.pool.length = s.pool.length) ∧
    (∀ (pages : List Page) (nr : Nat), nr ≤ pages.length → ∃ s1,
      __nvmap_page_pool_fill_lots_locked s pages nr
        = .ok ((fifo_fill_bulk s.pool.length (pool_pages s.pool) pages nr).1, s1) ∧
      pool_pages s1.pool = (fifo_fill_bulk s.pool.length (pool_pages s.pool) pages nr).2 ∧
      ring_inv s1.pool ∧ s1.pool.length = s.pool.length) ∧
    (∃ s1,
      nvmap_page_pool_alloc s = .ok ((fifo_alloc (pool_pages s.pool)).1, s1) ∧
      pool_pages s1.pool = (fifo_alloc (pool_pages s.pool)).2 ∧
      ring_inv s1.pool ∧ s1.pool.length = s.pool.length) ∧
    (∀ nr : Nat, ∃ s1,
      __nvmap_page_pool_alloc_lots_locked s nr
        = .ok ((fifo_alloc_bulk (pool_pages s.pool) nr).1.length,
               (fifo_alloc_bulk (pool_pages s.pool) nr).1.map some, s1) ∧
      pool_pages s1.pool = (fifo_alloc_bulk (pool_pages s.pool) nr).2 ∧
      ring_inv s1.pool ∧ s1.pool.length = s.pool.length) := by
  have habs := inv_abs h
  generalize pool_pages s.pool = q at *
  refine ⟨?_, ?_, ?_, ?_⟩
  · intro p
    obtain ⟨s1, e, a1, hl, _⟩ := fill_abs habs p
    refine ⟨s1, ?_, ?_, abs_inv a1, hl⟩
    · rw [e]; unfold fifo_fill; split <;> simp [*]
    · rw [abs_pages a1]; unfold fifo_fill; split <;> simp [*]
  · intro pages nr hnr
    obtain ⟨pool2, e, a2, hl, _⟩ := fill_lots_abs habs pages nr
      (Nat.le_trans (Nat.min_le_left _ _) hnr)
    exact ⟨_, e, abs_pages a2, abs_inv a2, hl⟩
  · obtain ⟨s1, e, a1, hl, _⟩ := alloc_abs habs
    exact ⟨s1, e, abs_pages a1, abs_inv a1, hl⟩
  · intro nr
    obtain ⟨pool2, e, a2, hl, _⟩ := alloc_lots_abs habs nr
    have htake : List.take (min nr q.length) q = List.take nr q := by
      rw [List.take_eq_take]; simp
    have hdrop : List.drop (min nr q.length) q = List.drop nr q := by
      by_cases hnr : nr ≤ q.length
      · rw [Nat.min_eq_left hnr]
      · rw [Nat.min_eq_right (by omega), List.drop_of_length_le (Nat.le_refl _),
          List.drop_of_length_le (by omega)]
    refine ⟨nvmap_pp_wake_up_allocator { pp_clean_cache s with pool := pool2 }, ?_, ?_, ?_, ?_⟩
    · rw [e]; simp only [fifo_alloc_bulk, htake, List.length_take]
    · rw [wake_pool, abs_pages a2]; simp only [fifo_alloc_bulk, hdrop]
    · rw [wake_pool]; exact abs_inv a2
    · rw [wake_pool]; exact hl


/-- Witness of C6: the four operations on a wrapped pool of three pages. -/
theorem pool_refines_fifo_witness :
    ring_inv wrapped_state.pool ∧
    (∃ s1,
      nvmap_page_pool_alloc wrapped_state
        = .ok ((fifo_alloc (pool_pages wrapped_state.pool)).1, s1) ∧
      pool_pages s1.pool = (fifo_alloc (pool_pages wrapped_state.pool)).2 ∧
      ring_inv s1.pool ∧ s1.pool.length = wrapped_state.pool.length) :=
  ⟨by decide, (pool_refines_fifo wrapped_state (by decide)).2.2.1⟩

/-- C7: for every pool satisfying the ring invariants and every `k >= 1` for which the
allocation of the new storage succeeds (`vzalloc` returns an array, and `k < 2^30`, so
that the request of `sizeof(struct page *) * k` bytes does not wrap in the 32-bit `size_t`
and the array has `k` slots), `nvmap_page_pool_resize(k)` returns and the
`__nvmap_page_pool_alloc_lots_locked(k + 1)` that follows returns at most `k` pages,
never more than the new length. -/
theorem resize_then_alloc_bulk (s : State) (k : Nat) (h : ring_inv s.pool) (hk : 1 ≤ k)
    (hint : k < 1073741824) (hv : s.vzalloc_ok s.vzalloc_calls = true) :
    ∃ s1 ind out s2, nvmap_page_pool_resize s k = .ok s1 ∧
      __nvmap_page_pool_alloc_lots_locked s1 (k + 1) = .ok (ind, out, s2) ∧
      ind ≤ k ∧ out.length = ind ∧ s1.pool.length = k ∧ ind ≤ s1.pool.length := by
  have habs := inv_abs h
  obtain ⟨s1, e1, a1, hl, _⟩ := resize_abs habs k hk hint hv
  obtain ⟨pool2, e2, _, _, _⟩ := alloc_lots_abs a1 (k + 1)
  have hle : min (k + 1) (List.take k (pool_pages s.pool)).length ≤ k := by
    simp only [List.length_take]; omega
  exact ⟨s1, _, _, _, e1, e2, hle, by simp, hl, by rw [hl]; exact hle⟩

/-- Witness of C7: a wrapped pool of three pages resized to two slots. -/
theorem resize_then_alloc_bulk_witness :
    ring_inv wrapped_state.pool ∧ 1 ≤ 2 ∧
    wrapped_state.vzalloc_ok wrapped_state.vzalloc_calls = true ∧
    ∃ s1 ind out s2, nvmap_page_pool_resize wrapped_state 2 = .ok s1 ∧
      __nvmap_page_pool_alloc_lots_locked s1 (2 + 1) = .ok (ind, out, s2) ∧
      ind ≤ 2 ∧ out.length = ind ∧ s1.pool.length = 2 ∧ ind ≤ s1.pool.length :=
  ⟨by decide, by decide, rfl,
    resize_then_alloc_bulk wrapped_state 2 (by decide) (by decide) (by decide) rfl⟩

theorem free_abs {s : State} {q : List Page} (h : Abs s.pool q) (n : Nat) :
    ∃ s1, nvmap_page_pool_free s n = .ok (n - min n q.length, s1) ∧
      Abs s1.pool (q.drop n) ∧ s1.freed = s.freed ++ q.take n ∧
      s1.pool.length = s.pool.length ∧ (n = 0 → s1 = s) := by
  by_cases hn : n = 0
  · subst hn
    exact ⟨s, by simp [nvmap_page_pool_free], by simpa using h, by simp, rfl, fun _ => rfl⟩
  · obtain ⟨s1, e, a1, hf, hl, _⟩ := free_loop_abs n s q h
    exact ⟨s1, by simpa [nvmap_page_pool_free, hn] using e, a1, hf, hl, fun h0 => absurd h0 hn⟩

/-- What `nvmap_page_pool_free` does from a state satisfying the ring invariants. -/
theorem drain_lemma (s : State) (nr_free : Nat) (h : ring_inv s.pool) :
    ∃ r s1, nvmap_page_pool_free s nr_free = .ok (r, s1) ∧
      r = nr_free - min nr_free s.pool.count ∧
      s1.freed = s.freed ++ (pool_pages s.pool).take (min nr_free s.pool.count) ∧
      s1.pool.count = s.pool.count - min nr_free s.pool.count ∧
      pool_pages s1.pool = (pool_pages s.pool).drop (min nr_free s.pool.count) := by
  have habs := inv_abs h
  have hc := habs.count_eq
  obtain ⟨s1, e, a1, hf, _, _⟩ := free_abs habs nr_free
  generalize pool_pages s.pool = q at *
  have htake : List.take (min nr_free q.length) q = List.take nr_free q := by
    rw [List.take_eq_take]; simp
  have hdrop : List.drop (min nr_free q.length) q = List.drop nr_free q := by
    by_cases hnr : nr_free ≤ q.length
    · rw [Nat.min_eq_left hnr]
    · rw [Nat.min_eq_right (by omega), List.drop_of_length_le (Nat.le_refl _),
        List.drop_of_length_le (by omega)]
  refine ⟨_, s1, e, by rw [hc], by rw [hf, hc, htake], ?_, by rw [abs_pages a1, hc, hdrop]⟩
  rw [a1.count_eq, List.length_drop, hc]
  omega

/-- C8 as stated fails: `nvmap_page_pool_free(pool, 5)` on an empty pool returns 5, not
the number of pages released, which is 0 (no `__free_page` call is made). -/
theorem drain_empty_returns_five :
    ∃ s1, nvmap_page_pool_free (boot_state (empty_pool 4)) 5 = .ok (5, s1) ∧
      s1.freed = [] ∧ min 5 (boot_state (empty_pool 4)).pool.count = 0 ∧
      ¬ (∃ s2, nvmap_page_pool_free (boot_state (empty_pool 4)) 5 = .ok (0, s2)) := by
  have e : nvmap_page_pool_free (boot_state (empty_pool 4)) 5
      = .ok (5, nvmap_pp_wake_up_allocator (boot_state (empty_pool 4))) := by rfl
  refine ⟨_, e, by rw [wake_freed]; rfl, by decide, ?_⟩
  rintro ⟨s2, h2⟩
  rw [e] at h2
  simp at h2

/-- C8 (amended): from every state satisfying the ring invariants and for every
`nr_free >= 0`, `nvmap_page_pool_free` hands the `min(nr_free, count-before)` oldest pages
to `__free_page`, in FIFO order and nothing else, lowers `count` by that number, and
returns the part of the request it did not release,
`nr_free - min(nr_free, count-before)`. -/
theorem drain_returns_unreleased (s : State) (nr_free : Nat) (h : ring_inv s.pool) :
    ∃ r s1, nvmap_page_pool_free s nr_free = .ok (r, s1) ∧
      r = nr_free - min nr_free s.pool.count ∧
      s1.freed = s.freed ++ (pool_pages s.pool).take (min nr_free s.pool.count) ∧
      s1.pool.count = s.pool.count - min nr_free s.pool.count ∧
      pool_pages s1.pool = (pool_pages s.pool).drop (min nr_free s.pool.count) :=
  drain_lemma s nr_free h

/-- Witness of C8 (amended): draining five pages from a pool holding three, and from an
empty pool. -/
theorem drain_returns_unreleased_witness :
    ring_inv wrapped_state.pool ∧
    ∃ r s1, nvmap_page_pool_free wrapped_state 5 = .ok (r, s1) ∧
      r = 5 - min 5 wrapped_state.pool.count ∧
      s1.freed = wrapped_state.freed
        ++ (pool_pages wrapped_state.pool).take (min 5 wrapped_state.pool.count) ∧
      s1.pool.count = wrapped_state.pool.count - min 5 wrapped_state.pool.count ∧
      pool_pages s1.pool
        = (pool_pages wrapped_state.pool).drop (min 5 wrapped_state.pool.count) :=
  ⟨by decide, drain_returns_unreleased wrapped_state 5 (by decide)⟩

/-- C9: from every state satisfying the ring invariants with `count = c` and for every
`nr_to_scan = n >= 0`, `nvmap_page_pool_shrink` hands exactly the `min(n, c)` oldest pages
to `__free_page` and returns the number still resident, `c - min(n, c)`; for `n = 0` it
releases nothing, leaves the whole state unchanged and returns `c`. -/
theorem shrink_reports_resident (s : State) (n : Nat) (h : ring_inv s.pool) :
    ∃ r s1, nvmap_page_pool_shrink s n = .ok (r, s1) ∧
      r = s.pool.count - min n s.pool.count ∧
      s1.freed = s.freed ++ (pool_pages s.pool).take (min n s.pool.count) ∧
      s1.pool.count = s.pool.count - min n s.pool.count ∧
      pool_pages s1.pool = (pool_pages s.pool).drop (min n s.pool.count) ∧
      (n = 0 → r = s.pool.count ∧ s1 = s) := by
  obtain ⟨r0, s1, e, _, hf, hcnt, hp⟩ := drain_lemma s n h
  by_cases hn : n = 0
  · subst hn
    refine ⟨s.pool.count, s, by simp [nvmap_page_pool_shrink, nvmap_page_pool_get_unused_pages,
      nvmap_page_pool_get_available_count], by simp, by simp, by simp, by simp, fun _ => ⟨rfl, rfl⟩⟩
  · refine ⟨s1.pool.count, s1, ?_, hcnt, hf, hcnt, hp, fun h0 => absurd h0 hn⟩
    simp [nvmap_page_pool_shrink, hn, e, nvmap_page_pool_get_unused_pages,
      nvmap_page_pool_get_available_count]


/-- Witness of C9: a query with reclaim count 0 on a pool holding 50 pages returns 50 and
changes nothing. -/
theorem shrink_reports_resident_witness :
    ring_inv (boot_state pool_of_fifty).pool ∧
    ∃ r s1, nvmap_page_pool_shrink (boot_state pool_of_fifty) 0 = .ok (r, s1) ∧
      r = 50 ∧ s1.freed = [] ∧ s1.pool.count = 50 ∧
      (0 = 0 → r = (boot_state pool_of_fifty).pool.count ∧ s1 = boot_state pool_of_fifty) := by
  have hinv : ring_inv (boot_state pool_of_fifty).pool := by decide
  obtain ⟨r, s1, e, hr, hf, hc, _, h0⟩ := shrink_reports_resident (boot_state pool_of_fifty) 0 hinv
  exact ⟨hinv, r, s1, e, hr, by simpa using hf, hc, h0⟩

/-- C10: from a state satisfying the ring invariants with a non-empty pool,
`nvmap_page_pool_alloc` returns the page stored at the alloc index, sets that slot to
NULL, advances `alloc` by one modulo `length`, lowers `count` by exactly one, and leaves
`fill`, `length` and every other slot as they were. -/
theorem alloc_one_takes_slot_at_alloc (s : State) (h : ring_inv s.pool)
    (hne : 0 < s.pool.count) :
    ∃ x s1, nvmap_page_pool_alloc s = .ok (some x, s1) ∧
      slot s.pool s.pool.alloc = .ok (some x) ∧
      slot s1.pool s.pool.alloc = .ok none ∧
      (∀ j, j ≠ s.pool.alloc → slot s1.pool j = slot s.pool j) ∧
      s1.pool.alloc = (s.pool.alloc + 1) % s.pool.length ∧
      s1.pool.count + 1 = s.pool.count ∧
      s1.pool.fill = s.pool.fill ∧
      s1.pool.length = s.pool.length := by
  have habs := inv_abs h
  have hc := habs.count_eq
  obtain ⟨arr, hr, _⟩ := habs
  cases hq : pool_pages s.pool with
  | nil => rw [hq] at hc; simp at hc; omega
  | cons x q =>
    rw [hq] at hr hc
    obtain ⟨e, hr1, hc1⟩ := alloc_locked_cons hr hc
    have hs := hr.take.1
    have hal : s.pool.alloc < arr.length := by rw [hr.hlen]; exact hr.halloc
    refine ⟨x, _, by simpa [nvmap_page_pool_alloc] using e, hs, ?_, ?_, ?_, ?_, ?_, ?_⟩
    · rw [wake_pool]
      simp [slot, pool_after_take, List.getElem?_set_self hal]
    · intro j hj
      rw [wake_pool]
      simp only [slot, pool_after_take, hr.harr, List.getElem?_set_ne (Ne.symm hj)]
    · rw [wake_pool]; rfl
    · rw [wake_pool]; simp only [pool_after_take, hc, List.length_cons]; omega
    · rw [wake_pool]; rfl
    · rw [wake_pool]; rfl

/-- Witness of C10: the oldest page of a wrapped pool sits in slot 3. -/
theorem alloc_one_takes_slot_at_alloc_witness :
    ring_inv wrapped_state.pool ∧ 0 < wrapped_state.pool.count ∧
    ∃ x s1, nvmap_page_pool_alloc wrapped_state = .ok (some x, s1) ∧
      slot wrapped_state.pool wrapped_state.pool.alloc = .ok (some x) ∧
      slot s1.pool wrapped_state.pool.alloc = .ok none ∧
      (∀ j, j ≠ wrapped_state.pool.alloc → slot s1.pool j = slot wrapped_state.pool j) ∧
      s1.pool.alloc = (wrapped_state.pool.alloc + 1) % wrapped_state.pool.length ∧
      s1.pool.count + 1 = wrapped_state.pool.count ∧
      s1.pool.fill = wrapped_state.pool.fill ∧
      s1.pool.length = wrapped_state.pool.length :=
  ⟨by decide, by decide, alloc_one_takes_slot_at_alloc wrapped_state (by decide) (by decide)⟩


/-! ## Misses, rejected fills, NULL storage, resize and clear -/

/-- C11: `nvmap_page_pool_alloc` on an empty pool (`pp_empty` holds) returns NULL, leaves
the ring (slots, `alloc`, `fill`, `count`, `length`) and the dirty flag unchanged, performs
no cache clean, releases no page, and evaluates `nvmap_pp_wake_up_allocator` exactly once:
the state afterwards is that of one policy evaluation on the state before. -/
theorem alloc_one_miss (s : State) (he : pp_empty s.pool = .ok true) :
    ∃ s1, nvmap_page_pool_alloc s = .ok (none, s1) ∧
      s1 = nvmap_pp_wake_up_allocator s ∧
      s1.pool = s.pool ∧ s1.pp_dirty = s.pp_dirty ∧ s1.cache_cleans = s.cache_cleans ∧
      s1.freed = s.freed ∧ s1.policy_evals = s.policy_evals + 1 := by
  refine ⟨nvmap_pp_wake_up_allocator s, ?_, rfl, wake_pool s, wake_dirty s, wake_cleans s,
    wake_freed s, wake_evals s⟩
  simp [nvmap_page_pool_alloc, nvmap_page_pool_alloc_locked, he]

/-- Witness of C11: a miss on an empty pool of length 4. -/
theorem alloc_one_miss_witness :
    pp_empty (boot_state (empty_pool 4)).pool = .ok true ∧
    ∃ s1, nvmap_page_pool_alloc (boot_state (empty_pool 4)) = .ok (none, s1) ∧
      s1 = nvmap_pp_wake_up_allocator (boot_state (empty_pool 4)) ∧
      s1.pool = (boot_state (empty_pool 4)).pool ∧
      s1.pp_dirty = (boot_state (empty_pool 4)).pp_dirty ∧
      s1.cache_cleans = (boot_state (empty_pool 4)).cache_cleans ∧
      s1.freed = (boot_state (empty_pool 4)).freed ∧
      s1.policy_evals = (boot_state (empty_pool 4)).policy_evals + 1 :=
  ⟨rfl, alloc_one_miss (boot_state (empty_pool 4)) rfl⟩

/-- C12: from a state satisfying the ring invariants, `nvmap_page_pool_fill` returns false
if and only if the ring is full (`pp_full`, equivalently `count = length`); when it returns
false the whole state is unchanged; when it returns true the page sits in the slot at the
old fill index, every other slot is unchanged, `fill` has advanced by one modulo `length`,
`count` has grown by one, `alloc` and `length` are unchanged, and the dirty flag is set. -/
theorem fill_one_full_or_stored (s : State) (p : Page) (h : ring_inv s.pool) :
    ∃ r s1, nvmap_page_pool_fill s p = .ok (r, s1) ∧
      (r = false ↔ pp_full s.pool = .ok true) ∧
      (r = false ↔ s.pool.count = s.pool.length) ∧
      (r = false → s1 = s) ∧
      (r = true →
        slot s1.pool s.pool.fill = .ok (some p) ∧
        (∀ j, j ≠ s.pool.fill → slot s1.pool j = slot s.pool j) ∧
        s1.pool.fill = (s.pool.fill + 1) % s.pool.length ∧
        s1.pool.count = s.pool.count + 1 ∧
        s1.pool.alloc = s.pool.alloc ∧ s1.pool.length = s.pool.length ∧
        s1.pp_dirty = true) := by
  have habs := inv_abs h
  have hc := habs.count_eq
  obtain ⟨arr, hr, _⟩ := habs
  generalize pool_pages s.pool = q at *
  have hq := hr.hq
  have hfull := hr.pp_full_eq
  by_cases hlt : q.length < s.pool.length
  · obtain ⟨e, _, _⟩ := fill_locked_room hr hc hlt p
    have hf : s.pool.fill < arr.length := by
      rw [hr.hlen, hr.hfill]; exact Nat.mod_lt _ hr.hpos
    have hne : ¬ q.length = s.pool.length := by omega
    refine ⟨true, _, by simpa [nvmap_page_pool_fill] using e, ?_, ?_, ?_, ?_⟩
    · simp [hfull, hne]
    · simp only [hc]; simp [hne]
    · intro h0; simp at h0
    · intro _
      refine ⟨?_, ?_, rfl, rfl, rfl, rfl, rfl⟩
      · simp [slot, pool_after_put, List.getElem?_set_self hf]
      · intro j hj
        simp only [slot, pool_after_put, hr.harr, List.getElem?_set_ne (Ne.symm hj)]
  · have heq : q.length = s.pool.length := by omega
    have e := fill_locked_full hr heq p
    refine ⟨false, s, by simpa [nvmap_page_pool_fill] using e, ?_, ?_, fun _ => rfl, ?_⟩
    · simp [hfull, heq]
    · simp [hc, heq]
    · intro h0; simp at h0

/-- Witness of C12: a fill into a wrapped pool with one free slot. -/
theorem fill_one_full_or_stored_witness :
    ring_inv wrapped_state.pool ∧
    ∃ r s1, nvmap_page_pool_fill wrapped_state 24 = .ok (r, s1) ∧
      (r = false ↔ pp_full wrapped_state.pool = .ok true) ∧
      (r = false ↔ wrapped_state.pool.count = wrapped_state.pool.length) ∧
      (r = false → s1 = wrapped_state) ∧
      (r = true →
        slot s1.pool wrapped_state.pool.fill = .ok (some 24) ∧
        (∀ j, j ≠ wrapped_state.pool.fill → slot s1.pool j = slot wrapped_state.pool j) ∧
        s1.pool.fill = (wrapped_state.pool.fill + 1) % wrapped_state.pool.length ∧
        s1.pool.count = wrapped_state.pool.count + 1 ∧
        s1.pool.alloc = wrapped_state.pool.alloc ∧
        s1.pool.length = wrapped_state.pool.length ∧
        s1.pp_dirty = true) :=
  ⟨by decide, fill_one_full_or_stored wrapped_state 24 (by decide)⟩

/-- With NULL storage the emptiness and fullness tests already fault when the indices are
equal, and the slot access faults when they differ. -/
theorem null_storage_alloc_fill (s : State) (p : Page) (h : s.pool.page_array = none) :
    nvmap_page_pool_alloc s = .error .null_deref ∧
    nvmap_page_pool_fill s p = .error .null_deref := by
  constructor
  · unfold nvmap_page_pool_alloc nvmap_page_pool_alloc_locked pp_empty
    by_cases hi : s.pool.fill = s.pool.alloc <;> simp [hi, slot, h, clean_pool]
  · unfold nvmap_page_pool_fill nvmap_page_pool_fill_locked pp_full
    by_cases hi : s.pool.fill = s.pool.alloc <;> simp [hi, slot, h, set_slot]

/-- C13, the code at the failing input: `nvmap_page_pool_resize(pool, 0)` on an empty pool
of length 4 leaves `page_array = NULL`; on that state `nvmap_page_pool_alloc`,
`nvmap_page_pool_fill` and `nvmap_page_pool_free(pool, 5)` dereference the NULL array.
After `resize(0)` on a pool that held three pages, the bulk operations do so as well.
Only `nvmap_page_pool_clear` tests the pointer and returns 0. -/
theorem null_storage_operations_fault :
    (∃ s1, nvmap_page_pool_resize (boot_state (empty_pool 4)) 0 = .ok s1 ∧
      s1.pool.page_array = none ∧
      nvmap_page_pool_alloc s1 = .error .null_deref ∧
      nvmap_page_pool_fill s1 7 = .error .null_deref ∧
      nvmap_page_pool_free s1 5 = .error .null_deref ∧
      nvmap_page_pool_clear s1 = .ok (0, s1)) ∧
    (∃ s2, nvmap_page_pool_resize wrapped_state 0 = .ok s2 ∧
      s2.pool.page_array = none ∧
      __nvmap_page_pool_alloc_lots_locked s2 1 = .error .null_deref ∧
      __nvmap_page_pool_fill_lots_locked s2 [7] 1 = .error .null_deref) :=
  ⟨⟨_, rfl, rfl, rfl, rfl, rfl, rfl⟩, ⟨_, rfl, rfl, rfl, rfl⟩⟩

/-- C14, the code at the failing input: `nvmap_page_pool_resize(pool, 0)` on a pool of
length 4 holding three pages hands the array to `vfree` with the three pages still in it,
calls `__free_page` for none of them, and leaves `count = 3` next to `length = 0` and a
NULL `page_array`. -/
theorem resize_zero_releases_no_page :
    pool_pages wrapped_state.pool = [21, 22, 23] ∧
    ∃ s1, nvmap_page_pool_resize wrapped_state 0 = .ok s1 ∧
      s1.freed = [] ∧
      s1.vfreed = [[some 22, some 23, none, some 21]] ∧
      s1.pool.page_array = none ∧
      s1.pool.count = 3 ∧ s1.pool.length = 0 :=
  ⟨by decide, _, rfl, rfl, rfl, rfl, rfl, rfl⟩

/-- C15, the code at the failing input: `nvmap_page_pool_fini` on a pool of length 4
holding three pages sets `length = 0` and hands the array to `vfree` with the three pages
still in it; no page goes to `__free_page`, and `count` stays 3. -/
theorem fini_releases_no_page :
    pool_pages wrapped_state.pool = [21, 22, 23] ∧
    (nvmap_page_pool_fini wrapped_state).1 = 0 ∧
    (nvmap_page_pool_fini wrapped_state).2.freed = [] ∧
    (nvmap_page_pool_fini wrapped_state).2.vfreed = [[some 22, some 23, none, some 21]] ∧
    (nvmap_page_pool_fini wrapped_state).2.pool.count = 3 ∧
    (nvmap_page_pool_fini wrapped_state).2.pool.length = 0 :=
  ⟨by decide, rfl, rfl, rfl, rfl, rfl⟩


/-- C16: from a state satisfying the ring invariants, `nvmap_page_pool_resize(pool, k)` with
`k >= 1`, `k` different from `length` and the allocation succeeding (`vzalloc` returns an
array, and `k < 2^30`, so that the request of `sizeof(struct page *) * k` bytes does not
wrap in the 32-bit `size_t`) returns; with `m = min(k, count-before)` the new array has
`k` slots, slots `0..m-1` hold the `m` oldest pooled pages in FIFO order, the remaining
slots hold no page, `alloc = 0`, `fill = m mod k`, `count = m` and `length = k`. -/
theorem resize_salvages_oldest (s : State) (k : Nat) (h : ring_inv s.pool) (hk : 1 ≤ k)
    (hint : k < 1073741824) (hne : k ≠ s.pool.length)
    (hv : s.vzalloc_ok s.vzalloc_calls = true) :
    ∃ s1, nvmap_page_pool_resize s k = .ok s1 ∧
      (∀ i, i < min k s.pool.count →
        ∃ x, (pool_pages s.pool)[i]? = some x ∧ slot s1.pool i = .ok (some x)) ∧
      (∀ i, min k s.pool.count ≤ i → i < k → slot s1.pool i = .ok none) ∧
      array_size s1.pool = k ∧
      s1.pool.alloc = 0 ∧
      s1.pool.fill = min k s.pool.count % k ∧
      s1.pool.count = min k s.pool.count ∧
      s1.pool.length = k ∧
      pool_pages s1.pool = (pool_pages s.pool).take (min k s.pool.count) := by
  have habs := inv_abs h
  have hc := habs.count_eq
  obtain ⟨s1, e, a1, hl, _, hal⟩ := resize_abs habs k hk hint hv
  have hal0 := hal hne
  generalize pool_pages s.pool = q at *
  have hp1 := abs_pages a1
  obtain ⟨arr1, hr1, hc1⟩ := a1
  have hslot : ∀ i, i < k → slot s1.pool i = .ok (q.take k)[i]? := by
    intro i hi
    have := hr1.slot_at i (by rw [hl]; exact hi)
    rwa [hal0, hl, Nat.zero_add, Nat.mod_eq_of_lt hi] at this
  have htake : List.take (min k q.length) q = List.take k q := by
    rw [List.take_eq_take]; simp
  refine ⟨s1, e, ?_, ?_, ?_, hal0, ?_, ?_, hl, ?_⟩
  · intro i hi
    rw [hc] at hi
    have hiq : i < q.length := by omega
    refine ⟨q[i], List.getElem?_eq_getElem hiq, ?_⟩
    rw [hslot i (by omega), List.getElem?_take_of_lt (by omega), List.getElem?_eq_getElem hiq]
  · intro i hi hik
    rw [hc] at hi
    rw [hslot i hik, List.getElem?_eq_none (by simp only [List.length_take]; omega)]
  · unfold array_size
    rw [hr1.harr]
    simp only [hr1.hlen, hl]
  · rw [hr1.hfill, hal0, hl, hc, Nat.zero_add, List.length_take]
  · rw [hc1, hc, List.length_take]
  · rw [hp1, hc, htake]

/-- Witness of C16: a wrapped pool of three pages resized to two slots. -/
theorem resize_salvages_oldest_witness :
    ring_inv wrapped_state.pool ∧ 2 ≠ wrapped_state.pool.length ∧
    ∃ s1, nvmap_page_pool_resize wrapped_state 2 = .ok s1 ∧
      (∀ i, i < min 2 wrapped_state.pool.count →
        ∃ x, (pool_pages wrapped_state.pool)[i]? = some x ∧ slot s1.pool i = .ok (some x)) ∧
      (∀ i, min 2 wrapped_state.pool.count ≤ i → i < 2 → slot s1.pool i = .ok none) ∧
      array_size s1.pool = 2 ∧
      s1.pool.alloc = 0 ∧
      s1.pool.fill = min 2 wrapped_state.pool.count % 2 ∧
      s1.pool.count = min 2 wrapped_state.pool.count ∧
      s1.pool.length = 2 ∧
      pool_pages s1.pool
        = (pool_pages wrapped_state.pool).take (min 2 wrapped_state.pool.count) :=
  ⟨by decide, by decide,
    resize_salvages_oldest wrapped_state 2 (by decide) (by decide) (by decide) (by decide) rfl⟩

/-- From `2^30` slots on the byte count of the `vzalloc` request wraps: a resize of the
wrapped pool of three pages to `2^30 + 1` slots asks for 4 bytes, and the salvage of the
three pages writes past the one slot obtained; a resize to `2^30` slots asks for 0 bytes
and takes the failure path. -/
theorem resize_request_wraps :
    nvmap_page_pool_resize wrapped_state 1073741825 = .error .out_of_bounds ∧
    nvmap_page_pool_resize wrapped_state 1073741824
      = .ok { wrapped_state with vzalloc_calls := wrapped_state.vzalloc_calls + 1 } :=
  ⟨rfl, rfl⟩

/-- C17, the code at the failing input: `nvmap_page_pool_resize(pool, 0)` on a pool holding
pages 21, 22, 23 ends with no page pooled and no page released: the three pages are
neither in the pool afterwards nor among the pages handed to `__free_page`. -/
theorem resize_zero_loses_pages :
    ∃ s1, nvmap_page_pool_resize wrapped_state 0 = .ok s1 ∧
      pool_pages wrapped_state.pool = [21, 22, 23] ∧
      pool_pages s1.pool = [] ∧
      s1.freed = wrapped_state.freed ∧
      pool_pages wrapped_state.pool
        ≠ pool_pages s1.pool ++ s1.freed.drop wrapped_state.freed.length :=
  ⟨_, rfl, by decide, by decide, rfl, by decide⟩

/-- Resize to a non-zero length below `2^30` keeps every page: the pages pooled before are
the pages pooled afterwards followed by the pages released during the call. -/
theorem resize_nonzero_conserves (s : State) (k : Nat) (h : ring_inv s.pool) (hk : 1 ≤ k)
    (hint : k < 1073741824) (hv : s.vzalloc_ok s.vzalloc_calls = true) :
    ∃ s1, nvmap_page_pool_resize s k = .ok s1 ∧
      ∃ released, s1.freed = s.freed ++ released ∧
        pool_pages s.pool = pool_pages s1.pool ++ released := by
  have habs := inv_abs h
  obtain ⟨s1, e, a1, _, hf, _⟩ := resize_abs habs k hk hint hv
  exact ⟨s1, e, _, hf, by rw [abs_pages a1, List.take_append_drop]⟩

/-- What resize does when `vzalloc` fails. -/
theorem resize_failure_lemma (s : State) (size : Nat) (h0 : size ≠ 0)
    (hne : size ≠ s.pool.length) (hv : s.vzalloc_ok s.vzalloc_calls = false) :
    nvmap_page_pool_resize s size = .ok { s with vzalloc_calls := s.vzalloc_calls + 1 } := by
  simp [nvmap_page_pool_resize, h0, hne, hv]

/-- C18 as stated fails: with `vzalloc` failing, `pool_size_set`, the caller of
`nvmap_page_pool_resize` (which returns `void`), returns 0, the same value as when the
resize succeeds; nothing tells the caller that the pool still has its old length 4. -/
theorem resize_failure_not_reported :
    (∃ s1, pool_size_set no_memory_state 8 = .ok (0, s1) ∧ s1.pool.length = 4 ∧
      s1.pool = no_memory_state.pool) ∧
    (∃ s2, pool_size_set wrapped_state 8 = .ok (0, s2) ∧ s2.pool.length = 8) :=
  ⟨⟨_, rfl, rfl, rfl⟩, ⟨_, rfl, rfl⟩⟩

/-- C18 (amended): when the new backing storage cannot be allocated (`size` non-zero and
different from `length`, `vzalloc` fails), `nvmap_page_pool_resize` leaves the previous
storage and every pool field (slots, `alloc`, `fill`, `count`, `length`) unchanged and
releases no page and no array; it returns nothing, and its caller `pool_size_set` returns
0 as on success (the failure is only logged). -/
theorem resize_failure_keeps_pool (s : State) (size : Nat) (h0 : size ≠ 0)
    (hne : size ≠ s.pool.length) (hv : s.vzalloc_ok s.vzalloc_calls = false) :
    ∃ s1, nvmap_page_pool_resize s size = .ok s1 ∧
      s1 = { s with vzalloc_calls := s.vzalloc_calls + 1 } ∧
      s1.pool = s.pool ∧ s1.freed = s.freed ∧ s1.vfreed = s.vfreed ∧
      pool_size_set s size = .ok (0, s1) := by
  have e := resize_failure_lemma s size h0 hne hv
  exact ⟨_, e, rfl, rfl, rfl, rfl, by simp [pool_size_set, e]⟩

/-- Witness of C18 (amended): a failed resize of a wrapped pool to eight slots. -/
theorem resize_failure_keeps_pool_witness :
    (8 : Nat) ≠ 0 ∧ 8 ≠ no_memory_state.pool.length ∧
    no_memory_state.vzalloc_ok no_memory_state.vzalloc_calls = false ∧
    ∃ s1, nvmap_page_pool_resize no_memory_state 8 = .ok s1 ∧
      s1 = { no_memory_state with vzalloc_calls := no_memory_state.vzalloc_calls + 1 } ∧
      s1.pool = no_memory_state.pool ∧ s1.freed = no_memory_state.freed ∧
      s1.vfreed = no_memory_state.vfreed ∧
      pool_size_set no_memory_state 8 = .ok (0, s1) :=
  ⟨by decide, by decide, rfl,
    resize_failure_keeps_pool no_memory_state 8 (by decide) (by decide) rfl⟩


/-- C19: from every state satisfying the ring invariants, `nvmap_page_pool_clear` returns 0
(never `-ENOMEM`); its loop ends after exactly `count` removals followed by one miss
(`count + 1` policy evaluations in the loop and one after it), every pooled page is handed
to `__free_page` exactly once, oldest first, and the pool ends with `count = 0` and
`pp_empty` true. -/
theorem clear_drains_in_order (s : State) (h : ring_inv s.pool) :
    ∃ s1, nvmap_page_pool_clear s = .ok (0, s1) ∧
      (∀ s2, nvmap_page_pool_clear s ≠ .ok (-ENOMEM, s2)) ∧
      s1.freed = s.freed ++ pool_pages s.pool ∧
      (pool_pages s.pool).length = s.pool.count ∧
      s1.policy_evals = s.policy_evals + s.pool.count + 2 ∧
      s1.pool.count = 0 ∧ pp_empty s1.pool = .ok true ∧ pool_pages s1.pool = [] ∧
      s1.pool.length = s.pool.length := by
  have habs := inv_abs h
  have hc := habs.count_eq
  have hsz := habs.array_size_ge
  generalize pool_pages s.pool = q at *
  obtain ⟨s1, e1, a1, hf, hl, hev⟩ := clear_loop_abs q s (array_size s.pool + 1) habs (by omega)
  obtain ⟨arr, hr, _⟩ := habs
  have hp1 := abs_pages a1
  obtain ⟨arr1, hr1, hc1⟩ := a1
  have hemp : pp_empty s1.pool = .ok true := by simpa using hr1.pp_empty_eq
  have e : nvmap_page_pool_clear s = .ok (0, nvmap_pp_wake_up_allocator s1) := by
    simp [nvmap_page_pool_clear, hr.harr, e1, hemp]
  refine ⟨nvmap_pp_wake_up_allocator s1, e, ?_, ?_, hc.symm, ?_, ?_, ?_, ?_, ?_⟩
  · intro s2 h2
    rw [e] at h2
    simp [ENOMEM] at h2
  · rw [wake_freed, hf]
  · rw [wake_evals, hev, hc]
  · rw [wake_pool, hc1]; rfl
  · rw [wake_pool]; exact hemp
  · rw [wake_pool]; exact hp1
  · rw [wake_pool]; exact hl

/-- Witness of C19: clearing a wrapped pool of three pages. -/
theorem clear_drains_in_order_witness :
    ring_inv wrapped_state.pool ∧
    ∃ s1, nvmap_page_pool_clear wrapped_state = .ok (0, s1) ∧
      (∀ s2, nvmap_page_pool_clear wrapped_state ≠ .ok (-ENOMEM, s2)) ∧
      s1.freed = wrapped_state.freed ++ pool_pages wrapped_state.pool ∧
      (pool_pages wrapped_state.pool).length = wrapped_state.pool.count ∧
      s1.policy_evals = wrapped_state.policy_evals + wrapped_state.pool.count + 2 ∧
      s1.pool.count = 0 ∧ pp_empty s1.pool = .ok true ∧ pool_pages s1.pool = [] ∧
      s1.pool.length = wrapped_state.pool.length :=
  ⟨by decide, clear_drains_in_order wrapped_state (by decide)⟩

/-- The wakeup policy in a state that passes the enable, occupancy and free-space tests,
in terms of the estimate `free_pages` and the reserved floor: below the floor the `u32`
difference wraps to a positive value, so the worker is signalled. -/
theorem wake_below_floor (s : State) (hen : s.enable_pp = true)
    (hocc : s.zero_memory = true ∨ s.pool.count ≤ NVMAP_PP_ZERO_MEM_FILL_MIN)
    (hroom : NVMAP_PP_DEF_FILL_THRESH ≤ u32_sub s.pool.length s.pool.count)
    (hfloor : reserved_floor s.PAGE_SHIFT < 4294967296)
    (hlow : policy_free_pages s.PAGE_SHIFT (s.meminfo s.meminfo_calls)
      < reserved_floor s.PAGE_SHIFT) :
    (nvmap_pp_wake_up_allocator s).wakeups = s.wakeups + 1 ∧
    (nvmap_pp_wake_up_allocator s).bg_pages_to_fill
      = min (policy_free_pages s.PAGE_SHIFT (s.meminfo s.meminfo_calls) + 4294967296
              - reserved_floor s.PAGE_SHIFT)
          (u32_sub s.pool.length s.pool.count) := by
  have h1 : ¬ (!s.zero_memory && decide (s.pool.count > NVMAP_PP_ZERO_MEM_FILL_MIN)) = true := by
    rcases hocc with hz | hz
    · simp [hz]
    · simp; intro _; exact hz
  have h2 : ¬ u32_sub s.pool.length s.pool.count < NVMAP_PP_DEF_FILL_THRESH := by omega
  have hfp : policy_free_pages s.PAGE_SHIFT (s.meminfo s.meminfo_calls) < 4294967296 := by
    unfold policy_free_pages u32; omega
  have htmp : u32_sub (policy_free_pages s.PAGE_SHIFT (s.meminfo s.meminfo_calls))
      (reserved_floor s.PAGE_SHIFT)
      = policy_free_pages s.PAGE_SHIFT (s.meminfo s.meminfo_calls) + 4294967296
          - reserved_floor s.PAGE_SHIFT := by
    unfold u32_sub; omega
  have h3 : ¬ policy_free_pages s.PAGE_SHIFT (s.meminfo s.meminfo_calls) + 4294967296
      - reserved_floor s.PAGE_SHIFT ≤ 0 := by
    omega
  unfold policy_free_pages reserved_floor at h3 htmp
  unfold nvmap_pp_wake_up_allocator
  simp only [hen, Bool.not_true, Bool.false_eq_true, if_false, h1, h2, h3, htmp]
  trivial

/-- C20, the code at the failing input: pooling enabled, an empty pool of 2048 slots, and
`si_meminfo` reporting 1000 free pages, below the reserved floor of 32768 pages.  The
`u32` difference `tmp` wraps to 4294935528, the test `tmp <= 0` is false, and the policy
signals the worker with pending target 2048. -/
theorem wakeup_signals_below_floor :
    policy_free_pages low_memory_state.PAGE_SHIFT
      (low_memory_state.meminfo low_memory_state.meminfo_calls) = 1000 ∧
    reserved_floor low_memory_state.PAGE_SHIFT = 32768 ∧
    u32_sub 1000 32768 = 4294935528 ∧
    low_memory_state.wakeups = 0 ∧ low_memory_state.bg_pages_to_fill = 0 ∧
    (nvmap_pp_wake_up_allocator low_memory_state).wakeups = 1 ∧
    (nvmap_pp_wake_up_allocator low_memory_state).bg_pages_to_fill = 2048 := by
  decide


/-! ## The wakeup policy in closed form -/

theorem wake_signal (s : State) (h : policy_signals s = true) :
    nvmap_pp_wake_up_allocator s
      = { s with policy_evals := s.policy_evals + 1,
                 meminfo_calls := s.meminfo_calls + 1,
                 bg_pages_to_fill := policy_target s,
                 wakeups := s.wakeups + 1 } := by
  unfold policy_signals at h
  simp only [Bool.and_eq_true, Bool.not_eq_true', decide_eq_false_iff_not] at h
  obtain ⟨⟨⟨h1, h2⟩, h3⟩, h4⟩ := h
  unfold policy_free_pages reserved_floor at h4
  unfold nvmap_pp_wake_up_allocator
  simp only [h1, Bool.not_true, Bool.false_eq_true, if_false, h2, h3, h4]
  rfl

theorem wake_silent (s : State) (h : policy_signals s = false) :
    (nvmap_pp_wake_up_allocator s).bg_pages_to_fill = s.bg_pages_to_fill ∧
    (nvmap_pp_wake_up_allocator s).wakeups = s.wakeups := by
  unfold nvmap_pp_wake_up_allocator
  simp only
  split_ifs with h1 h2 h3 h4
  · exact ⟨rfl, rfl⟩
  · exact ⟨rfl, rfl⟩
  · exact ⟨rfl, rfl⟩
  · exact ⟨rfl, rfl⟩
  · exfalso
    have : policy_signals s = true := by
      unfold policy_signals policy_free_pages reserved_floor
      simp only [Bool.and_eq_true, Bool.not_eq_true', decide_eq_false_iff_not]
      simp only [Bool.not_eq_true] at h1
      exact ⟨⟨⟨by cases hh : s.enable_pp <;> simp_all, by simpa using h2⟩, h3⟩, h4⟩
    rw [h] at this
    exact Bool.false_ne_true this

theorem wake_bg (s : State) :
    (nvmap_pp_wake_up_allocator s).bg_pages_to_fill
      = if policy_signals s = true then policy_target s else s.bg_pages_to_fill := by
  by_cases h : policy_signals s = true
  · rw [wake_signal s h, if_pos h]
  · simp only [Bool.not_eq_true] at h
    rw [(wake_silent s h).1, if_neg (by simp [h])]

theorem wake_wakeups (s : State) :
    (nvmap_pp_wake_up_allocator s).wakeups
      = if policy_signals s = true then s.wakeups + 1 else s.wakeups := by
  by_cases h : policy_signals s = true
  · rw [wake_signal s h, if_pos h]
  · simp only [Bool.not_eq_true] at h
    rw [(wake_silent s h).2, if_neg (by simp [h])]

theorem wake_signals_iff (s : State) :
    (nvmap_pp_wake_up_allocator s).wakeups = s.wakeups + 1 ↔ policy_signals s = true := by
  rw [wake_wakeups]
  split <;> simp_all

theorem clean_cleans (s : State) :
    (pp_clean_cache s).cache_cleans = s.cache_cleans + (if s.pp_dirty = true then 1 else 0) := by
  unfold pp_clean_cache
  split <;> simp_all

theorem clean_dirty (s : State) : (pp_clean_cache s).pp_dirty = false := by
  unfold pp_clean_cache
  split <;> simp_all


theorem wake_frame (s : State) :
    (nvmap_pp_wake_up_allocator s).enable_pp = s.enable_pp ∧
    (nvmap_pp_wake_up_allocator s).zero_memory = s.zero_memory ∧
    (nvmap_pp_wake_up_allocator s).PAGE_SHIFT = s.PAGE_SHIFT ∧
    (nvmap_pp_wake_up_allocator s).meminfo = s.meminfo ∧
    ((nvmap_pp_wake_up_allocator s).meminfo_calls = s.meminfo_calls ∨
     (nvmap_pp_wake_up_allocator s).meminfo_calls = s.meminfo_calls + 1) := by
  unfold nvmap_pp_wake_up_allocator
  simp only
  split_ifs <;> simp

/-- A second policy evaluation that gets the same `si_meminfo` answer decides as the first. -/
theorem wake_signals_again (s : State)
    (hmem : s.meminfo (s.meminfo_calls + 1) = s.meminfo s.meminfo_calls) :
    policy_signals (nvmap_pp_wake_up_allocator s) = policy_signals s ∧
    policy_target (nvmap_pp_wake_up_allocator s) = policy_target s := by
  obtain ⟨h1, h2, h3, h4, h5⟩ := wake_frame s
  have hp := wake_pool s
  have hinfo : (nvmap_pp_wake_up_allocator s).meminfo (nvmap_pp_wake_up_allocator s).meminfo_calls
      = s.meminfo s.meminfo_calls := by
    rw [h4]
    rcases h5 with h5 | h5 <;> rw [h5]
    exact hmem
  unfold policy_signals policy_target
  rw [h1, h2, h3, hp, hinfo]
  exact ⟨rfl, rfl⟩

theorem wake_twice_bg (s : State)
    (hmem : s.meminfo (s.meminfo_calls + 1) = s.meminfo s.meminfo_calls) :
    (nvmap_pp_wake_up_allocator (nvmap_pp_wake_up_allocator s)).bg_pages_to_fill
      = (nvmap_pp_wake_up_allocator s).bg_pages_to_fill := by
  obtain ⟨h1, h2⟩ := wake_signals_again s hmem
  rw [wake_bg (nvmap_pp_wake_up_allocator s), h1, h2]
  by_cases h : policy_signals s = true
  · rw [if_pos h, wake_bg, if_pos h]
  · rw [if_neg h]


/-! ## The dirty flag and the cache clean -/

/-- A removal that returns a page has run `pp_clean_cache` once. -/
theorem alloc_locked_clean (s s1 : State) (x : Page)
    (h : nvmap_page_pool_alloc_locked s = .ok (some x, s1)) :
    s1.cache_cleans = s.cache_cleans + (if s.pp_dirty = true then 1 else 0) ∧
    s1.pp_dirty = false := by
  unfold nvmap_page_pool_alloc_locked at h
  cases he : pp_empty s.pool with
  | error e => rw [he] at h; simp at h
  | ok b =>
    rw [he] at h
    cases b with
    | true => simp at h
    | false =>
      simp only at h
      cases hs : slot (pp_clean_cache s).pool (pp_clean_cache s).pool.alloc with
      | error e => rw [hs] at h; simp at h
      | ok page =>
        rw [hs] at h
        simp only at h
        cases hw : set_slot (pp_clean_cache s).pool (pp_clean_cache s).pool.alloc none with
        | error e => rw [hw] at h; simp at h
        | ok pool1 =>
          rw [hw] at h
          simp only [Except.ok.injEq, Prod.mk.injEq] at h
          obtain ⟨_, hs1⟩ := h
          rw [← hs1, wake_cleans, wake_dirty]
          exact ⟨clean_cleans s, clean_dirty s⟩

theorem fill_lots_frame (s s1 : State) (pages : List Page) (nr k : Nat)
    (h : __nvmap_page_pool_fill_lots_locked s pages nr = .ok (k, s1)) :
    s1 = { s with pool := s1.pool } := by
  unfold __nvmap_page_pool_fill_lots_locked at h
  simp only at h
  split at h
  · simp only [Except.ok.injEq, Prod.mk.injEq] at h
    rw [← h.2]
  · split at h
    · simp at h
    · simp only [Except.ok.injEq, Prod.mk.injEq] at h
      rw [← h.2]

theorem free_loop_clean : ∀ (n : Nat) (s : State) (q : List Page), Abs s.pool q →
    ∃ r s1, free_loop n s = .ok (r, s1) ∧
      s1.pp_dirty = (if n = 0 ∨ q = [] then s.pp_dirty else false) ∧
      s1.cache_cleans
        = s.cache_cleans + (if s.pp_dirty = true ∧ n ≠ 0 ∧ q ≠ [] then 1 else 0) := by
  intro n
  induction n with
  | zero =>
    intro s q _
    exact ⟨0, s, by simp [free_loop], by simp, by simp⟩
  | succ n ih =>
    intro s q h
    obtain ⟨arr, hr, hc⟩ := h
    cases q with
    | nil =>
      exact ⟨n + 1, nvmap_pp_wake_up_allocator s, by simp [free_loop, alloc_locked_nil hr],
        by simp [wake_dirty], by simp [wake_cleans]⟩
    | cons x q =>
      obtain ⟨e, hr1, hc1⟩ := alloc_locked_cons hr hc
      obtain ⟨hcl, hd⟩ := alloc_locked_clean _ _ _ e
      obtain ⟨r, s1, e1, hd1, hc2⟩ := ih
        { nvmap_pp_wake_up_allocator
            { pp_clean_cache s with pool := pool_after_take s.pool arr } with
          freed := (nvmap_pp_wake_up_allocator
            { pp_clean_cache s with pool := pool_after_take s.pool arr }).freed ++ [x] } q
        (by simp only [wake_pool]; exact ⟨_, hr1, hc1⟩)
      simp only [hd, hcl] at hd1 hc2
      refine ⟨r, s1, by simp only [free_loop, e, __free_page, e1], ?_, ?_⟩
      · rw [hd1]; simp
      · rw [hc2]
        by_cases hdirty : s.pp_dirty = true <;> simp [hdirty]


/-! ## Operations keep the pool well formed -/

theorem nodup_append_fresh {q new : List Page} (h1 : q.Nodup) (h2 : new.Nodup)
    (h3 : ∀ p ∈ new, p ∉ q) : (q ++ new).Nodup := by
  apply List.Nodup.append h1 h2
  intro p hp hn
  exact h3 p hn hp

theorem ok_fill {f : Bool} {s s1 : State} {p : Page} {r : Bool} (h : pool_ok f s.pool)
    (hfresh : f = true → p ∉ pool_pages s.pool)
    (e : nvmap_page_pool_fill s p = .ok (r, s1)) : pool_ok f s1.pool := by
  obtain ⟨q, habs, hnd⟩ := h
  obtain ⟨s2, e2, a2, _, _⟩ := fill_abs habs p
  rw [e] at e2
  simp only [Except.ok.injEq, Prod.mk.injEq] at e2
  rw [e2.2]
  refine ⟨_, a2, ?_⟩
  intro hf
  split
  · apply nodup_append_fresh (hnd hf) (List.nodup_singleton p)
    intro x hx
    rw [List.mem_singleton] at hx
    rw [hx, ← abs_pages habs]
    exact hfresh hf
  · exact hnd hf

theorem ok_fill_lots {f : Bool} {s s1 : State} {pages : List Page} {nr k : Nat}
    (h : pool_ok f s.pool) (hnr : nr ≤ pages.length)
    (hfresh : f = true → (pages.take nr).Nodup ∧ ∀ p ∈ pages.take nr, p ∉ pool_pages s.pool)
    (e : __nvmap_page_pool_fill_lots_locked s pages nr = .ok (k, s1)) :
    pool_ok f s1.pool := by
  obtain ⟨q, habs, hnd⟩ := h
  obtain ⟨pool2, e2, a2, _, _⟩ := fill_lots_abs habs pages nr
    (Nat.le_trans (Nat.min_le_left _ _) hnr)
  rw [e] at e2
  simp only [Except.ok.injEq, Prod.mk.injEq] at e2
  rw [e2.2]
  refine ⟨_, a2, ?_⟩
  intro hf
  obtain ⟨hn1, hn2⟩ := hfresh hf
  have hsub : (pages.take (min nr (s.pool.length - q.length))).Sublist (pages.take nr) :=
    List.take_sublist_take_left pages (Nat.min_le_left _ _)
  apply nodup_append_fresh (hnd hf) (hn1.sublist hsub)
  intro x hx
  rw [← abs_pages habs]
  exact hn2 x (hsub.subset hx)

theorem ok_alloc {f : Bool} {s s1 : State} {page : Option Page} (h : pool_ok f s.pool)
    (e : nvmap_page_pool_alloc s = .ok (page, s1)) : pool_ok f s1.pool := by
  obtain ⟨q, habs, hnd⟩ := h
  obtain ⟨s2, e2, a2, _, _⟩ := alloc_abs habs
  rw [e] at e2
  simp only [Except.ok.injEq, Prod.mk.injEq] at e2
  rw [e2.2]
  exact ⟨_, a2, fun hf => (hnd hf).sublist (List.tail_sublist q)⟩

theorem ok_alloc_lots {f : Bool} {s s1 : State} {nr ind : Nat} {out : List (Option Page)}
    (h : pool_ok f s.pool)
    (e : __nvmap_page_pool_alloc_lots_locked s nr = .ok (ind, out, s1)) :
    pool_ok f s1.pool := by
  obtain ⟨q, habs, hnd⟩ := h
  obtain ⟨pool2, e2, a2, _, _⟩ := alloc_lots_abs habs nr
  rw [e] at e2
  simp only [Except.ok.injEq, Prod.mk.injEq] at e2
  rw [e2.2.2, wake_pool]
  exact ⟨_, a2, fun hf => (hnd hf).sublist (List.drop_sublist nr q)⟩

theorem ok_free {f : Bool} {s s1 : State} {nr_free r : Nat} (h : pool_ok f s.pool)
    (e : nvmap_page_pool_free s nr_free = .ok (r, s1)) : pool_ok f s1.pool := by
  obtain ⟨q, habs, hnd⟩ := h
  obtain ⟨s2, e2, a2, _, _⟩ := free_abs habs nr_free
  rw [e] at e2
  simp only [Except.ok.injEq, Prod.mk.injEq] at e2
  rw [e2.2]
  exact ⟨_, a2, fun hf => (hnd hf).sublist (List.drop_sublist nr_free q)⟩

theorem ok_shrink {f : Bool} {s s1 : State} {n r : Nat} (h : pool_ok f s.pool)
    (e : nvmap_page_pool_shrink s n = .ok (r, s1)) : pool_ok f s1.pool := by
  unfold nvmap_page_pool_shrink at e
  simp only at e
  split at e
  · simp only [Except.ok.injEq, Prod.mk.injEq] at e
    rw [← e.2]; exact h
  · cases hfree : nvmap_page_pool_free s n with
    | error err => rw [hfree] at e; simp at e
    | ok v =>
      obtain ⟨r0, s2⟩ := v
      rw [hfree] at e
      simp only [Except.ok.injEq, Prod.mk.injEq] at e
      rw [← e.2]
      exact ok_free h hfree

theorem clear_abs {s : State} {q : List Page} (h : Abs s.pool q) :
    ∃ s1, nvmap_page_pool_clear s = .ok (0, s1) ∧ Abs s1.pool [] ∧
      s1.pool.length = s.pool.length := by
  have hsz := h.array_size_ge
  obtain ⟨s1, e1, a1, _, hl, _⟩ := clear_loop_abs q s (array_size s.pool + 1) h (by omega)
  obtain ⟨arr, hr, _⟩ := h
  have a1' := a1
  obtain ⟨arr1, hr1, hc1⟩ := a1
  have hemp : pp_empty s1.pool = .ok true := by simpa using hr1.pp_empty_eq
  refine ⟨nvmap_pp_wake_up_allocator s1, by simp [nvmap_page_pool_clear, hr.harr, e1, hemp],
    by rw [wake_pool]; exact a1', by rw [wake_pool]; exact hl⟩

theorem ok_clear {f : Bool} {s s1 : State} {r : Int} (h : pool_ok f s.pool)
    (e : nvmap_page_pool_clear s = .ok (r, s1)) : pool_ok f s1.pool := by
  obtain ⟨q, habs, _⟩ := h
  obtain ⟨s2, e2, a2, _⟩ := clear_abs habs
  rw [e] at e2
  simp only [Except.ok.injEq, Prod.mk.injEq] at e2
  rw [e2.2]
  exact ⟨[], a2, fun _ => List.nodup_nil⟩

theorem ok_resize {f : Bool} {s s1 : State} {size : Nat} (h : pool_ok f s.pool)
    (h1 : 1 ≤ size) (h2 : size < 1073741824)
    (e : nvmap_page_pool_resize s size = .ok s1) : pool_ok f s1.pool := by
  obtain ⟨q, habs, hnd⟩ := h
  by_cases hv : s.vzalloc_ok s.vzalloc_calls = true
  · obtain ⟨s2, e2, a2, _⟩ := resize_abs habs size h1 h2 hv
    rw [e] at e2
    simp only [Except.ok.injEq] at e2
    rw [e2]
    exact ⟨_, a2, fun hf => (hnd hf).sublist (List.take_sublist size q)⟩
  · simp only [Bool.not_eq_true] at hv
    by_cases hsz : size = s.pool.length
    · simp only [nvmap_page_pool_resize, hsz, if_true, Except.ok.injEq] at e
      rw [← e]
      exact ⟨q, habs, hnd⟩
    · rw [resize_failure_lemma s size (by omega) hsz hv] at e
      simp only [Except.ok.injEq] at e
      rw [← e]
      exact ⟨q, habs, hnd⟩

theorem ok_resize_zero {f : Bool} {s s1 : State} (h : pool_ok f s.pool)
    (e : nvmap_page_pool_resize s 0 = .ok s1) : torn s1.pool := by
  obtain ⟨q, ⟨arr, hr, _⟩, _⟩ := h
  have hpos := hr.hpos
  have hne : ¬ 0 = s.pool.length := by omega
  simp only [nvmap_page_pool_resize, hne, if_false, if_true, Except.ok.injEq] at e
  rw [← e, vfree_pool]
  exact ⟨rfl, rfl⟩


/-! ## Operations on a pool without storage -/

theorem wake_eq_pool {s s1 : State} (e : nvmap_pp_wake_up_allocator s = s1) :
    s1.pool = s.pool := by
  rw [← e]; exact wake_pool s

theorem torn_alloc_lots {s s1 : State} {nr ind : Nat} {out : List (Option Page)}
    (h : torn s.pool)
    (e : __nvmap_page_pool_alloc_lots_locked s nr = .ok (ind, out, s1)) : torn s1.pool := by
  unfold __nvmap_page_pool_alloc_lots_locked at e
  simp only [clean_pool] at e
  cases hn : min nr s.pool.count with
  | zero =>
    simp only [hn, alloc_lots_loop, Except.ok.injEq, Prod.mk.injEq] at e
    obtain ⟨_, _, hs1⟩ := e
    have hp := wake_eq_pool hs1
    simp only [List.length_nil] at hp
    have h1 : s1.pool.page_array = s.pool.page_array := by rw [hp]
    have h2 : s1.pool.length = s.pool.length := by rw [hp]
    exact ⟨h1.trans h.1, h2.trans h.2⟩
  | succ n =>
    simp [hn, alloc_lots_loop, slot, h.1] at e

theorem torn_fill_lots {s s1 : State} {pages : List Page} {nr k : Nat} (h : torn s.pool)
    (e : __nvmap_page_pool_fill_lots_locked s pages nr = .ok (k, s1)) : torn s1.pool := by
  unfold __nvmap_page_pool_fill_lots_locked at e
  simp only at e
  split at e
  · simp only [Except.ok.injEq, Prod.mk.injEq] at e
    rw [← e.2]; exact h
  · rename_i hne
    cases hn : min (u32_sub s.pool.length s.pool.count) nr with
    | zero => exact absurd hn hne
    | succ n =>
      rw [hn] at e
      simp only [fill_lots_loop] at e
      cases hp : pages[0]? with
      | none => simp [hp] at e
      | some p => simp [hp, set_slot, h.1] at e

theorem torn_free {s s1 : State} {nr_free r : Nat} (h : torn s.pool)
    (e : nvmap_page_pool_free s nr_free = .ok (r, s1)) : torn s1.pool := by
  unfold nvmap_page_pool_free at e
  split at e
  · simp only [Except.ok.injEq, Prod.mk.injEq] at e
    rw [← e.2]; exact h
  · cases nr_free with
    | zero => simp at *
    | succ n =>
      have hf := (null_storage_alloc_fill s 0 h.1).1
      unfold nvmap_page_pool_alloc at hf
      simp [free_loop, hf] at e

theorem torn_shrink {s s1 : State} {n r : Nat} (h : torn s.pool)
    (e : nvmap_page_pool_shrink s n = .ok (r, s1)) : torn s1.pool := by
  unfold nvmap_page_pool_shrink at e
  simp only at e
  split at e
  · simp only [Except.ok.injEq, Prod.mk.injEq] at e
    rw [← e.2]; exact h
  · cases hfree : nvmap_page_pool_free s n with
    | error err => rw [hfree] at e; simp at e
    | ok v =>
      obtain ⟨r0, s2⟩ := v
      rw [hfree] at e
      simp only [Except.ok.injEq, Prod.mk.injEq] at e
      rw [← e.2]
      exact torn_free h hfree

theorem torn_clear {s s1 : State} {r : Int} (h : torn s.pool)
    (e : nvmap_page_pool_clear s = .ok (r, s1)) : torn s1.pool := by
  simp only [nvmap_page_pool_clear, h.1, Except.ok.injEq, Prod.mk.injEq] at e
  rw [← e.2]; exact h

theorem torn_resize_free_loop (fuel : Nat) (s s1 : State) (h : torn s.pool) :
    resize_free_loop fuel s ≠ .ok s1 := by
  cases fuel with
  | zero => simp [resize_free_loop]
  | succ fuel =>
    have hf := (null_storage_alloc_fill s 0 h.1).1
    unfold nvmap_page_pool_alloc at hf
    unfold resize_free_loop pp_empty
    by_cases hi : s.pool.fill = s.pool.alloc <;> simp [hi, slot, h.1, hf]

theorem torn_resize {s s1 : State} {size : Nat} (h : torn s.pool)
    (e : nvmap_page_pool_resize s size = .ok s1) : torn s1.pool := by
  unfold nvmap_page_pool_resize at e
  split at e
  · simp only [Except.ok.injEq] at e
    rw [← e]; exact h
  · split at e
    · rename_i hne h0
      exact absurd (h0.trans h.2.symm) hne
    · simp only at e
      split at e
      · simp only [Except.ok.injEq] at e
        rw [← e]; exact h
      · cases hl : __nvmap_page_pool_alloc_lots_locked
            { s with vzalloc_calls := s.vzalloc_calls + 1 } size with
        | error err => rw [hl] at e; simp at e
        | ok v =>
          obtain ⟨ind, out, s2⟩ := v
          rw [hl] at e
          simp only at e
          split at e
          · simp at e
          · have ht : torn s2.pool :=
              torn_alloc_lots (s := { s with vzalloc_calls := s.vzalloc_calls + 1 }) h hl
            cases hloop : resize_free_loop (array_size s2.pool + 1) s2 with
            | error err => rw [hloop] at e; simp at e
            | ok s3 => exact absurd hloop (torn_resize_free_loop _ s2 s3 ht)


/-! ## The background refill pass keeps the pool well formed -/

theorem alloc_n_loop_spec : ∀ (n : Nat) (s : State) (got : List Page),
    (alloc_n_loop n s got).2.2
      = { s with page_alloc_calls := (alloc_n_loop n s got).2.2.page_alloc_calls,
                 freed := (alloc_n_loop n s got).2.2.freed } ∧
    ((alloc_n_loop n s got).1 = 0 →
      ∃ new, (alloc_n_loop n s got).2.1 = got ++ new ∧ new.length = n ∧
        (alloc_n_loop n s got).2.2.freed = s.freed ∧
        (alloc_n_loop n s got).2.2.page_alloc_calls = s.page_alloc_calls + n ∧
        ∀ i, i < n → s.page_alloc (s.page_alloc_calls + i) = new[i]?) := by
  intro n
  induction n with
  | zero =>
    intro s got
    exact ⟨rfl, fun _ => ⟨[], by simp [alloc_n_loop], rfl, rfl, rfl, fun i hi => by omega⟩⟩
  | succ n ih =>
    intro s got
    unfold alloc_n_loop alloc_page
    cases hp : s.page_alloc s.page_alloc_calls with
    | none =>
      simp only
      exact ⟨rfl, fun h0 => by simp [ENOMEM] at h0⟩
    | some p =>
      simp only
      obtain ⟨h1, h2⟩ := ih { s with page_alloc_calls := s.page_alloc_calls + 1 } (got ++ [p])
      refine ⟨by rw [h1], ?_⟩
      intro h0
      obtain ⟨new, e1, e2, e3, e4, e5⟩ := h2 h0
      refine ⟨p :: new, by rw [e1]; simp, by simp [e2], e3, by rw [e4]; simp only; omega, ?_⟩
      intro i hi
      cases i with
      | zero => simpa using hp
      | succ i =>
        have := e5 i (by omega)
        simp only at this
        rw [List.getElem?_cons_succ, ← this]
        congr 1
        omega

/-- Pages taken from a fresh allocator are new to the pool and pairwise distinct, and the
allocator stays fresh once some of them are pooled. -/
theorem fresh_step (s : State) (q new : List Page) (n : Nat)
    (hq : pool_pages s.pool = q) (hfresh : fresh_allocator s) (hlen : new.length = n)
    (hnew : ∀ i, i < n → s.page_alloc (s.page_alloc_calls + i) = new[i]?) :
    new.Nodup ∧ (∀ p ∈ new, p ∉ q) ∧
    (∀ s4 : State, s4.page_alloc = s.page_alloc →
      s4.page_alloc_calls = s.page_alloc_calls + n →
      (∃ k, pool_pages s4.pool = q ++ new.take k) → fresh_allocator s4) := by
  obtain ⟨hinj, hout⟩ := hfresh
  have hmem : ∀ p ∈ new, ∃ i, i < n ∧ s.page_alloc (s.page_alloc_calls + i) = some p := by
    intro p hp
    obtain ⟨i, hi, hpi⟩ := List.getElem_of_mem hp
    refine ⟨i, by omega, ?_⟩
    rw [hnew i (by omega), List.getElem?_eq_getElem hi, hpi]
  refine ⟨?_, ?_, ?_⟩
  · rw [List.nodup_iff_getElem?_ne_getElem?]
    intro i j hij hj heq
    have hi : i < new.length := by omega
    have h1 := hnew i (by omega)
    have h2 := hnew j (by omega)
    rw [List.getElem?_eq_getElem hi] at h1
    rw [← heq, List.getElem?_eq_getElem hi] at h2
    have := hinj _ _ _ (by omega) (by omega) h1 h2
    omega
  · intro p hp
    obtain ⟨i, _, hpi⟩ := hmem p hp
    rw [← hq]
    exact hout _ p (by omega) hpi
  · intro s4 hpa hcalls ⟨k, hk⟩
    refine ⟨?_, ?_⟩
    · intro i j p hi hj h1 h2
      rw [hpa] at h1 h2
      exact hinj i j p (by omega) (by omega) h1 h2
    · intro i p hi h1
      rw [hpa] at h1
      rw [hk, List.mem_append]
      rintro (hin | hin)
      · rw [← hq] at hin
        exact hout i p (by omega) h1 hin
      · obtain ⟨j, hj, hpj⟩ := hmem p (List.mem_of_mem_take hin)
        have := hinj _ _ _ (by omega) (by omega) h1 hpj
        omega


theorem bg_fill_loop_ok (f : Bool) : ∀ (fuel : Nat) (s : State) (pages : Nat) (s1 : State),
    pool_ok f s.pool → (f = true → fresh_allocator s) →
    bg_fill_loop fuel s pages = .ok s1 → pool_ok f s1.pool := by
  intro fuel
  induction fuel with
  | zero => intro s pages s1 _ _ e; simp [bg_fill_loop] at e
  | succ fuel ih =>
    intro s pages s1 hok hfr e
    unfold bg_fill_loop __nvmap_pp_alloc_n_pages at e
    simp only at e
    split at e
    · simp only [Except.ok.injEq] at e
      rw [← e]; exact hok
    · generalize min (PENDING_PAGES_SIZE s.PAGE_SHIFT) pages = nr at e
      have hspec := alloc_n_loop_spec nr { s with meminfo_calls := s.meminfo_calls + 1 } []
      rcases hr : alloc_n_loop nr { s with meminfo_calls := s.meminfo_calls + 1 } []
        with ⟨err, pending, s2⟩
      rw [hr] at e hspec
      simp only at e hspec
      obtain ⟨hframe, hsucc⟩ := hspec
      have hpool : s2.pool = s.pool := by rw [hframe]
      have hpa : s2.page_alloc = s.page_alloc := by rw [hframe]
      split at e
      · simp only [Except.ok.injEq] at e
        rw [← e, hpool]; exact hok
      · rename_i herr
        have herr0 : err = 0 := by simpa using herr
        obtain ⟨new, hpend, hlen, _, hcalls, hans⟩ := hsucc herr0
        simp only [List.nil_append] at hpend
        subst hpend
        obtain ⟨q, habs, hnd⟩ := hok
        have habs3 : Abs ({ s2 with pp_dirty := true } : State).pool q := by
          simp only [hpool]; exact habs
        obtain ⟨pool2, e2, a2, _, _⟩ := fill_lots_abs habs3 pending nr
          (by rw [hlen]; exact Nat.min_le_left _ _)
        rw [e2] at e
        simp only at e
        have hstep : f = true →
            (q ++ pending.take (min nr (s2.pool.length - q.length))).Nodup ∧
            fresh_allocator ({ s2 with pp_dirty := true, pool := pool2 } : State) := by
          intro hf
          obtain ⟨hn1, hn2, hn3⟩ := fresh_step s q pending nr (abs_pages habs) (hfr hf) hlen hans
          refine ⟨?_, ?_⟩
          · apply nodup_append_fresh (hnd hf) (hn1.sublist (List.take_sublist _ _))
            intro p hp
            exact hn2 p (List.mem_of_mem_take hp)
          · exact hn3 _ hpa hcalls ⟨_, abs_pages a2⟩
        have hok4 : pool_ok f pool2 := ⟨_, a2, fun hf => (hstep hf).1⟩
        split at e
        · exact ih _ _ _ hok4 (fun hf => (hstep hf).2) e
        · simp only [Except.ok.injEq] at e
          rw [← e, clean_pool]
          exact hok4

theorem bg_fill_loop_torn : ∀ (fuel : Nat) (s : State) (pages : Nat) (s1 : State),
    torn s.pool → bg_fill_loop fuel s pages = .ok s1 → torn s1.pool := by
  intro fuel
  induction fuel with
  | zero => intro s pages s1 _ e; simp [bg_fill_loop] at e
  | succ fuel ih =>
    intro s pages s1 ht e
    unfold bg_fill_loop __nvmap_pp_alloc_n_pages at e
    simp only at e
    split at e
    · simp only [Except.ok.injEq] at e
      rw [← e]; exact ht
    · generalize min (PENDING_PAGES_SIZE s.PAGE_SHIFT) pages = nr at e
      have hspec := alloc_n_loop_spec nr { s with meminfo_calls := s.meminfo_calls + 1 } []
      rcases hr : alloc_n_loop nr { s with meminfo_calls := s.meminfo_calls + 1 } []
        with ⟨err, pending, s2⟩
      rw [hr] at e hspec
      simp only at e hspec
      obtain ⟨hframe, _⟩ := hspec
      have hpool : s2.pool = s.pool := by rw [hframe]
      split at e
      · simp only [Except.ok.injEq] at e
        rw [← e, hpool]; exact ht
      · cases hfl : __nvmap_page_pool_fill_lots_locked { s2 with pp_dirty := true } pending nr with
        | error err2 => rw [hfl] at e; simp at e
        | ok v =>
          obtain ⟨i, s4⟩ := v
          rw [hfl] at e
          simp only at e
          have ht4 : torn s4.pool :=
            torn_fill_lots (s := { s2 with pp_dirty := true }) (by simp only [hpool]; exact ht) hfl
          split at e
          · exact ih _ _ _ ht4 e
          · simp only [Except.ok.injEq] at e
            rw [← e, clean_pool]
            exact ht4

theorem ok_background_fill {f : Bool} {s s1 : State} (h : pool_ok f s.pool)
    (hfresh : f = true → fresh_allocator s)
    (e : nvmap_pp_do_background_fill s = .ok s1) : pool_ok f s1.pool := by
  unfold nvmap_pp_do_background_fill at e
  simp only at e
  split at e
  · simp only [Except.ok.injEq] at e
    rw [← e]; exact h
  · exact bg_fill_loop_ok f _ { s with bg_pages_to_fill := 0 } _ _ h hfresh e

theorem torn_background_fill {s s1 : State} (h : torn s.pool)
    (e : nvmap_pp_do_background_fill s = .ok s1) : torn s1.pool := by
  unfold nvmap_pp_do_background_fill at e
  simp only at e
  split at e
  · simp only [Except.ok.injEq] at e
    rw [← e]; exact h
  · exact bg_fill_loop_torn _ { s with bg_pages_to_fill := 0 } _ _ h e


/-! ## Reachable states -/

/-- Every reachable state has a well-formed pool, or (when the resize to length 0 is among
the operations) a pool without storage and with `length = 0`. -/
theorem reachable_pool {z f : Bool} {s : State} (h : Reachable z f s) :
    pool_ok f s.pool ∨ (z = true ∧ torn s.pool) := by
  induction h with
  | init s L h1 h2 hs =>
    left; rw [hs]; exact ⟨[], abs_empty_pool L h1 h2, fun _ => List.nodup_nil⟩
  | frame s s1 _ hp ih => rw [hp]; exact ih
  | fill s s1 p r _ hfresh e ih =>
    rcases ih with ih | ⟨_, ht⟩
    · left; exact ok_fill ih hfresh e
    · exfalso; rw [(null_storage_alloc_fill s p ht.1).2] at e; simp at e
  | fill_lots s s1 pages nr k _ hnr hfresh e ih =>
    rcases ih with ih | ⟨hz, ht⟩
    · left; exact ok_fill_lots ih hnr hfresh e
    · right; exact ⟨hz, torn_fill_lots ht e⟩
  | alloc s s1 page _ e ih =>
    rcases ih with ih | ⟨_, ht⟩
    · left; exact ok_alloc ih e
    · exfalso; rw [(null_storage_alloc_fill s 0 ht.1).1] at e; simp at e
  | alloc_lots s s1 nr ind out _ e ih =>
    rcases ih with ih | ⟨hz, ht⟩
    · left; exact ok_alloc_lots ih e
    · right; exact ⟨hz, torn_alloc_lots ht e⟩
  | free s s1 n r _ e ih =>
    rcases ih with ih | ⟨hz, ht⟩
    · left; exact ok_free ih e
    · right; exact ⟨hz, torn_free ht e⟩
  | shrink s s1 n r _ e ih =>
    rcases ih with ih | ⟨hz, ht⟩
    · left; exact ok_shrink ih e
    · right; exact ⟨hz, torn_shrink ht e⟩
  | clear s s1 r _ e ih =>
    rcases ih with ih | ⟨hz, ht⟩
    · left; exact ok_clear ih e
    · right; exact ⟨hz, torn_clear ht e⟩
  | resize s s1 size _ h1 h2 e ih =>
    rcases ih with ih | ⟨hz, ht⟩
    · left; exact ok_resize ih h1 h2 e
    · right; exact ⟨hz, torn_resize ht e⟩
  | resize_zero s s1 hz _ e ih =>
    rcases ih with ih | ⟨_, ht⟩
    · right; exact ⟨hz, ok_resize_zero ih e⟩
    · right; exact ⟨hz, torn_resize ht e⟩
  | background_fill s s1 _ hfresh e ih =>
    rcases ih with ih | ⟨hz, ht⟩
    · left; exact ok_background_fill ih hfresh e
    · right; exact ⟨hz, torn_background_fill ht e⟩

/-- A reachable state with `length >= 1` has a well-formed pool. -/
theorem reachable_with_storage {z f : Bool} {s : State} (h : Reachable z f s)
    (hz : z = false ∨ 1 ≤ s.pool.length) : pool_ok f s.pool := by
  rcases reachable_pool h with hok | ⟨hz1, ht⟩
  · exact hok
  · rcases hz with hz | hz
    · rw [hz] at hz1; exact absurd hz1 (by decide)
    · rw [ht.2] at hz; omega

theorem ring_inv_bounds {pool : nvmap_page_pool} (h : ring_inv pool) :
    ring_bounds pool ∧ 1 ≤ pool.length ∧ array_size pool = pool.length := by
  unfold ring_inv at h
  unfold ring_bounds array_size
  cases harr : pool.page_array with
  | none => simp [harr] at h
  | some arr =>
    simp only [harr] at h
    obtain ⟨h1, h2, _, h4, h5, h6, _, _⟩ := h
    exact ⟨⟨Nat.zero_le _, h4, h5, h6⟩, h2, h1⟩

/-- In a ring holding a queue without repetition no page sits in two slots. -/
theorem abs_slots_distinct {pool : nvmap_page_pool} {q : List Page} (h : Abs pool q)
    (hnd : q.Nodup) (i j : Nat) (p : Page) (hi : i < pool.length) (hj : j < pool.length)
    (h1 : slot pool i = .ok (some p)) (h2 : slot pool j = .ok (some p)) : i = j := by
  obtain ⟨arr, hr, _⟩ := h
  obtain ⟨m, hm, hmi⟩ := ring_index_surj pool.length pool.alloc i hr.halloc hi
  obtain ⟨n, hn, hnj⟩ := ring_index_surj pool.length pool.alloc j hr.halloc hj
  have e1 := hr.slot_at m hm
  have e2 := hr.slot_at n hn
  rw [hmi, h1] at e1
  rw [hnj, h2] at e2
  simp only [Except.ok.injEq] at e1 e2
  have hmq : m < q.length := by
    by_contra hc
    rw [List.getElem?_eq_none (by omega)] at e1
    simp at e1
  have hnq : n < q.length := by
    by_contra hc
    rw [List.getElem?_eq_none (by omega)] at e2
    simp at e2
  have hmn : m = n := by
    rcases Nat.lt_trichotomy m n with hlt | heq | hgt
    · exact absurd (e1.symm.trans e2) (List.nodup_iff_getElem?_ne_getElem?.1 hnd m n hlt hnq)
    · exact heq
    · exact absurd (e2.symm.trans e1) (List.nodup_iff_getElem?_ne_getElem?.1 hnd n m hgt hmq)
  rw [← hmi, ← hnj, hmn]

/-- The slots of a well-formed ring outside the window from `alloc` hold no page. -/
theorem abs_other_slots {pool : nvmap_page_pool} {q : List Page} (h : Abs pool q)
    (j : Nat) (hj : j < pool.length)
    (hout : ∀ i, i < pool.count → j ≠ (pool.alloc + i) % pool.length) :
    slot pool j = .ok none := by
  obtain ⟨arr, hr, hc⟩ := h
  obtain ⟨m, hm, hmj⟩ := ring_index_surj pool.length pool.alloc j hr.halloc hj
  have e1 := hr.slot_at m hm
  rw [hmj] at e1
  rw [e1]
  have : ¬ m < q.length := by
    intro hlt
    exact hout m (by omega) hmj.symm
  rw [List.getElem?_eq_none (by omega)]


/-! ## The background refill pass: pending target and termination -/

theorem clean_bg (s : State) : (pp_clean_cache s).bg_pages_to_fill = s.bg_pages_to_fill := by
  unfold pp_clean_cache
  split <;> rfl

theorem clean_shift (s : State) : (pp_clean_cache s).PAGE_SHIFT = s.PAGE_SHIFT := by
  unfold pp_clean_cache
  split <;> rfl

theorem bg_fill_loop_bg : ∀ (fuel : Nat) (s : State) (pages : Nat) (s1 : State),
    bg_fill_loop fuel s pages = .ok s1 → s1.bg_pages_to_fill = s.bg_pages_to_fill := by
  intro fuel
  induction fuel with
  | zero => intro s pages s1 e; simp [bg_fill_loop] at e
  | succ fuel ih =>
    intro s pages s1 e
    unfold bg_fill_loop __nvmap_pp_alloc_n_pages at e
    simp only at e
    split at e
    · simp only [Except.ok.injEq] at e
      rw [← e]
    · generalize min (PENDING_PAGES_SIZE s.PAGE_SHIFT) pages = nr at e
      have hspec := alloc_n_loop_spec nr { s with meminfo_calls := s.meminfo_calls + 1 } []
      rcases hr : alloc_n_loop nr { s with meminfo_calls := s.meminfo_calls + 1 } []
        with ⟨err, pending, s2⟩
      rw [hr] at e hspec
      simp only at e hspec
      obtain ⟨hframe, _⟩ := hspec
      have hbg : s2.bg_pages_to_fill = s.bg_pages_to_fill := by rw [hframe]
      split at e
      · simp only [Except.ok.injEq] at e
        rw [← e, hbg]
      · cases hfl : __nvmap_page_pool_fill_lots_locked { s2 with pp_dirty := true } pending nr with
        | error err2 => rw [hfl] at e; simp at e
        | ok v =>
          obtain ⟨i, s4⟩ := v
          rw [hfl] at e
          simp only at e
          have h4 : s4.bg_pages_to_fill = s.bg_pages_to_fill := by
            rw [fill_lots_frame _ s4 pending nr i hfl]
            exact hbg
          split at e
          · rw [ih _ _ _ e, h4]
          · simp only [Except.ok.injEq] at e
            rw [← e, clean_bg]
            exact h4

theorem pending_pos (ps : Nat) (h : ps ≤ 20) : 1 ≤ PENDING_PAGES_SIZE ps := by
  unfold PENDING_PAGES_SIZE
  have h1 : 2 ^ ps ≤ 2 ^ 20 := Nat.pow_le_pow_right (by decide) h
  have h2 : 0 < 2 ^ ps := by positivity
  exact (Nat.le_div_iff_mul_le h2).2 (by simpa using h1)

/-- With a batch size of at least one page the refill loop returns within `pages` passes
from every state that satisfies the ring invariant. -/
theorem bg_fill_loop_total : ∀ (fuel : Nat) (s : State) (pages : Nat) (q : List Page),
    Abs s.pool q → 1 ≤ PENDING_PAGES_SIZE s.PAGE_SHIFT → 0 < pages → pages < fuel →
    pages < 4294967296 → ∃ s1, bg_fill_loop fuel s pages = .ok s1 := by
  intro fuel
  induction fuel with
  | zero => intro s pages q _ _ _ h; omega
  | succ fuel ih =>
    intro s pages q habs hpend hpos hfuel h32
    unfold bg_fill_loop __nvmap_pp_alloc_n_pages
    simp only
    split
    · exact ⟨_, rfl⟩
    · generalize hnr : min (PENDING_PAGES_SIZE s.PAGE_SHIFT) pages = nr
      have hnr1 : 1 ≤ nr := by rw [← hnr]; exact Nat.le_min.2 ⟨hpend, hpos⟩
      have hnr2 : nr ≤ pages := by rw [← hnr]; exact Nat.min_le_right _ _
      have hspec := alloc_n_loop_spec nr { s with meminfo_calls := s.meminfo_calls + 1 } []
      rcases hr : alloc_n_loop nr { s with meminfo_calls := s.meminfo_calls + 1 } []
        with ⟨err, pending, s2⟩
      rw [hr] at hspec
      simp only at hspec ⊢
      obtain ⟨hframe, hsucc⟩ := hspec
      have hpool : s2.pool = s.pool := by rw [hframe]
      have hshift : s2.PAGE_SHIFT = s.PAGE_SHIFT := by rw [hframe]
      split
      · exact ⟨_, rfl⟩
      · rename_i herr
        have herr0 : err = 0 := by simpa using herr
        obtain ⟨new, hpend2, hlen, _, _, _⟩ := hsucc herr0
        simp only [List.nil_append] at hpend2
        subst hpend2
        have habs3 : Abs ({ s2 with pp_dirty := true } : State).pool q := by
          simp only [hpool]; exact habs
        obtain ⟨pool2, e2, a2, _, _⟩ := fill_lots_abs habs3 pending nr
          (by rw [hlen]; exact Nat.min_le_left _ _)
        rw [e2]
        simp only
        split
        · rename_i hcont
          have hsub : u32_sub pages nr = pages - nr := u32_sub_of_le _ _ hnr2 h32
          rw [hsub] at hcont ⊢
          exact ih _ _ _ a2 (by simp only [hshift]; exact hpend) (by omega) (by omega) (by omega)
        · exact ⟨_, rfl⟩

theorem background_fill_total {s : State} {q : List Page} (h : Abs s.pool q)
    (hps : s.PAGE_SHIFT ≤ 20) : ∃ s1, nvmap_pp_do_background_fill s = .ok s1 := by
  unfold nvmap_pp_do_background_fill
  simp only
  split
  · exact ⟨_, rfl⟩
  · rename_i hne
    have hpos : 0 < u32 s.bg_pages_to_fill := by
      rcases Nat.eq_zero_or_pos (u32 s.bg_pages_to_fill) with h0 | h0
      · exact absurd (Or.inl h0) hne
      · exact h0
    have h32 : u32 s.bg_pages_to_fill < 4294967296 := by unfold u32; omega
    exact bg_fill_loop_total _ _ _ q h (pending_pos _ hps) hpos (by omega) h32


/-! ## Wakeup policy, dirty flag and reachable states -/

/-- C21 as stated fails on its scenario: with pooling enabled, occupancy below the
threshold (count 0), free memory 500 pages above the reserved floor and ring free space
300, the policy does not signal and the pending target keeps its value 0; it is not
`min(500, 300) = 300`.  The reserved floor is 32768 pages, not 500. -/
theorem wakeup_small_ring_no_target :
    narrow_state.enable_pp = true ∧
    narrow_state.pool.count < NVMAP_PP_ZERO_MEM_FILL_MIN ∧
    narrow_state.pool.length - narrow_state.pool.count = 300 ∧
    reserved_floor narrow_state.PAGE_SHIFT = 32768 ∧
    policy_free_pages narrow_state.PAGE_SHIFT
      (narrow_state.meminfo narrow_state.meminfo_calls) = 32768 + 500 ∧
    narrow_state.bg_pages_to_fill = 0 ∧
    (nvmap_pp_wake_up_allocator narrow_state).wakeups = narrow_state.wakeups ∧
    (nvmap_pp_wake_up_allocator narrow_state).bg_pages_to_fill = 0 ∧
    (nvmap_pp_wake_up_allocator narrow_state).bg_pages_to_fill ≠ min 500 300 := by
  decide

/-- C21 (amended): whenever all tests of `nvmap_pp_wake_up_allocator` pass (pooling
enabled; zero-fill active or `count <= 256`; free space `length - count >= 1024`; the
estimate of free memory above the reserved floor `MIN_AVAILABLE_MB << (20 - PAGE_SHIFT)`),
the policy stores as pending target exactly
`min(free memory - reserved floor, length - count)` and signals the worker. -/
theorem wakeup_target_is_min (s : State) (hen : s.enable_pp = true)
    (hocc : s.zero_memory = true ∨ s.pool.count ≤ NVMAP_PP_ZERO_MEM_FILL_MIN)
    (hc : s.pool.count ≤ s.pool.length) (hL : s.pool.length < 4294967296)
    (hroom : NVMAP_PP_DEF_FILL_THRESH ≤ s.pool.length - s.pool.count)
    (hmem : reserved_floor s.PAGE_SHIFT
      < policy_free_pages s.PAGE_SHIFT (s.meminfo s.meminfo_calls)) :
    (nvmap_pp_wake_up_allocator s).bg_pages_to_fill
      = min (policy_free_pages s.PAGE_SHIFT (s.meminfo s.meminfo_calls)
              - reserved_floor s.PAGE_SHIFT)
          (s.pool.length - s.pool.count) ∧
    (nvmap_pp_wake_up_allocator s).wakeups = s.wakeups + 1 := by
  have hfp : policy_free_pages s.PAGE_SHIFT (s.meminfo s.meminfo_calls) < 4294967296 := by
    unfold policy_free_pages u32; omega
  have h1 := u32_sub_of_le _ _ (Nat.le_of_lt hmem) hfp
  have h2 := u32_sub_of_le _ _ hc hL
  have hsig : policy_signals s = true := by
    unfold policy_signals
    rw [h1, h2, hen]
    simp only [Bool.true_and, Bool.and_eq_true, Bool.not_eq_true', decide_eq_false_iff_not]
    refine ⟨⟨?_, by omega⟩, by omega⟩
    rcases hocc with hz | hz
    · simp [hz]
    · simp; intro _; exact hz
  rw [wake_signal s hsig]
  simp only [policy_target, h1, h2]
  trivial

/-- Witness of C21 (amended): occupancy below the threshold, free memory 37768 pages,
reserved floor 32768 and ring free space 3000 give the target `min(5000, 3000) = 3000`. -/
theorem wakeup_target_is_min_witness :
    roomy_state.enable_pp = true ∧
    roomy_state.pool.count ≤ NVMAP_PP_ZERO_MEM_FILL_MIN ∧
    roomy_state.pool.length - roomy_state.pool.count = 3000 ∧
    reserved_floor roomy_state.PAGE_SHIFT = 32768 ∧
    policy_free_pages roomy_state.PAGE_SHIFT
      (roomy_state.meminfo roomy_state.meminfo_calls) = 37768 ∧
    (nvmap_pp_wake_up_allocator roomy_state).bg_pages_to_fill = 3000 ∧
    (nvmap_pp_wake_up_allocator roomy_state).wakeups = roomy_state.wakeups + 1 := by
  have h := wakeup_target_is_min roomy_state rfl (Or.inr (by decide)) (by decide) (by decide)
    (by decide) (by decide)
  exact ⟨rfl, by decide, by decide, by decide, by decide, h.1.trans (by decide), h.2⟩

/-- C22 as stated fails: with count 0 and ring free space exactly 1024 (not strictly above
the fill threshold) the policy signals, and with `zero_memory` off and count exactly 256
(not strictly below the low-occupancy threshold) it signals as well. -/
theorem wakeup_signals_at_thresholds :
    ((plenty_state (empty_pool 1024)).pool.length - (plenty_state (empty_pool 1024)).pool.count
        = NVMAP_PP_DEF_FILL_THRESH ∧
      (nvmap_pp_wake_up_allocator (plenty_state (empty_pool 1024))).wakeups
        = (plenty_state (empty_pool 1024)).wakeups + 1 ∧
      (nvmap_pp_wake_up_allocator (plenty_state (empty_pool 1024))).bg_pages_to_fill = 1024) ∧
    ((plenty_state pool_at_threshold).zero_memory = false ∧
      (plenty_state pool_at_threshold).pool.count = NVMAP_PP_ZERO_MEM_FILL_MIN ∧
      (nvmap_pp_wake_up_allocator (plenty_state pool_at_threshold)).wakeups
        = (plenty_state pool_at_threshold).wakeups + 1 ∧
      (nvmap_pp_wake_up_allocator (plenty_state pool_at_threshold)).bg_pages_to_fill = 1792) := by
  decide

/-- C22 (amended): the policy signals the worker only if pooling is enabled, and zero-fill
mode is active or `count` is at most `NVMAP_PP_ZERO_MEM_FILL_MIN`, and the ring free space
`length - count` is at least `NVMAP_PP_DEF_FILL_THRESH`; in every other state the pending
target is left unchanged and no signal is sent. -/
theorem wakeup_signals_only_if (s : State) (hc : s.pool.count ≤ s.pool.length)
    (hL : s.pool.length < 4294967296) :
    ((nvmap_pp_wake_up_allocator s).wakeups ≠ s.wakeups →
      s.enable_pp = true ∧
      (s.zero_memory = true ∨ s.pool.count ≤ NVMAP_PP_ZERO_MEM_FILL_MIN) ∧
      NVMAP_PP_DEF_FILL_THRESH ≤ s.pool.length - s.pool.count) ∧
    (¬ (s.enable_pp = true ∧
        (s.zero_memory = true ∨ s.pool.count ≤ NVMAP_PP_ZERO_MEM_FILL_MIN) ∧
        NVMAP_PP_DEF_FILL_THRESH ≤ s.pool.length - s.pool.count) →
      (nvmap_pp_wake_up_allocator s).bg_pages_to_fill = s.bg_pages_to_fill ∧
      (nvmap_pp_wake_up_allocator s).wakeups = s.wakeups) := by
  have h2 := u32_sub_of_le _ _ hc hL
  have hcond : policy_signals s = true →
      s.enable_pp = true ∧
      (s.zero_memory = true ∨ s.pool.count ≤ NVMAP_PP_ZERO_MEM_FILL_MIN) ∧
      NVMAP_PP_DEF_FILL_THRESH ≤ s.pool.length - s.pool.count := by
    intro h
    unfold policy_signals at h
    rw [h2] at h
    simp only [Bool.and_eq_true, Bool.not_eq_true', decide_eq_false_iff_not] at h
    obtain ⟨⟨⟨h1, h3⟩, h4⟩, _⟩ := h
    refine ⟨h1, ?_, by omega⟩
    cases hz : s.zero_memory
    · right
      simpa [hz] using h3
    · left; rfl
  constructor
  · intro hw
    apply hcond
    by_contra hn
    simp only [Bool.not_eq_true] at hn
    exact hw (wake_silent s hn).2
  · intro hn
    apply wake_silent
    by_contra hs
    simp only [Bool.not_eq_false] at hs
    exact hn (hcond hs)

/-- Witness of C22 (amended): a pool holding 50 of 64 slots has too little free space, so
the policy leaves the pending target and sends no signal. -/
theorem wakeup_signals_only_if_witness :
    (plenty_state pool_of_fifty).pool.count ≤ (plenty_state pool_of_fifty).pool.length ∧
    (plenty_state pool_of_fifty).pool.length < 4294967296 ∧
    (nvmap_pp_wake_up_allocator (plenty_state pool_of_fifty)).bg_pages_to_fill
      = (plenty_state pool_of_fifty).bg_pages_to_fill ∧
    (nvmap_pp_wake_up_allocator (plenty_state pool_of_fifty)).wakeups
      = (plenty_state pool_of_fifty).wakeups :=
  ⟨by decide, by decide,
    (wakeup_signals_only_if (plenty_state pool_of_fifty) (by decide) (by decide)).2
      (by decide)⟩

/-- C23: a signalling policy evaluation overwrites the pending target: whatever the prior
value `p`, the pending target afterwards is the newly computed `policy_target`, the same
for every `p`; and a second evaluation that finds the same pool and the same `si_meminfo`
answer leaves the same pending target as the first. -/
theorem wakeup_last_request_wins (s : State) (p : Nat)
    (hsig : (nvmap_pp_wake_up_allocator { s with bg_pages_to_fill := p }).wakeups
      = s.wakeups + 1) :
    (nvmap_pp_wake_up_allocator { s with bg_pages_to_fill := p }).bg_pages_to_fill
      = policy_target s ∧
    (∀ p2 : Nat,
      (nvmap_pp_wake_up_allocator { s with bg_pages_to_fill := p2 }).bg_pages_to_fill
        = (nvmap_pp_wake_up_allocator { s with bg_pages_to_fill := p }).bg_pages_to_fill) ∧
    (s.meminfo (s.meminfo_calls + 1) = s.meminfo s.meminfo_calls →
      (nvmap_pp_wake_up_allocator
        (nvmap_pp_wake_up_allocator { s with bg_pages_to_fill := p })).bg_pages_to_fill
        = (nvmap_pp_wake_up_allocator { s with bg_pages_to_fill := p }).bg_pages_to_fill) := by
  have hs : policy_signals { s with bg_pages_to_fill := p } = true :=
    (wake_signals_iff { s with bg_pages_to_fill := p }).1 hsig
  have hall : ∀ p2 : Nat,
      (nvmap_pp_wake_up_allocator { s with bg_pages_to_fill := p2 }).bg_pages_to_fill
        = policy_target s := by
    intro p2
    have hs2 : policy_signals { s with bg_pages_to_fill := p2 } = true := hs
    rw [wake_bg, if_pos hs2]
    rfl
  refine ⟨hall p, fun p2 => by rw [hall p2, hall p], ?_⟩
  intro hmem
  exact wake_twice_bg { s with bg_pages_to_fill := p } hmem

/-- Witness of C23: a prior target of 77 is overwritten by 3000. -/
theorem wakeup_last_request_wins_witness :
    (nvmap_pp_wake_up_allocator { roomy_state with bg_pages_to_fill := 77 }).wakeups
      = roomy_state.wakeups + 1 ∧
    (nvmap_pp_wake_up_allocator { roomy_state with bg_pages_to_fill := 77 }).bg_pages_to_fill
      = policy_target roomy_state ∧
    policy_target roomy_state = 3000 :=
  ⟨by decide, (wakeup_last_request_wins roomy_state 77 (by decide)).1, by decide⟩


/-- C24: from a state satisfying the ring invariants with a non-empty pool,
`nvmap_page_pool_alloc` returns a page after running the deferred cache clean exactly
once: if the dirty flag was set, exactly one pool-wide clean is performed and the flag is
clear on return; if it was clear, no clean is performed and the flag stays clear. -/
theorem alloc_one_cleans_once (s : State) (h : ring_inv s.pool) (hne : 0 < s.pool.count) :
    ∃ x s1, nvmap_page_pool_alloc s = .ok (some x, s1) ∧
      s1.pp_dirty = false ∧
      (s.pp_dirty = true → s1.cache_cleans = s.cache_cleans + 1) ∧
      (s.pp_dirty = false → s1.cache_cleans = s.cache_cleans) := by
  have habs := inv_abs h
  have hc := habs.count_eq
  obtain ⟨s1, e, _⟩ := alloc_abs habs
  cases hq : pool_pages s.pool with
  | nil => rw [hq] at hc; simp at hc; omega
  | cons x q =>
    rw [hq] at e
    obtain ⟨hcl, hd⟩ := alloc_locked_clean s s1 x e
    refine ⟨x, s1, e, hd, ?_, ?_⟩
    · intro hdirty; rw [hcl]; simp [hdirty]
    · intro hdirty; rw [hcl]; simp [hdirty]

/-- Witness of C24: an alloc from a wrapped pool with the dirty flag set. -/
theorem alloc_one_cleans_once_witness :
    ring_inv dirty_state.pool ∧ 0 < dirty_state.pool.count ∧ dirty_state.pp_dirty = true ∧
    ∃ x s1, nvmap_page_pool_alloc dirty_state = .ok (some x, s1) ∧
      s1.pp_dirty = false ∧
      (dirty_state.pp_dirty = true → s1.cache_cleans = dirty_state.cache_cleans + 1) ∧
      (dirty_state.pp_dirty = false → s1.cache_cleans = dirty_state.cache_cleans) :=
  ⟨by decide, by decide, rfl, alloc_one_cleans_once dirty_state (by decide) (by decide)⟩

/-- C25, the code at the failing input: `__nvmap_page_pool_fill_lots_locked` on an
empty pool with the dirty flag clear stores one page and returns 1, yet the flag is still
clear, and the alloc that follows hands the page out without any cache clean.
`nvmap_page_pool_fill` of the same page into the same pool sets the flag, and the alloc
that follows cleans the cache once.  In no state does the bulk fill change the flag. -/
theorem fill_bulk_leaves_flag_clear :
    ((boot_state (empty_pool 4)).pp_dirty = false ∧
      ∃ s1 s2, __nvmap_page_pool_fill_lots_locked (boot_state (empty_pool 4)) [7] 1
          = .ok (1, s1) ∧
        s1.pp_dirty = false ∧
        nvmap_page_pool_alloc s1 = .ok (some 7, s2) ∧
        s2.cache_cleans = 0) ∧
    (∃ s3 s4, nvmap_page_pool_fill (boot_state (empty_pool 4)) 7 = .ok (true, s3) ∧
      s3.pp_dirty = true ∧
      nvmap_page_pool_alloc s3 = .ok (some 7, s4) ∧
      s4.cache_cleans = 1) ∧
    (∀ (s : State) (pages : List Page) (nr k : Nat) (s1 : State),
      __nvmap_page_pool_fill_lots_locked s pages nr = .ok (k, s1) →
      s1.pp_dirty = s.pp_dirty) :=
  ⟨⟨rfl, _, _, rfl, rfl, rfl, rfl⟩, ⟨_, _, rfl, rfl, rfl, rfl⟩,
    fun s pages nr k s1 e => by rw [fill_lots_frame s s1 pages nr k e]⟩

/-- From a state satisfying the ring invariants, after every `nvmap_page_pool_fill` that
returns true the dirty flag is set, so that the next `nvmap_page_pool_alloc` and the next
`__nvmap_page_pool_alloc_lots_locked` perform one cache clean before handing out a page.
`__nvmap_page_pool_fill_lots_locked` leaves the flag as it found it. -/
theorem fill_one_sets_dirty (s : State) (p : Page) (h : ring_inv s.pool) :
    (∀ s1, nvmap_page_pool_fill s p = .ok (true, s1) →
      s1.pp_dirty = true ∧
      (∃ x s2, nvmap_page_pool_alloc s1 = .ok (some x, s2) ∧
        s2.cache_cleans = s1.cache_cleans + 1 ∧ s2.pp_dirty = false) ∧
      (∀ nr, ∃ ind out s2, __nvmap_page_pool_alloc_lots_locked s1 nr = .ok (ind, out, s2) ∧
        s2.cache_cleans = s1.cache_cleans + 1 ∧ s2.pp_dirty = false)) ∧
    (∀ (pages : List Page) (nr k : Nat) (s1 : State),
      __nvmap_page_pool_fill_lots_locked s pages nr = .ok (k, s1) →
      s1.pp_dirty = s.pp_dirty) ∧
    (∀ (pages : List Page) (nr k : Nat) (s1 : State),
      __nvmap_page_pool_fill_lots_locked { s with pp_dirty := true } pages nr = .ok (k, s1) →
      s1.pp_dirty = true) := by
  have habs := inv_abs h
  refine ⟨?_, ?_, ?_⟩
  · intro s1 e
    obtain ⟨s1', e1, a1, hl, _⟩ := fill_abs habs p
    rw [e] at e1
    simp only [Except.ok.injEq, Prod.mk.injEq] at e1
    obtain ⟨hlt, hs1⟩ := e1
    subst hs1
    have hlt2 : (pool_pages s.pool).length < s.pool.length := by
      simpa using hlt.symm
    simp only [hlt2, if_true] at a1
    obtain ⟨arr, hr, hc⟩ := habs
    obtain ⟨e2, _, _⟩ := fill_locked_room hr hc hlt2 p
    have hd : s1.pp_dirty = true := by
      have e3 : nvmap_page_pool_fill s p = _ := e2
      rw [e] at e3
      simp only [Except.ok.injEq, Prod.mk.injEq, true_and] at e3
      rw [e3]
    refine ⟨hd, ?_, ?_⟩
    · obtain ⟨s2, e4, _⟩ := alloc_abs a1
      cases hq : pool_pages s.pool ++ [p] with
      | nil => simp at hq
      | cons x q =>
        rw [hq] at e4
        obtain ⟨hcl, hd2⟩ := alloc_locked_clean s1 s2 x e4
        exact ⟨x, s2, e4, by rw [hcl]; simp [hd], hd2⟩
    · intro nr
      obtain ⟨pool2, e4, _⟩ := alloc_lots_abs a1 nr
      refine ⟨_, _, _, e4, ?_, ?_⟩
      · rw [wake_cleans]
        have := clean_cleans s1
        simp only [hd, if_true] at this
        exact this
      · rw [wake_dirty]
        exact clean_dirty s1
  · intro pages nr k s1 e
    rw [fill_lots_frame s s1 pages nr k e]
  · intro pages nr k s1 e
    rw [fill_lots_frame _ s1 pages nr k e]

/-- What `nvmap_page_pool_free` does to the dirty flag and the cache. -/
theorem drain_clean_lemma (s : State) (nr_free : Nat) (h : ring_inv s.pool) :
    ∃ r s1, nvmap_page_pool_free s nr_free = .ok (r, s1) ∧
      (0 < min nr_free s.pool.count →
        s1.pp_dirty = false ∧
        s1.cache_cleans = s.cache_cleans + (if s.pp_dirty = true then 1 else 0)) ∧
      (min nr_free s.pool.count = 0 →
        s1.pp_dirty = s.pp_dirty ∧ s1.cache_cleans = s.cache_cleans) := by
  have habs := inv_abs h
  have hc := habs.count_eq
  by_cases hn : nr_free = 0
  · subst hn
    exact ⟨0, s, by simp [nvmap_page_pool_free], fun h0 => by simp at h0,
      fun _ => ⟨rfl, rfl⟩⟩
  · obtain ⟨r, s1, e, hd, hcl⟩ := free_loop_clean nr_free s _ habs
    refine ⟨r, s1, by simpa [nvmap_page_pool_free, hn] using e, ?_, ?_⟩
    · intro hpos
      have hq : pool_pages s.pool ≠ [] := by
        intro h0; rw [h0] at hc; simp at hc; omega
      rw [hd, hcl]
      simp [hn, hq]
    · intro hz
      have hq : pool_pages s.pool = [] := by
        apply List.length_eq_zero.1
        omega
      rw [hd, hcl]
      simp [hq]

/-- C26 as stated fails: `nvmap_page_pool_free(pool, 1)` on a non-empty pool with the dirty
flag set performs one cache clean and clears the flag. -/
theorem drain_cleans_cache :
    dirty_state.pp_dirty = true ∧ dirty_state.cache_cleans = 0 ∧
    ∃ r s1, nvmap_page_pool_free dirty_state 1 = .ok (r, s1) ∧
      s1.cache_cleans = 1 ∧ s1.pp_dirty = false :=
  ⟨rfl, rfl, _, _, rfl, rfl, rfl⟩

/-- C26 (amended): `nvmap_page_pool_free` removes pages through the same locked removal
as `nvmap_page_pool_alloc`, deferred cache clean included: from a state satisfying the
ring invariants, a drain that removes at least one page (`nr_free >= 1` on a non-empty
pool) leaves the dirty flag clear and has performed exactly one cache clean if the flag
was set and none if it was clear; a drain that removes nothing performs no clean and
leaves the flag as it was. -/
theorem drain_applies_deferred_clean (s : State) (nr_free : Nat) (h : ring_inv s.pool) :
    ∃ r s1, nvmap_page_pool_free s nr_free = .ok (r, s1) ∧
      (0 < min nr_free s.pool.count →
        s1.pp_dirty = false ∧
        s1.cache_cleans = s.cache_cleans + (if s.pp_dirty = true then 1 else 0)) ∧
      (min nr_free s.pool.count = 0 →
        s1.pp_dirty = s.pp_dirty ∧ s1.cache_cleans = s.cache_cleans) :=
  drain_clean_lemma s nr_free h

/-- Witness of C26 (amended): draining two pages from a dirty pool of three. -/
theorem drain_applies_deferred_clean_witness :
    ring_inv dirty_state.pool ∧
    ∃ r s1, nvmap_page_pool_free dirty_state 2 = .ok (r, s1) ∧
      (0 < min 2 dirty_state.pool.count →
        s1.pp_dirty = false ∧
        s1.cache_cleans
          = dirty_state.cache_cleans + (if dirty_state.pp_dirty = true then 1 else 0)) ∧
      (min 2 dirty_state.pool.count = 0 →
        s1.pp_dirty = dirty_state.pp_dirty ∧ s1.cache_cleans = dirty_state.cache_cleans) :=
  ⟨by decide, drain_applies_deferred_clean dirty_state 2 (by decide)⟩


/-- C27: in every state reached from an initialised pool (`length >= 1`, valid storage) by
any sequence of fill_one, fill_bulk, alloc_one, alloc_bulk, drain, shrink, clear_all,
resize to a non-zero length (below `2^30`, so that the `vzalloc` request for the new
array does not wrap in the 32-bit `size_t`) and background refill passes, the ring bounds
hold: `0 <= count <= length`, `alloc < length` and `fill < length`; the storage is still
valid with `length >= 1` slots, and the full ring invariant holds. -/
theorem reachable_ring_bounds (fresh : Bool) (s : State) (h : Reachable false fresh s) :
    ring_bounds s.pool ∧ 1 ≤ s.pool.length ∧ array_size s.pool = s.pool.length ∧
    ring_inv s.pool := by
  obtain ⟨q, habs, _⟩ := reachable_with_storage h (Or.inl rfl)
  have hinv := abs_inv habs
  obtain ⟨h1, h2, h3⟩ := ring_inv_bounds hinv
  exact ⟨h1, h2, h3, hinv⟩

/-- Witness of C27: the state after one fill into an empty pool of length 4. -/
theorem reachable_ring_bounds_witness :
    Reachable false true one_page_state ∧
    ring_bounds one_page_state.pool ∧ 1 ≤ one_page_state.pool.length ∧
    array_size one_page_state.pool = one_page_state.pool.length ∧
    ring_inv one_page_state.pool :=
  have hr : Reachable false true one_page_state :=
    Reachable.fill (boot_state (empty_pool 4)) one_page_state 7 true
      (Reachable.init _ 4 (by decide) (by decide) rfl) (fun _ => by decide) rfl
  ⟨hr, reachable_ring_bounds true one_page_state hr⟩

/-- In every state reached from an initialised empty pool without the resize to length 0,
the occupied slots are exactly the `count` slots from `alloc` on, every other slot holds
no page, `fill = (alloc + count) mod length`, and, when callers never fill a page that
is already pooled, no page occurs in two slots. -/
theorem reachable_occupancy_lemma (fresh : Bool) (s : State) (h : Reachable false fresh s) :
    ring_inv s.pool ∧
    (∀ i, i < s.pool.count →
      ∃ p, slot s.pool ((s.pool.alloc + i) % s.pool.length) = .ok (some p)) ∧
    (∀ j, j < s.pool.length →
      (∀ i, i < s.pool.count → j ≠ (s.pool.alloc + i) % s.pool.length) →
      slot s.pool j = .ok none) ∧
    s.pool.fill = (s.pool.alloc + s.pool.count) % s.pool.length ∧
    (fresh = true →
      (pool_pages s.pool).Nodup ∧
      ∀ i j p, i < s.pool.length → j < s.pool.length →
        slot s.pool i = .ok (some p) → slot s.pool j = .ok (some p) → i = j) := by
  obtain ⟨q, habs, hnd⟩ := reachable_with_storage h (Or.inl rfl)
  have hc := habs.count_eq
  have hle := habs.len_le
  have hq := abs_pages habs
  refine ⟨abs_inv habs, ?_, ?_, ?_, ?_⟩
  · intro i hi
    obtain ⟨arr, hr, _⟩ := habs
    have hiq : i < q.length := by omega
    exact ⟨q[i], by rw [hr.slot_at i (by omega), List.getElem?_eq_getElem hiq]⟩
  · intro j hj hout
    exact abs_other_slots habs j hj hout
  · obtain ⟨arr, hr, _⟩ := habs
    rw [hc]; exact hr.hfill
  · intro hf
    refine ⟨by rw [hq]; exact hnd hf, ?_⟩
    intro i j p hi hj h1 h2
    exact abs_slots_distinct habs (hnd hf) i j p hi hj h1 h2

/-- C28, the code at the failing input: `nvmap_page_pool_fill(pool, 7)` on an initialised
empty pool of length 4 followed by `nvmap_page_pool_resize(pool, 0)` reaches a state with
`count = 1` and no storage (`page_array = NULL`, `length = 0`), page 7 not released: the
counter says one slot is occupied where no slot exists, and reading the slot at `alloc`
dereferences NULL.  In every state reached through the other operations (fills, allocs,
drain, shrink, clear, resize to a non-zero length below `2^30`, background refill) the
invariant holds: the occupied slots are exactly the `count` slots at indices
`alloc, alloc+1, ..., alloc+count-1` modulo `length`, every other slot holds no page,
`fill = (alloc + count) mod length`, and, when callers never fill a page that is already
pooled, no page occurs in two slots. -/
theorem slot_occupancy_lost_by_resize_zero :
    (∃ s1 s2, nvmap_page_pool_fill (boot_state (empty_pool 4)) 7 = .ok (true, s1) ∧
      nvmap_page_pool_resize s1 0 = .ok s2 ∧
      Reachable true true s2 ∧
      s2.pool.count = 1 ∧ s2.pool.page_array = none ∧ s2.pool.length = 0 ∧
      occupied s2.pool = 0 ∧ s2.freed = [] ∧ ¬ ring_inv s2.pool ∧
      slot s2.pool s2.pool.alloc = .error .null_deref) ∧
    (∀ (fresh : Bool) (s : State), Reachable false fresh s →
      ring_inv s.pool ∧
      (∀ i, i < s.pool.count →
        ∃ p, slot s.pool ((s.pool.alloc + i) % s.pool.length) = .ok (some p)) ∧
      (∀ j, j < s.pool.length →
        (∀ i, i < s.pool.count → j ≠ (s.pool.alloc + i) % s.pool.length) →
        slot s.pool j = .ok none) ∧
      s.pool.fill = (s.pool.alloc + s.pool.count) % s.pool.length ∧
      (fresh = true →
        (pool_pages s.pool).Nodup ∧
        ∀ i j p, i < s.pool.length → j < s.pool.length →
          slot s.pool i = .ok (some p) → slot s.pool j = .ok (some p) → i = j)) :=
  have hr : Reachable true true one_page_state :=
    Reachable.fill (boot_state (empty_pool 4)) one_page_state 7 true
      (Reachable.init _ 4 (by decide) (by decide) rfl) (fun _ => by decide) rfl
  ⟨⟨one_page_state, _, rfl, rfl, Reachable.resize_zero one_page_state _ rfl hr rfl,
      rfl, rfl, rfl, rfl, rfl, by decide, rfl⟩,
    fun fresh s h => reachable_occupancy_lemma fresh s h⟩

/-- C29: in every reachable state with `length >= 1` (the resize to length 0 may be among
the operations that led to it; the resizes to a non-zero length are to lengths below
`2^30`, whose `vzalloc` request does not wrap in the 32-bit `size_t`), `pp_empty` and
`pp_full` return without fault and agree
with the counter: `pp_empty` is true if and only if `count = 0`, `pp_full` is true if and
only if `count = length`, and they are never both true. -/
theorem reachable_empty_full_agree (teardown fresh : Bool) (s : State)
    (h : Reachable teardown fresh s) (hl : 1 ≤ s.pool.length) :
    pp_empty s.pool = .ok (decide (s.pool.count = 0)) ∧
    pp_full s.pool = .ok (decide (s.pool.count = s.pool.length)) ∧
    (pp_empty s.pool = .ok true ↔ s.pool.count = 0) ∧
    (pp_full s.pool = .ok true ↔ s.pool.count = s.pool.length) ∧
    ¬ (pp_empty s.pool = .ok true ∧ pp_full s.pool = .ok true) := by
  obtain ⟨q, habs, _⟩ := reachable_with_storage h (Or.inr hl)
  obtain ⟨arr, hr, hc⟩ := habs
  have he : pp_empty s.pool = .ok (decide (s.pool.count = 0)) := by
    rw [hr.pp_empty_eq, hc]
  have hf : pp_full s.pool = .ok (decide (s.pool.count = s.pool.length)) := by
    rw [hr.pp_full_eq, hc]
  refine ⟨he, hf, by rw [he]; simp, by rw [hf]; simp, ?_⟩
  rw [he, hf]
  simp only [Except.ok.injEq, decide_eq_true_eq]
  omega

/-- Witness of C29: the state after one fill into an empty pool of length 4 is neither
empty nor full. -/
theorem reachable_empty_full_agree_witness :
    Reachable true true one_page_state ∧ 1 ≤ one_page_state.pool.length ∧
    pp_empty one_page_state.pool = .ok false ∧ pp_full one_page_state.pool = .ok false ∧
    (pp_empty one_page_state.pool = .ok true ↔ one_page_state.pool.count = 0) ∧
    (pp_full one_page_state.pool = .ok true
      ↔ one_page_state.pool.count = one_page_state.pool.length) :=
  have hr : Reachable true true one_page_state :=
    Reachable.fill (boot_state (empty_pool 4)) one_page_state 7 true
      (Reachable.init _ 4 (by decide) (by decide) rfl) (fun _ => by decide) rfl
  have h := reachable_empty_full_agree true true one_page_state hr (by decide)
  ⟨hr, by decide, rfl, rfl, h.2.2.1, h.2.2.2.1⟩


/-- C30: `nvmap_pp_do_background_fill` reads and clears the pending target: whenever the
pass returns, the pending target is 0, and from every state satisfying the ring invariants
(with `PAGE_SHIFT <= 20`) it does return.  If the target read was 0 or pooling is
disabled, the pass returns at once with only the pending target cleared: no page
allocated, no cache clean, pool ring and dirty flag unchanged. -/
theorem background_fill_clears_target (s : State) :
    (∀ s1, nvmap_pp_do_background_fill s = .ok s1 → s1.bg_pages_to_fill = 0) ∧
    (ring_inv s.pool → s.PAGE_SHIFT ≤ 20 →
      ∃ s1, nvmap_pp_do_background_fill s = .ok s1 ∧ s1.bg_pages_to_fill = 0) ∧
    (u32 s.bg_pages_to_fill = 0 ∨ s.enable_pp = false →
      nvmap_pp_do_background_fill s = .ok { s with bg_pages_to_fill := 0 } ∧
      ∀ s1, nvmap_pp_do_background_fill s = .ok s1 →
        s1.pool = s.pool ∧ s1.pp_dirty = s.pp_dirty ∧ s1.cache_cleans = s.cache_cleans ∧
        s1.page_alloc_calls = s.page_alloc_calls ∧ s1.freed = s.freed) := by
  have hzero : ∀ s1, nvmap_pp_do_background_fill s = .ok s1 → s1.bg_pages_to_fill = 0 := by
    intro s1 e
    unfold nvmap_pp_do_background_fill at e
    simp only at e
    split at e
    · simp only [Except.ok.injEq] at e
      rw [← e]
    · rw [bg_fill_loop_bg _ _ _ _ e]
  refine ⟨hzero, ?_, ?_⟩
  · intro hinv hps
    obtain ⟨s1, e⟩ := background_fill_total (inv_abs hinv) hps
    exact ⟨s1, e, hzero s1 e⟩
  · intro hearly
    have e : nvmap_pp_do_background_fill s = .ok { s with bg_pages_to_fill := 0 } := by
      unfold nvmap_pp_do_background_fill
      simp only [hearly, if_true]
    refine ⟨e, ?_⟩
    intro s1 e1
    rw [e] at e1
    simp only [Except.ok.injEq] at e1
    rw [← e1]
    exact ⟨rfl, rfl, rfl, rfl, rfl⟩


/-! ## Pages obtained from the allocator -/

theorem pages_obtained_add (f : Nat → Option Page) (a m n : Nat) :
    pages_obtained f a (m + n) = pages_obtained f a m ++ pages_obtained f (a + m) n := by
  unfold pages_obtained
  rw [List.range_add, List.map_append, List.reduceOption_append, List.map_map]
  congr 2
  apply List.map_congr_left
  intro k _
  simp only [Function.comp_apply, Nat.add_assoc]

theorem pages_obtained_of_answers (f : Nat → Option Page) (a n : Nat) (new : List Page)
    (hlen : new.length = n) (h : ∀ i, i < n → f (a + i) = new[i]?) :
    pages_obtained f a n = new := by
  unfold pages_obtained
  have e : (List.range n).map (fun k => f (a + k)) = new.map some := by
    apply List.ext_getElem?
    intro i
    by_cases hi : i < n
    · rw [List.getElem?_map, List.getElem?_range hi, Option.map_some', h i hi,
        List.getElem?_map]
      rw [List.getElem?_eq_getElem (by omega)]
      rfl
    · rw [List.getElem?_eq_none (by simp; omega), List.getElem?_eq_none (by simp; omega)]
  rw [e, reduceOption_map_some_eq]

theorem pages_obtained_one_none (f : Nat → Option Page) (a : Nat) (h : f a = none) :
    pages_obtained f a 1 = [] := by
  unfold pages_obtained
  rw [show List.range 1 = [0] from rfl]
  simp [h]

theorem pages_obtained_one_some (f : Nat → Option Page) (a : Nat) (p : Page)
    (h : f a = some p) : pages_obtained f a 1 = [p] := by
  unfold pages_obtained
  rw [show List.range 1 = [0] from rfl]
  simp [h]

theorem mem_pages_obtained (f : Nat → Option Page) (a n : Nat) (p : Page) :
    p ∈ pages_obtained f a n ↔ ∃ k, k < n ∧ f (a + k) = some p := by
  unfold pages_obtained
  rw [List.reduceOption_mem_iff, List.mem_map]
  constructor
  · rintro ⟨k, hk, e⟩
    exact ⟨k, List.mem_range.1 hk, e⟩
  · rintro ⟨k, hk, e⟩
    exact ⟨k, List.mem_range.2 hk, e⟩

/-- An allocator that never hands out a page twice hands out distinct pages. -/
theorem pages_obtained_nodup (f : Nat → Option Page) (a : Nat)
    (hinj : ∀ i j p, a ≤ i → a ≤ j → f i = some p → f j = some p → i = j) :
    ∀ n, (pages_obtained f a n).Nodup := by
  intro n
  induction n with
  | zero => simp [pages_obtained]
  | succ n ih =>
    rw [pages_obtained_add]
    cases hp : f (a + n) with
    | none => rw [pages_obtained_one_none f _ hp, List.append_nil]; exact ih
    | some p =>
      have e1 : pages_obtained f (a + n) 1 = [p] := pages_obtained_one_some f _ p hp
      rw [e1]
      apply List.Nodup.append ih (List.nodup_singleton p)
      intro x hx hx1
      rw [List.mem_singleton] at hx1
      subst hx1
      obtain ⟨k, hk, e⟩ := (mem_pages_obtained f a n x).1 hx
      have := hinj _ _ _ (by omega) (by omega) e hp
      omega

theorem pages_obtained_length_le (f : Nat → Option Page) (a n : Nat) :
    (pages_obtained f a n).length ≤ n := by
  unfold pages_obtained
  have := List.reduceOption_length_le ((List.range n).map (fun k => f (a + k)))
  simpa using this

/-- When every call succeeds, `n` calls hand out `n` pages. -/
theorem pages_obtained_length (f : Nat → Option Page) (a n : Nat)
    (h : ∀ k, a ≤ k → (f k).isSome = true) : (pages_obtained f a n).length = n := by
  induction n with
  | zero => simp [pages_obtained]
  | succ n ih =>
    rw [pages_obtained_add, List.length_append, ih]
    obtain ⟨p, hp⟩ := Option.isSome_iff_exists.1 (h (a + n) (by omega))
    rw [pages_obtained_one_some f _ p hp]
    rfl

/-! ## The batch allocation in full -/

/-- A failed batch: the first failing call has index `i`, the `i` pages obtained before
it are freed from the last to the first. -/
theorem alloc_n_loop_fail : ∀ (n : Nat) (s : State) (got : List Page),
    (alloc_n_loop n s got).1 ≠ 0 →
    ∃ new i, i < n ∧ new.length = i ∧
      (∀ k, k < i → s.page_alloc (s.page_alloc_calls + k) = new[k]?) ∧
      s.page_alloc (s.page_alloc_calls + i) = none ∧
      (alloc_n_loop n s got).1 = -ENOMEM ∧
      (alloc_n_loop n s got).2.1 = got ++ new ∧
      (alloc_n_loop n s got).2.2.freed = s.freed ++ (got ++ new).reverse ∧
      (alloc_n_loop n s got).2.2.page_alloc_calls = s.page_alloc_calls + i + 1 := by
  intro n
  induction n with
  | zero =>
    intro s got h
    simp [alloc_n_loop] at h
  | succ n ih =>
    intro s got
    unfold alloc_n_loop alloc_page
    cases hp : s.page_alloc s.page_alloc_calls with
    | none =>
      simp only
      intro _
      refine ⟨[], 0, by omega, rfl, fun k hk => by omega, by simpa using hp, ?_⟩
      simp [free_each]
    | some p =>
      simp only
      intro h
      obtain ⟨new, i, hi, hlen, hk, hnone, e1, e2, e3, e4⟩ :=
        ih { s with page_alloc_calls := s.page_alloc_calls + 1 } (got ++ [p]) h
      simp only at hk hnone e3 e4
      refine ⟨p :: new, i + 1, by omega, by simp [hlen], ?_, ?_, e1, ?_, ?_, ?_⟩
      · intro k hk1
        cases k with
        | zero => simpa using hp
        | succ k =>
          rw [List.getElem?_cons_succ, ← hk k (by omega)]
          congr 1
          omega
      · rw [← hnone]; congr 1; omega
      · rw [e2]; simp
      · rw [e3]; simp
      · rw [e4]; omega

/-- A ring that holds the pages `ps` in its first slots. -/
theorem abs_front (L : Nat) (ps : List Page) (h1 : 1 ≤ L) (h2 : L < 4294967296)
    (h3 : ps.length ≤ L) :
    Abs { alloc := 0, fill := ps.length % L, count := ps.length, length := L,
          page_array := some (ps.map some ++ List.replicate (L - ps.length) none) } ps := by
  refine ⟨_, ⟨rfl, ?_, h1, h2, h1, h3, ?_, ?_⟩, rfl⟩
  · simp only [List.length_append, List.length_map, List.length_replicate]
    omega
  · simp only [Nat.zero_add]
  · intro i hi
    simp only [Nat.zero_add] at hi ⊢
    rw [Nat.mod_eq_of_lt hi]
    by_cases hip : i < ps.length
    · rw [List.getElem?_append_left (by simpa using hip), List.getElem?_map,
        List.getElem?_eq_getElem hip]
      rfl
    · rw [List.getElem?_append_right (by simp only [List.length_map]; omega),
        List.getElem?_eq_none (l := ps) (by omega),
        List.getElem?_replicate_of_lt (by simp only [List.length_map]; omega)]

/-! ## One iteration of the refill loop -/

/-- One pass of the `do ... while` loop of `nvmap_pp_do_background_fill` from a state
whose pool holds the queue `q`: the pass returns at the memory test, or returns because
the call with index `i` of the batch failed, or it pools the front of the batch and then
either repeats or releases the rest of the batch and cleans the cache. -/
theorem bg_iter (fuel : Nat) (s : State) (pages : Nat) (q : List Page)
    (habs : Abs s.pool q) (h32 : pages < 4294967296) :
    ((s.meminfo s.meminfo_calls).freeram ≤ MIN_AVAILABLE_MB <<< (20 - s.PAGE_SHIFT) ∧
      bg_fill_loop (fuel + 1) s pages = .ok { s with meminfo_calls := s.meminfo_calls + 1 }) ∨
    (¬ (s.meminfo s.meminfo_calls).freeram ≤ MIN_AVAILABLE_MB <<< (20 - s.PAGE_SHIFT) ∧
      ∃ (new : List Page) (i : Nat), i < min (PENDING_PAGES_SIZE s.PAGE_SHIFT) pages ∧ new.length = i ∧
        (∀ k, k < i → s.page_alloc (s.page_alloc_calls + k) = new[k]?) ∧
        s.page_alloc (s.page_alloc_calls + i) = none ∧
        bg_fill_loop (fuel + 1) s pages
          = .ok { s with meminfo_calls := s.meminfo_calls + 1,
                         page_alloc_calls := s.page_alloc_calls + i + 1,
                         freed := s.freed ++ new.reverse }) ∨
    (¬ (s.meminfo s.meminfo_calls).freeram ≤ MIN_AVAILABLE_MB <<< (20 - s.PAGE_SHIFT) ∧
      ∃ (new : List Page) (pool2 : nvmap_page_pool), new.length = min (PENDING_PAGES_SIZE s.PAGE_SHIFT) pages ∧
        (∀ k, k < min (PENDING_PAGES_SIZE s.PAGE_SHIFT) pages →
          s.page_alloc (s.page_alloc_calls + k) = new[k]?) ∧
        Abs pool2 (q ++ new.take (min (min (PENDING_PAGES_SIZE s.PAGE_SHIFT) pages)
          (s.pool.length - q.length))) ∧
        pool2.length = s.pool.length ∧
        bg_fill_loop (fuel + 1) s pages
          = if pages - min (PENDING_PAGES_SIZE s.PAGE_SHIFT) pages ≠ 0 ∧
                min (min (PENDING_PAGES_SIZE s.PAGE_SHIFT) pages) (s.pool.length - q.length)
                  = min (PENDING_PAGES_SIZE s.PAGE_SHIFT) pages then
              bg_fill_loop fuel
                { s with meminfo_calls := s.meminfo_calls + 1,
                         page_alloc_calls :=
                           s.page_alloc_calls + min (PENDING_PAGES_SIZE s.PAGE_SHIFT) pages,
                         pp_dirty := true, pool := pool2 }
                (pages - min (PENDING_PAGES_SIZE s.PAGE_SHIFT) pages)
            else
              .ok { s with meminfo_calls := s.meminfo_calls + 1,
                           page_alloc_calls :=
                             s.page_alloc_calls + min (PENDING_PAGES_SIZE s.PAGE_SHIFT) pages,
                           pp_dirty := false, cache_cleans := s.cache_cleans + 1,
                           pool := pool2,
                           freed := s.freed ++ new.drop
                             (min (min (PENDING_PAGES_SIZE s.PAGE_SHIFT) pages)
                               (s.pool.length - q.length)) }) := by
  rw [bg_fill_loop]
  unfold __nvmap_pp_alloc_n_pages
  simp only
  by_cases hlow : (s.meminfo s.meminfo_calls).freeram ≤ MIN_AVAILABLE_MB <<< (20 - s.PAGE_SHIFT)
  · left
    exact ⟨hlow, by rw [if_pos hlow]⟩
  · right
    rw [if_neg hlow]
    have hnr2 : min (PENDING_PAGES_SIZE s.PAGE_SHIFT) pages ≤ pages := Nat.min_le_right _ _
    generalize min (PENDING_PAGES_SIZE s.PAGE_SHIFT) pages = nr at hnr2 ⊢
    have hspec := alloc_n_loop_spec nr { s with meminfo_calls := s.meminfo_calls + 1 } []
    have hfail := alloc_n_loop_fail nr { s with meminfo_calls := s.meminfo_calls + 1 } []
    rcases hr : alloc_n_loop nr { s with meminfo_calls := s.meminfo_calls + 1 } []
      with ⟨err, pending, s2⟩
    rw [hr] at hspec hfail
    simp only at hspec hfail ⊢
    obtain ⟨hframe, hsucc⟩ := hspec
    by_cases herr : err = 0
    · right
      obtain ⟨new, hpend, hlen, hfreed, hcalls, hans⟩ := hsucc herr
      simp only [List.nil_append] at hpend
      subst hpend
      have hs2 : s2 = { s with meminfo_calls := s.meminfo_calls + 1,
                               page_alloc_calls := s.page_alloc_calls + nr } := by
        rw [hframe, hcalls, hfreed]
      subst hs2
      have habs3 :
          Abs ({ s with meminfo_calls := s.meminfo_calls + 1,
                        page_alloc_calls := s.page_alloc_calls + nr,
                        pp_dirty := true } : State).pool q := habs
      obtain ⟨pool2, e2, a2, hl2, _⟩ := fill_lots_abs habs3 pending nr
        (by rw [hlen]; exact Nat.min_le_left _ _)
      rw [if_neg (by simpa using herr), e2]
      simp only
      rw [u32_sub_of_le pages nr hnr2 h32]
      refine ⟨hlow, pending, pool2, hlen, hans, a2, hl2, ?_⟩
      by_cases hc : pages - nr ≠ 0 ∧ min nr (s.pool.length - q.length) = nr
      · rw [if_pos hc, if_pos hc]
      · rw [if_neg hc, if_neg hc]
        simp [pp_clean_cache, free_each]
    · left
      obtain ⟨new, i, hi, hlen, hk, hnone, _, hpend, hfreed, hcalls⟩ := hfail herr
      simp only [List.nil_append] at hpend hfreed
      have hs2 : s2 = { s with meminfo_calls := s.meminfo_calls + 1,
                               page_alloc_calls := s.page_alloc_calls + i + 1,
                               freed := s.freed ++ new.reverse } := by
        rw [hframe, hcalls, hfreed]
      refine ⟨hlow, new, i, hi, hlen, hk, hnone, ?_⟩
      rw [if_pos (by simpa using herr), hs2]

/-! ## The refill loop: accounting of pages, calls and iterations -/

theorem ceil_div_pos (P pages : Nat) (hP : 1 ≤ P) (h : 1 ≤ pages) :
    1 ≤ (pages + P - 1) / P := by
  apply (Nat.le_div_iff_mul_le (by omega)).2
  omega

theorem ceil_div_step (P pages : Nat) (hP : 1 ≤ P) (h : P < pages) :
    1 + (pages - P + P - 1) / P ≤ (pages + P - 1) / P := by
  have e1 : pages - P + P - 1 = pages - 1 := by omega
  have e2 : pages + P - 1 = pages - 1 + P := by omega
  rw [e1, e2, Nat.add_div_right _ (by omega)]
  omega

/-- The refill loop from a state whose pool holds the queue `q`: it returns; the pages it
obtained are `added ++ rest`, of which `added` went to the tail of the pool and `rest` was
handed to `__free_page` (in this or in the reverse order); it made `d <= pages` calls of
`alloc_page` in `iters` passes. -/
theorem bg_fill_loop_account : ∀ (fuel : Nat) (s : State) (pages : Nat) (q : List Page),
    Abs s.pool q → 1 ≤ PENDING_PAGES_SIZE s.PAGE_SHIFT → 0 < pages → pages < fuel →
    pages < 4294967296 →
    ∃ (s1 : State) (added rest released : List Page) (d iters : Nat),
      bg_fill_loop fuel s pages = .ok s1 ∧
      Abs s1.pool (q ++ added) ∧ s1.pool.length = s.pool.length ∧
      s1.freed = s.freed ++ released ∧
      s1.page_alloc_calls = s.page_alloc_calls + d ∧ d ≤ pages ∧
      pages_obtained s.page_alloc s.page_alloc_calls d = added ++ rest ∧
      (released = rest ∨ released = rest.reverse) ∧
      released.length ≤ PENDING_PAGES_SIZE s.PAGE_SHIFT ∧
      s1.meminfo_calls = s.meminfo_calls + iters ∧ 1 ≤ iters ∧
      iters ≤ (pages + PENDING_PAGES_SIZE s.PAGE_SHIFT - 1) / PENDING_PAGES_SIZE s.PAGE_SHIFT ∧
      d ≤ PENDING_PAGES_SIZE s.PAGE_SHIFT * iters ∧
      s1.bg_pages_to_fill = s.bg_pages_to_fill ∧
      ((∀ k, s.meminfo_calls ≤ k →
          MIN_AVAILABLE_MB <<< (20 - s.PAGE_SHIFT) < (s.meminfo k).freeram) →
        (∀ k, s.page_alloc_calls ≤ k → (s.page_alloc k).isSome = true) →
        added.length = min pages (s.pool.length - q.length)) := by
  intro fuel
  induction fuel with
  | zero => intro s pages q _ _ _ h; omega
  | succ fuel ih =>
    intro s pages q habs hP hpos hfuel h32
    rcases bg_iter fuel s pages q habs h32 with
      ⟨hlow, e⟩ | ⟨hlow, new, i, hi, hlen, hk, hnone, e⟩ | ⟨hlow, new, pool2, hlen, hans, a2, hl2, e⟩
    · refine ⟨_, [], [], [], 0, 1, e, by simpa using habs, rfl, by simp, rfl, by omega, rfl,
        Or.inl rfl, by simp, rfl, le_refl _, ceil_div_pos _ _ hP hpos, by omega, rfl, ?_⟩
      intro hmem _
      exact absurd hlow (by have := hmem _ (le_refl _); omega)
    · have hobt : pages_obtained s.page_alloc s.page_alloc_calls (i + 1) = [] ++ new := by
        rw [pages_obtained_add, pages_obtained_of_answers _ _ _ new hlen hk,
          pages_obtained_one_none _ _ hnone]
        simp
      refine ⟨_, [], new, new.reverse, i + 1, 1, e, by simpa using habs, rfl, rfl,
        by simp only; omega, by omega, hobt, Or.inr rfl, by simp only [List.length_reverse]; omega,
        rfl, le_refl _, ceil_div_pos _ _ hP hpos, by omega, rfl, ?_⟩
      intro _ hall
      have := hall (s.page_alloc_calls + i) (by omega)
      rw [hnone] at this
      simp at this
    · have hnew : pages_obtained s.page_alloc s.page_alloc_calls
          (min (PENDING_PAGES_SIZE s.PAGE_SHIFT) pages) = new :=
        pages_obtained_of_answers _ _ _ new hlen hans
      by_cases hc : pages - min (PENDING_PAGES_SIZE s.PAGE_SHIFT) pages ≠ 0 ∧
          min (min (PENDING_PAGES_SIZE s.PAGE_SHIFT) pages) (s.pool.length - q.length)
            = min (PENDING_PAGES_SIZE s.PAGE_SHIFT) pages
      · rw [if_pos hc] at e
        obtain ⟨hc1, hc2⟩ := hc
        obtain ⟨s1, added, rest, released, d, iters, e1, habs1, hl1, hfr1, hcalls1, hd1, hobt1,
            hrel1, hrl1, hmc1, hit1, hit2, hdp1, hbg1, hall1⟩ :=
          ih { s with meminfo_calls := s.meminfo_calls + 1,
                      page_alloc_calls :=
                        s.page_alloc_calls + min (PENDING_PAGES_SIZE s.PAGE_SHIFT) pages,
                      pp_dirty := true, pool := pool2 }
            (pages - min (PENDING_PAGES_SIZE s.PAGE_SHIFT) pages)
            (q ++ new.take (min (min (PENDING_PAGES_SIZE s.PAGE_SHIFT) pages)
              (s.pool.length - q.length)))
            a2 hP (by omega) (by omega) (by omega)
        simp only at hfr1 hcalls1 hobt1 hrl1 hmc1 hit2 hdp1 hbg1 hall1 hl1
        have htake : new.take (min (min (PENDING_PAGES_SIZE s.PAGE_SHIFT) pages)
            (s.pool.length - q.length)) = new := by
          rw [hc2, ← hlen, List.take_length]
        rw [htake] at habs1 hall1
        have hPeq : min (PENDING_PAGES_SIZE s.PAGE_SHIFT) pages
            = PENDING_PAGES_SIZE s.PAGE_SHIFT := by omega
        refine ⟨s1, new ++ added, rest, released,
          min (PENDING_PAGES_SIZE s.PAGE_SHIFT) pages + d, 1 + iters, e.trans e1,
          by rw [← List.append_assoc]; exact habs1, by rw [hl1, hl2], hfr1,
          by rw [hcalls1]; omega, by omega, ?_, hrel1, hrl1, by rw [hmc1]; omega, by omega,
          ?_, ?_, hbg1, ?_⟩
        · rw [pages_obtained_add, hnew, hobt1, List.append_assoc]
        · rw [hPeq] at hit2
          exact le_trans (Nat.add_le_add_left hit2 1)
            (ceil_div_step _ _ hP (by omega))
        · rw [hPeq, Nat.mul_add, Nat.mul_one]
          rw [hPeq] at hd1
          omega
        · intro hmem hall
          have h1 := hall1 (fun k hk => hmem k (by omega)) (fun k hk => hall k (by omega))
          simp only [List.length_append] at h1 ⊢
          rw [h1, hlen]
          simp only [List.length_append, hlen] at *
          omega
      · rw [if_neg hc] at e
        refine ⟨_, new.take (min (min (PENDING_PAGES_SIZE s.PAGE_SHIFT) pages)
            (s.pool.length - q.length)),
          new.drop (min (min (PENDING_PAGES_SIZE s.PAGE_SHIFT) pages)
            (s.pool.length - q.length)),
          new.drop (min (min (PENDING_PAGES_SIZE s.PAGE_SHIFT) pages)
            (s.pool.length - q.length)),
          min (PENDING_PAGES_SIZE s.PAGE_SHIFT) pages, 1, e, a2, hl2, rfl, rfl, by omega,
          by rw [hnew, List.take_append_drop], Or.inl rfl,
          by simp only [List.length_drop, hlen]; omega, rfl, le_refl _,
          ceil_div_pos _ _ hP hpos, by omega, rfl, ?_⟩
        intro _ _
        simp only [List.length_take, hlen]
        omega

/-! ## The refill pass as a whole -/

/-- The refill pass from a state whose pool holds the queue `q`: it returns with the
pending target cleared and accounts for every page it obtained. -/
theorem background_fill_account (s : State) (q : List Page) (habs : Abs s.pool q)
    (hps : s.PAGE_SHIFT ≤ 20) :
    ∃ (s1 : State) (added rest released : List Page) (d iters : Nat),
      nvmap_pp_do_background_fill s = .ok s1 ∧
      Abs s1.pool (q ++ added) ∧ s1.pool.length = s.pool.length ∧
      s1.freed = s.freed ++ released ∧
      s1.page_alloc_calls = s.page_alloc_calls + d ∧ d ≤ u32 s.bg_pages_to_fill ∧
      pages_obtained s.page_alloc s.page_alloc_calls d = added ++ rest ∧
      (released = rest ∨ released = rest.reverse) ∧
      released.length ≤ PENDING_PAGES_SIZE s.PAGE_SHIFT ∧
      s1.meminfo_calls = s.meminfo_calls + iters ∧
      iters ≤ (u32 s.bg_pages_to_fill + PENDING_PAGES_SIZE s.PAGE_SHIFT - 1)
                / PENDING_PAGES_SIZE s.PAGE_SHIFT ∧
      d ≤ PENDING_PAGES_SIZE s.PAGE_SHIFT * iters ∧
      s1.bg_pages_to_fill = 0 ∧
      (s.enable_pp = true → 0 < u32 s.bg_pages_to_fill →
        (∀ k, s.meminfo_calls ≤ k →
          MIN_AVAILABLE_MB <<< (20 - s.PAGE_SHIFT) < (s.meminfo k).freeram) →
        (∀ k, s.page_alloc_calls ≤ k → (s.page_alloc k).isSome = true) →
        added.length = min (u32 s.bg_pages_to_fill) (s.pool.length - q.length)) := by
  unfold nvmap_pp_do_background_fill
  simp only
  by_cases hearly : u32 s.bg_pages_to_fill = 0 ∨ s.enable_pp = false
  · rw [if_pos hearly]
    refine ⟨_, [], [], [], 0, 0, rfl, by simpa using habs, rfl, by simp, rfl, Nat.zero_le _,
      rfl, Or.inl rfl, by simp, rfl, Nat.zero_le _, by omega, rfl, ?_⟩
    intro hen hpos _ _
    rcases hearly with h0 | h0
    · omega
    · rw [hen] at h0; simp at h0
  · rw [if_neg hearly]
    have hpos : 0 < u32 s.bg_pages_to_fill := by
      rcases Nat.eq_zero_or_pos (u32 s.bg_pages_to_fill) with h0 | h0
      · exact absurd (Or.inl h0) hearly
      · exact h0
    have h32 : u32 s.bg_pages_to_fill < 4294967296 := by unfold u32; omega
    obtain ⟨s1, added, rest, released, d, iters, e1, habs1, hl1, hfr1, hcalls1, hd1, hobt1,
        hrel1, hrl1, hmc1, hit1, hit2, hdp1, hbg1, hall1⟩ :=
      bg_fill_loop_account (u32 s.bg_pages_to_fill + 1) { s with bg_pages_to_fill := 0 }
        (u32 s.bg_pages_to_fill) q habs (pending_pos _ hps) hpos (by omega) h32
    exact ⟨s1, added, rest, released, d, iters, e1, habs1, hl1, hfr1, hcalls1, hd1, hobt1,
      hrel1, hrl1, hmc1, hit2, hdp1, hbg1, fun _ _ hmem hall => hall1 hmem hall⟩

/-! ## The low-memory return after `j` full batches -/

/-- If the first `j` passes of the refill loop find memory above the floor, obtain a full
batch each and find room for it in the pool, and the next pass finds memory at or below
the floor, the loop returns there: the `j` batches are pooled, nothing is released and no
further page is requested. -/
theorem bg_fill_loop_abort : ∀ (j fuel : Nat) (s : State) (pages : Nat) (q : List Page),
    Abs s.pool q → j * PENDING_PAGES_SIZE s.PAGE_SHIFT < pages → pages < 4294967296 →
    j * PENDING_PAGES_SIZE s.PAGE_SHIFT ≤ s.pool.length - q.length →
    (∀ k, k < j → MIN_AVAILABLE_MB <<< (20 - s.PAGE_SHIFT)
      < (s.meminfo (s.meminfo_calls + k)).freeram) →
    (s.meminfo (s.meminfo_calls + j)).freeram ≤ MIN_AVAILABLE_MB <<< (20 - s.PAGE_SHIFT) →
    (∀ k, k < j * PENDING_PAGES_SIZE s.PAGE_SHIFT →
      (s.page_alloc (s.page_alloc_calls + k)).isSome = true) →
    ∃ s1, bg_fill_loop (fuel + j + 1) s pages = .ok s1 ∧
      Abs s1.pool (q ++ pages_obtained s.page_alloc s.page_alloc_calls
        (j * PENDING_PAGES_SIZE s.PAGE_SHIFT)) ∧
      s1.page_alloc_calls = s.page_alloc_calls + j * PENDING_PAGES_SIZE s.PAGE_SHIFT ∧
      s1.freed = s.freed ∧ s1.meminfo_calls = s.meminfo_calls + j + 1 ∧
      s1.bg_pages_to_fill = s.bg_pages_to_fill ∧ s1.cache_cleans = s.cache_cleans := by
  intro j
  induction j with
  | zero =>
    intro fuel s pages q habs hj h32 hroom hmem hlow hall
    rcases bg_iter fuel s pages q habs h32 with
      ⟨_, e⟩ | ⟨hok, _⟩ | ⟨hok, _⟩
    · exact ⟨_, e, by simpa [pages_obtained] using habs, by simp, rfl, rfl, rfl, rfl⟩
    · exact absurd hlow hok
    · exact absurd hlow hok
  | succ j ih =>
    intro fuel s pages q habs hj h32 hroom hmem hlow hall
    have hfuel : fuel + (j + 1) + 1 = (fuel + j + 1) + 1 := by omega
    rw [hfuel]
    rw [Nat.succ_mul] at hj hroom hall
    rcases bg_iter (fuel + j + 1) s pages q habs h32 with
      ⟨hlow0, _⟩ | ⟨_, new, i, hi, _, _, hnone, _⟩ | ⟨_, new, pool2, hlen, hans, a2, hl2, e⟩
    · have := hmem 0 (by omega)
      simp only [Nat.add_zero] at this
      omega
    · have := hall i (by omega)
      rw [hnone] at this
      simp at this
    · have hc : pages - min (PENDING_PAGES_SIZE s.PAGE_SHIFT) pages ≠ 0 ∧
          min (min (PENDING_PAGES_SIZE s.PAGE_SHIFT) pages) (s.pool.length - q.length)
            = min (PENDING_PAGES_SIZE s.PAGE_SHIFT) pages := by
        constructor <;> omega
      rw [if_pos hc] at e
      have hPeq : min (PENDING_PAGES_SIZE s.PAGE_SHIFT) pages
          = PENDING_PAGES_SIZE s.PAGE_SHIFT := by omega
      have htake : new.take (min (min (PENDING_PAGES_SIZE s.PAGE_SHIFT) pages)
          (s.pool.length - q.length)) = new := by
        rw [hc.2, ← hlen, List.take_length]
      have hnew : pages_obtained s.page_alloc s.page_alloc_calls
          (PENDING_PAGES_SIZE s.PAGE_SHIFT) = new := by
        rw [hPeq] at hlen hans
        exact pages_obtained_of_answers _ _ _ new hlen hans
      rw [htake] at a2
      rw [hPeq] at e hlen
      obtain ⟨s1, e1, habs1, hcalls1, hfr1, hmc1, hbg1, hcl1⟩ :=
        ih fuel { s with meminfo_calls := s.meminfo_calls + 1,
                         page_alloc_calls :=
                           s.page_alloc_calls + PENDING_PAGES_SIZE s.PAGE_SHIFT,
                         pp_dirty := true, pool := pool2 }
          (pages - PENDING_PAGES_SIZE s.PAGE_SHIFT) (q ++ new) a2
          (by simp only; omega) (by omega)
          (by simp only [hl2, List.length_append, hlen]; omega)
          (fun k hk => by
            have := hmem (k + 1) (by omega)
            simp only
            rw [show s.meminfo_calls + 1 + k = s.meminfo_calls + (k + 1) by omega]
            exact this)
          (by
            simp only
            rw [show s.meminfo_calls + 1 + j = s.meminfo_calls + (j + 1) by omega]
            exact hlow)
          (fun k hk => by
            have := hall (PENDING_PAGES_SIZE s.PAGE_SHIFT + k) (by simp only at hk; omega)
            simp only
            rw [show s.page_alloc_calls + PENDING_PAGES_SIZE s.PAGE_SHIFT + k
              = s.page_alloc_calls + (PENDING_PAGES_SIZE s.PAGE_SHIFT + k) by omega]
            exact this)
      simp only at habs1 hcalls1 hfr1 hmc1 hbg1 hcl1
      refine ⟨s1, e.trans e1, ?_, by rw [hcalls1, Nat.succ_mul]; omega, hfr1,
        by rw [hmc1]; omega, hbg1, hcl1⟩
      rw [Nat.succ_mul, Nat.add_comm (j * PENDING_PAGES_SIZE s.PAGE_SHIFT), pages_obtained_add,
        hnew, ← List.append_assoc]
      exact habs1

/-! ## The refill loop never runs out of passes -/

theorem fill_lots_loop_progress (pages : List Page) :
    ∀ (n : Nat) (pool : nvmap_page_pool) (ind : Nat),
      fill_lots_loop pages n pool ind ≠ .error .no_progress := by
  intro n
  induction n with
  | zero => intro pool ind; simp [fill_lots_loop]
  | succ n ih =>
    intro pool ind
    unfold fill_lots_loop
    cases hp : pages[ind]? with
    | none => simp
    | some p =>
      simp only
      have h1 := set_slot_progress pool pool.fill (some p)
      cases hs : set_slot pool pool.fill (some p) with
      | error e => rw [hs] at h1; simpa using h1
      | ok pool1 => exact ih _ _

theorem fill_lots_progress (s : State) (pages : List Page) (nr : Nat) :
    __nvmap_page_pool_fill_lots_locked s pages nr ≠ .error .no_progress := by
  unfold __nvmap_page_pool_fill_lots_locked
  simp only
  split
  · simp
  · have h1 := fill_lots_loop_progress pages
      (min (u32_sub s.pool.length s.pool.count) nr) s.pool 0
    cases hl : fill_lots_loop pages (min (u32_sub s.pool.length s.pool.count) nr) s.pool 0 with
    | error e => rw [hl] at h1; simpa using h1
    | ok v => simp

/-- In every state the remaining target drops by the batch size `nr >= 1` in every pass that
repeats, so `pages + 1` passes are never used up. -/
theorem bg_fill_loop_progress : ∀ (fuel : Nat) (s : State) (pages : Nat),
    1 ≤ PENDING_PAGES_SIZE s.PAGE_SHIFT → 0 < pages → pages < fuel → pages < 4294967296 →
    bg_fill_loop fuel s pages ≠ .error .no_progress := by
  intro fuel
  induction fuel with
  | zero => intro s pages _ _ h; omega
  | succ fuel ih =>
    intro s pages hP hpos hfuel h32
    rw [bg_fill_loop]
    unfold __nvmap_pp_alloc_n_pages
    simp only
    split
    · simp
    · have hnr2 : min (PENDING_PAGES_SIZE s.PAGE_SHIFT) pages ≤ pages := Nat.min_le_right _ _
      have hnr1 : 1 ≤ min (PENDING_PAGES_SIZE s.PAGE_SHIFT) pages := Nat.le_min.2 ⟨hP, hpos⟩
      generalize min (PENDING_PAGES_SIZE s.PAGE_SHIFT) pages = nr at hnr1 hnr2 ⊢
      have hspec := alloc_n_loop_spec nr { s with meminfo_calls := s.meminfo_calls + 1 } []
      rcases hr : alloc_n_loop nr { s with meminfo_calls := s.meminfo_calls + 1 } []
        with ⟨err, pending, s2⟩
      rw [hr] at hspec
      simp only at hspec ⊢
      obtain ⟨hframe, _⟩ := hspec
      have hshift : s2.PAGE_SHIFT = s.PAGE_SHIFT := by rw [hframe]
      split
      · simp
      · have h1 := fill_lots_progress { s2 with pp_dirty := true } pending nr
        cases hfl : __nvmap_page_pool_fill_lots_locked { s2 with pp_dirty := true } pending nr with
        | error e => rw [hfl] at h1; simpa using h1
        | ok v =>
          obtain ⟨i, s4⟩ := v
          simp only
          have h4 : s4.PAGE_SHIFT = s.PAGE_SHIFT := by
            rw [fill_lots_frame _ s4 pending nr i hfl]
            exact hshift
          rw [u32_sub_of_le pages nr hnr2 h32]
          split
          · rename_i hc
            exact ih s4 (pages - nr) (by rw [h4]; exact hP) (by omega) (by omega) (by omega)
          · simp

/-! ## The policy evaluations of a drain -/

theorem clean_fields (s : State) :
    (pp_clean_cache s).enable_pp = s.enable_pp ∧
    (pp_clean_cache s).zero_memory = s.zero_memory ∧
    (pp_clean_cache s).PAGE_SHIFT = s.PAGE_SHIFT ∧
    (pp_clean_cache s).meminfo = s.meminfo ∧
    (pp_clean_cache s).meminfo_calls = s.meminfo_calls ∧
    (pp_clean_cache s).wakeups = s.wakeups := by
  unfold pp_clean_cache
  split <;> exact ⟨rfl, rfl, rfl, rfl, rfl, rfl⟩

theorem policy_inputs_wake (s : State) : policy_inputs_kept s (nvmap_pp_wake_up_allocator s) := by
  obtain ⟨h1, h2, h3, h4, h5⟩ := wake_frame s
  have h6 := wake_wakeups s
  refine ⟨h1, h2, h3, h4, by omega, ?_⟩
  rw [h6]
  split <;> omega

theorem policy_inputs_trans {a b c : State} (h1 : policy_inputs_kept a b)
    (h2 : policy_inputs_kept b c) : policy_inputs_kept a c := by
  unfold policy_inputs_kept at h1 h2 ⊢
  exact ⟨h2.1.trans h1.1, h2.2.1.trans h1.2.1, h2.2.2.1.trans h1.2.2.1,
    h2.2.2.2.1.trans h1.2.2.2.1, le_trans h1.2.2.2.2.1 h2.2.2.2.2.1,
    le_trans h1.2.2.2.2.2 h2.2.2.2.2.2⟩

theorem policy_inputs_take (s : State) (pool1 : nvmap_page_pool) :
    policy_inputs_kept s { pp_clean_cache s with pool := pool1 } := by
  obtain ⟨h1, h2, h3, h4, h5, h6⟩ := clean_fields s
  exact ⟨h1, h2, h3, h4, by simp only; omega, by simp only; omega⟩

/-- The policy evaluation that passes all four tests. -/
theorem wake_fires (s : State) (hen : s.enable_pp = true)
    (hocc : s.zero_memory = true ∨ s.pool.count ≤ NVMAP_PP_ZERO_MEM_FILL_MIN)
    (hc : s.pool.count ≤ s.pool.length) (hL : s.pool.length < 4294967296)
    (hroom : NVMAP_PP_DEF_FILL_THRESH ≤ s.pool.length - s.pool.count)
    (hmem : reserved_floor s.PAGE_SHIFT
      < policy_free_pages s.PAGE_SHIFT (s.meminfo s.meminfo_calls)) :
    (nvmap_pp_wake_up_allocator s).bg_pages_to_fill
      = min (policy_free_pages s.PAGE_SHIFT (s.meminfo s.meminfo_calls)
              - reserved_floor s.PAGE_SHIFT)
          (s.pool.length - s.pool.count) ∧
    (nvmap_pp_wake_up_allocator s).wakeups = s.wakeups + 1 ∧
    (nvmap_pp_wake_up_allocator s).meminfo_calls = s.meminfo_calls + 1 := by
  have hfp : policy_free_pages s.PAGE_SHIFT (s.meminfo s.meminfo_calls) < 4294967296 := by
    unfold policy_free_pages u32; omega
  have h1 := u32_sub_of_le _ _ (Nat.le_of_lt hmem) hfp
  have h2 := u32_sub_of_le _ _ hc hL
  have hsig : policy_signals s = true := by
    unfold policy_signals
    rw [h1, h2, hen]
    simp only [Bool.true_and, Bool.and_eq_true, Bool.not_eq_true', decide_eq_false_iff_not]
    refine ⟨⟨?_, by omega⟩, by omega⟩
    rcases hocc with hz | hz
    · simp [hz]
    · simp; intro _; exact hz
  rw [wake_signal s hsig]
  simp only [policy_target, h1, h2]
  trivial

theorem free_loop_miss (n : Nat) (s : State) (h : Abs s.pool []) :
    free_loop (n + 1) s = .ok (n + 1, nvmap_pp_wake_up_allocator s) := by
  obtain ⟨arr, hr, _⟩ := h
  simp [free_loop, alloc_locked_nil hr]

/-- The release loop of a drain with `nr_free >= 1`: its last policy evaluation runs in a
state `sl` that holds the final pool, and nothing after it touches the pending target. -/
theorem free_loop_policy : ∀ (n : Nat) (s : State) (q : List Page), Abs s.pool q →
    ∃ (r : Nat) (s1 sl : State), free_loop (n + 1) s = .ok (r, s1) ∧
      policy_inputs_kept s sl ∧
      sl.pool.count = q.length - min (n + 1) q.length ∧
      sl.pool.length = s.pool.length ∧ s1.pool = sl.pool ∧
      s1.bg_pages_to_fill = (nvmap_pp_wake_up_allocator sl).bg_pages_to_fill ∧
      s1.wakeups = (nvmap_pp_wake_up_allocator sl).wakeups ∧
      s1.meminfo_calls = (nvmap_pp_wake_up_allocator sl).meminfo_calls ∧
      s1.policy_evals = s.policy_evals + min (n + 1) (q.length + 1) := by
  intro n
  induction n with
  | zero =>
    intro s q h
    cases q with
    | nil =>
      refine ⟨_, _, s, free_loop_miss 0 s h, ⟨rfl, rfl, rfl, rfl, le_refl _, le_refl _⟩,
        by simpa using h.count_eq, rfl, wake_pool s, rfl, rfl, rfl, ?_⟩
      rw [wake_evals]; rfl
    | cons x q =>
      obtain ⟨arr, hr, hc⟩ := h
      obtain ⟨e, hr1, hc1⟩ := alloc_locked_cons hr hc
      refine ⟨0, { nvmap_pp_wake_up_allocator
            { pp_clean_cache s with pool := pool_after_take s.pool arr } with
          freed := (nvmap_pp_wake_up_allocator
            { pp_clean_cache s with pool := pool_after_take s.pool arr }).freed ++ [x] },
        { pp_clean_cache s with pool := pool_after_take s.pool arr }, ?_,
        policy_inputs_take s _, ?_, rfl, ?_, rfl, rfl, rfl, ?_⟩
      · simp only [free_loop, e, __free_page]
      · simp only [hc1, List.length_cons]; omega
      · simp only [wake_pool]
      · simp only [wake_evals, clean_evals, List.length_cons]; omega
  | succ n ih =>
    intro s q h
    cases q with
    | nil =>
      refine ⟨_, _, s, free_loop_miss (n + 1) s h, ⟨rfl, rfl, rfl, rfl, le_refl _, le_refl _⟩,
        by simpa using h.count_eq, rfl, wake_pool s, rfl, rfl, rfl, ?_⟩
      rw [wake_evals]; simp
    | cons x q =>
      obtain ⟨arr, hr, hc⟩ := h
      obtain ⟨e, hr1, hc1⟩ := alloc_locked_cons hr hc
      obtain ⟨r, s1, sl, e1, hin, hcnt, hlen, hpool, hbg, hw, hmc, hev⟩ := ih
        { nvmap_pp_wake_up_allocator
            { pp_clean_cache s with pool := pool_after_take s.pool arr } with
          freed := (nvmap_pp_wake_up_allocator
            { pp_clean_cache s with pool := pool_after_take s.pool arr }).freed ++ [x] } q
        (by simp only [wake_pool]; exact ⟨_, hr1, hc1⟩)
      have hin0 : policy_inputs_kept s
          { nvmap_pp_wake_up_allocator
              { pp_clean_cache s with pool := pool_after_take s.pool arr } with
            freed := (nvmap_pp_wake_up_allocator
              { pp_clean_cache s with pool := pool_after_take s.pool arr }).freed ++ [x] } :=
        policy_inputs_trans (policy_inputs_take s (pool_after_take s.pool arr))
          (policy_inputs_wake _)
      refine ⟨r, s1, sl, ?_, policy_inputs_trans hin0 hin, ?_, ?_, hpool, hbg, hw, hmc, ?_⟩
      · rw [free_loop, e]
        simp only [__free_page]
        exact e1
      · rw [hcnt]; simp only [List.length_cons]; omega
      · rw [hlen]; simp [wake_pool, pool_after_take]
      · rw [hev]; simp only [wake_evals, clean_evals, List.length_cons]; omega

/-- The release loop of a resize evaluates the policy once for every page it removes. -/
theorem resize_free_loop_evals : ∀ (q : List Page) (s : State) (fuel : Nat), Abs s.pool q →
    q.length < fuel →
    ∃ s1, resize_free_loop fuel s = .ok s1 ∧ s1.freed = s.freed ++ q ∧
      s1.policy_evals = s.policy_evals + q.length := by
  intro q
  induction q with
  | nil =>
    intro s fuel h hfuel
    obtain ⟨arr, hr, hc⟩ := h
    cases fuel with
    | zero => omega
    | succ fuel =>
      exact ⟨s, by simp [resize_free_loop, hr.pp_empty_eq], by simp, rfl⟩
  | cons x q ih =>
    intro s fuel h hfuel
    obtain ⟨arr, hr, hc⟩ := h
    cases fuel with
    | zero => omega
    | succ fuel =>
      obtain ⟨e, hr1, hc1⟩ := alloc_locked_cons hr hc
      obtain ⟨s1, e1, hfr, hev⟩ := ih
        { nvmap_pp_wake_up_allocator
            { pp_clean_cache s with pool := pool_after_take s.pool arr } with
          freed := (nvmap_pp_wake_up_allocator
            { pp_clean_cache s with pool := pool_after_take s.pool arr }).freed ++ [x] } fuel
        (by simp only [wake_pool]; exact ⟨_, hr1, hc1⟩)
        (by simp only [List.length_cons] at hfuel; omega)
      refine ⟨s1, ?_, ?_, ?_⟩
      · simp only [resize_free_loop, hr.pp_empty_eq, List.length_cons, Nat.add_one_ne_zero,
          decide_False, e, __free_page, e1]
      · rw [hfr]
        simp [wake_freed, clean_freed]
      · rw [hev]
        simp only [wake_evals, clean_evals, List.length_cons]
        omega

/-- The clear of the pool evaluates the policy once for every page it removes, once at the
miss that ends its loop, and once more before it returns. -/
theorem clear_evals {s : State} {q : List Page} (h : Abs s.pool q) :
    ∃ s1, nvmap_page_pool_clear s = .ok (0, s1) ∧
      s1.policy_evals = s.policy_evals + q.length + 2 ∧ s1.freed = s.freed ++ q := by
  have hsz := h.array_size_ge
  obtain ⟨s1, e1, a1, hfr, _, hev⟩ := clear_loop_abs q s (array_size s.pool + 1) h (by omega)
  obtain ⟨arr, hr, _⟩ := h
  obtain ⟨arr1, hr1, hc1⟩ := a1
  have hemp : pp_empty s1.pool = .ok true := by simpa using hr1.pp_empty_eq
  refine ⟨nvmap_pp_wake_up_allocator s1, by simp [nvmap_page_pool_clear, hr.harr, e1, hemp],
    by rw [wake_evals, hev], by rw [wake_freed, hfr]⟩

/-- A drain changes neither the configuration nor the `si_meminfo` oracle. -/
theorem free_loop_inputs : ∀ (n : Nat) (s : State) (q : List Page), Abs s.pool q →
    ∃ r s1, free_loop n s = .ok (r, s1) ∧ policy_inputs_kept s s1 := by
  intro n
  induction n with
  | zero =>
    intro s q _
    exact ⟨0, s, by simp [free_loop], ⟨rfl, rfl, rfl, rfl, le_refl _, le_refl _⟩⟩
  | succ n ih =>
    intro s q h
    cases q with
    | nil => exact ⟨_, _, free_loop_miss n s h, policy_inputs_wake s⟩
    | cons x q =>
      obtain ⟨arr, hr, hc⟩ := h
      obtain ⟨e, hr1, hc1⟩ := alloc_locked_cons hr hc
      obtain ⟨r, s1, e1, hin⟩ := ih
        { nvmap_pp_wake_up_allocator
            { pp_clean_cache s with pool := pool_after_take s.pool arr } with
          freed := (nvmap_pp_wake_up_allocator
            { pp_clean_cache s with pool := pool_after_take s.pool arr }).freed ++ [x] } q
        (by simp only [wake_pool]; exact ⟨_, hr1, hc1⟩)
      have hin0 : policy_inputs_kept s
          { nvmap_pp_wake_up_allocator
              { pp_clean_cache s with pool := pool_after_take s.pool arr } with
            freed := (nvmap_pp_wake_up_allocator
              { pp_clean_cache s with pool := pool_after_take s.pool arr }).freed ++ [x] } :=
        policy_inputs_trans (policy_inputs_take s (pool_after_take s.pool arr))
          (policy_inputs_wake _)
      refine ⟨r, s1, ?_, policy_inputs_trans hin0 hin⟩
      rw [free_loop, e]
      simp only [__free_page]
      exact e1

/-! ## Background refill, policy on every removal path, and disabling the pools -/

/-- C31: with pooling enabled, every `si_meminfo` answer above the reserved floor
(`info.freeram > MIN_AVAILABLE_MB << (20 - PAGE_SHIFT)`) and every `alloc_page` call
succeeding, `nvmap_pp_do_background_fill` with pending target `t > 0` on a pool that
satisfies the ring invariants with count `c` and length `L` (and `PAGE_SHIFT <= 20`)
returns with `count = c + min(t, L - c)`; the pages of the first `min(t, L - c)` calls of
`alloc_page` are appended at the tail of the pool in call order, the ring invariants
hold again and the pending target is 0. -/
theorem background_fill_reaches_target (s : State) (h : ring_inv s.pool)
    (hps : s.PAGE_SHIFT ≤ 20) (hen : s.enable_pp = true)
    (ht : 0 < s.bg_pages_to_fill) (ht32 : s.bg_pages_to_fill < 4294967296)
    (hmem : ∀ k, s.meminfo_calls ≤ k → reserved_floor s.PAGE_SHIFT < (s.meminfo k).freeram)
    (hall : ∀ k, s.page_alloc_calls ≤ k → (s.page_alloc k).isSome = true) :
    ∃ s1, nvmap_pp_do_background_fill s = .ok s1 ∧
      s1.pool.count = s.pool.count + min s.bg_pages_to_fill (s.pool.length - s.pool.count) ∧
      pool_pages s1.pool
        = pool_pages s.pool ++ pages_obtained s.page_alloc s.page_alloc_calls
            (min s.bg_pages_to_fill (s.pool.length - s.pool.count)) ∧
      (pages_obtained s.page_alloc s.page_alloc_calls
          (min s.bg_pages_to_fill (s.pool.length - s.pool.count))).length
        = min s.bg_pages_to_fill (s.pool.length - s.pool.count) ∧
      s1.pool.length = s.pool.length ∧ ring_inv s1.pool ∧ s1.bg_pages_to_fill = 0 := by
  have habs := inv_abs h
  have hcount := habs.count_eq
  obtain ⟨s1, added, rest, released, d, iters, e1, habs1, hl1, _, _, _, hobt, _, _, _, _, _,
      hbg, hlen⟩ := background_fill_account s (pool_pages s.pool) habs hps
  have ht' : u32 s.bg_pages_to_fill = s.bg_pages_to_fill := u32_of_lt _ ht32
  rw [ht'] at hlen
  have hadded := hlen hen ht hmem hall
  rw [← hcount] at hadded
  have hdlen := pages_obtained_length s.page_alloc s.page_alloc_calls d hall
  have hmlen := pages_obtained_length s.page_alloc s.page_alloc_calls
    (min s.bg_pages_to_fill (s.pool.length - s.pool.count)) hall
  have hmd : min s.bg_pages_to_fill (s.pool.length - s.pool.count) ≤ d := by
    have := congrArg List.length hobt
    rw [hdlen, List.length_append, hadded] at this
    omega
  have hsplit : pages_obtained s.page_alloc s.page_alloc_calls d
      = pages_obtained s.page_alloc s.page_alloc_calls
          (min s.bg_pages_to_fill (s.pool.length - s.pool.count))
        ++ pages_obtained s.page_alloc
          (s.page_alloc_calls + min s.bg_pages_to_fill (s.pool.length - s.pool.count))
          (d - min s.bg_pages_to_fill (s.pool.length - s.pool.count)) := by
    rw [← pages_obtained_add]
    congr 1
    omega
  rw [hsplit] at hobt
  have hadd : pages_obtained s.page_alloc s.page_alloc_calls
      (min s.bg_pages_to_fill (s.pool.length - s.pool.count)) = added :=
    (List.append_inj hobt (by rw [hmlen, hadded])).1
  refine ⟨s1, e1, ?_, ?_, hmlen, hl1, abs_inv habs1, hbg⟩
  · rw [habs1.count_eq, List.length_append, hadded, hcount]
  · rw [abs_pages habs1, hadd]

/-- Witness of C31: a pending target of 6 pages on an empty pool of 4 slots. -/
theorem background_fill_reaches_target_witness :
    ring_inv refill_state.pool ∧ refill_state.PAGE_SHIFT ≤ 20 ∧
    refill_state.enable_pp = true ∧ refill_state.bg_pages_to_fill = 6 ∧
    refill_state.pool.count = 0 ∧ refill_state.pool.length = 4 ∧
    ∃ s1, nvmap_pp_do_background_fill refill_state = .ok s1 ∧
      s1.pool.count = refill_state.pool.count
        + min refill_state.bg_pages_to_fill
            (refill_state.pool.length - refill_state.pool.count) ∧
      pool_pages s1.pool
        = pool_pages refill_state.pool
          ++ pages_obtained refill_state.page_alloc refill_state.page_alloc_calls
            (min refill_state.bg_pages_to_fill
              (refill_state.pool.length - refill_state.pool.count)) ∧
      (pages_obtained refill_state.page_alloc refill_state.page_alloc_calls
          (min refill_state.bg_pages_to_fill
            (refill_state.pool.length - refill_state.pool.count))).length
        = min refill_state.bg_pages_to_fill
            (refill_state.pool.length - refill_state.pool.count) ∧
      s1.pool.length = refill_state.pool.length ∧ ring_inv s1.pool ∧
      s1.bg_pages_to_fill = 0 :=
  ⟨by decide, by decide, rfl, rfl, rfl, rfl,
    background_fill_reaches_target refill_state (by decide) (by decide) rfl (by decide)
      (by decide) (fun _ _ => (by decide : reserved_floor 12 < 100000)) (fun _ _ => rfl)⟩

/-- C32: no page is leaked or released twice by a refill pass.  From every state that
satisfies the ring invariants (with `PAGE_SHIFT <= 20`), whatever the target and the
answers of `alloc_page` and `si_meminfo`, `nvmap_pp_do_background_fill` returns after `d`
calls of `alloc_page` in `iters` passes of its loop; the pages obtained by these calls
are, as a list with repetitions, exactly the pages `added` at the tail of the pool
together with the pages `released` through `__free_page` (so with an allocator that
hands out no page twice, no page is both pooled and released, or released twice).  The
pass requests at most the target (`d <= t`) and at most `PENDING_PAGES_SIZE` pages per
pass of the loop, and it releases at most one batch. -/
theorem background_fill_accounts_pages (s : State) (h : ring_inv s.pool)
    (hps : s.PAGE_SHIFT ≤ 20) :
    ∃ (s1 : State) (added released : List Page) (d iters : Nat),
      nvmap_pp_do_background_fill s = .ok s1 ∧
      s1.page_alloc_calls = s.page_alloc_calls + d ∧
      s1.meminfo_calls = s.meminfo_calls + iters ∧
      pool_pages s1.pool = pool_pages s.pool ++ added ∧
      s1.freed = s.freed ++ released ∧
      List.Perm (added ++ released) (pages_obtained s.page_alloc s.page_alloc_calls d) ∧
      ((∀ i j p, s.page_alloc_calls ≤ i → s.page_alloc_calls ≤ j →
          s.page_alloc i = some p → s.page_alloc j = some p → i = j) →
        (added ++ released).Nodup) ∧
      d ≤ u32 s.bg_pages_to_fill ∧
      d ≤ PENDING_PAGES_SIZE s.PAGE_SHIFT * iters ∧
      released.length ≤ PENDING_PAGES_SIZE s.PAGE_SHIFT ∧
      ring_inv s1.pool := by
  have habs := inv_abs h
  obtain ⟨s1, added, rest, released, d, iters, e1, habs1, _, hfr, hcalls, hd, hobt, hrel, hrl,
      hmc, _, hdp, _, _⟩ := background_fill_account s (pool_pages s.pool) habs hps
  have hperm : List.Perm (added ++ released)
      (pages_obtained s.page_alloc s.page_alloc_calls d) := by
    rw [hobt]
    rcases hrel with hr | hr
    · rw [hr]
    · rw [hr]
      exact List.Perm.append_left _ (List.reverse_perm rest)
  refine ⟨s1, added, released, d, iters, e1, hcalls, hmc, abs_pages habs1, hfr, hperm, ?_, hd,
    hdp, hrl, abs_inv habs1⟩
  intro hinj
  exact (List.Perm.nodup_iff hperm).2 (pages_obtained_nodup _ _ hinj d)

/-- Witness of C32: a pass whose third call of `alloc_page` fails. -/
theorem background_fill_accounts_pages_witness :
    ring_inv failing_refill_state.pool ∧ failing_refill_state.PAGE_SHIFT ≤ 20 ∧
    ∃ (s1 : State) (added released : List Page) (d iters : Nat),
      nvmap_pp_do_background_fill failing_refill_state = .ok s1 ∧
      s1.page_alloc_calls = failing_refill_state.page_alloc_calls + d ∧
      s1.meminfo_calls = failing_refill_state.meminfo_calls + iters ∧
      pool_pages s1.pool = pool_pages failing_refill_state.pool ++ added ∧
      s1.freed = failing_refill_state.freed ++ released ∧
      List.Perm (added ++ released)
        (pages_obtained failing_refill_state.page_alloc
          failing_refill_state.page_alloc_calls d) ∧
      ((∀ i j p, failing_refill_state.page_alloc_calls ≤ i →
          failing_refill_state.page_alloc_calls ≤ j →
          failing_refill_state.page_alloc i = some p →
          failing_refill_state.page_alloc j = some p → i = j) →
        (added ++ released).Nodup) ∧
      d ≤ u32 failing_refill_state.bg_pages_to_fill ∧
      d ≤ PENDING_PAGES_SIZE failing_refill_state.PAGE_SHIFT * iters ∧
      released.length ≤ PENDING_PAGES_SIZE failing_refill_state.PAGE_SHIFT ∧
      ring_inv s1.pool :=
  ⟨by decide, by decide,
    background_fill_accounts_pages failing_refill_state (by decide) (by decide)⟩

/-- C33: `__nvmap_pp_alloc_n_pages` is all-or-nothing.  If the `n` calls of `alloc_page`
all succeed, it returns 0 with `pages[0..n)` holding the `n` pages in call order, and
nothing is released (only the call counter of the allocator moves).  If the call with
index `i < n` is the first to fail, it returns `-ENOMEM` after handing exactly the `i`
pages obtained before to `__free_page`, each once, from the last to the first, and makes
no further call of `alloc_page`. -/
theorem alloc_n_pages_all_or_nothing (s : State) (n : Nat) :
    ((∀ k, k < n → (s.page_alloc (s.page_alloc_calls + k)).isSome = true) →
      ∃ pages : List Page,
        __nvmap_pp_alloc_n_pages s n
          = (0, pages, { s with page_alloc_calls := s.page_alloc_calls + n }) ∧
        pages.length = n ∧
        ∀ k, k < n → s.page_alloc (s.page_alloc_calls + k) = pages[k]?) ∧
    (∀ i, i < n →
      (∀ k, k < i → (s.page_alloc (s.page_alloc_calls + k)).isSome = true) →
      s.page_alloc (s.page_alloc_calls + i) = none →
      ∃ got : List Page, got.length = i ∧
        (∀ k, k < i → s.page_alloc (s.page_alloc_calls + k) = got[k]?) ∧
        __nvmap_pp_alloc_n_pages s n
          = (-ENOMEM, got, { s with page_alloc_calls := s.page_alloc_calls + i + 1,
                                     freed := s.freed ++ got.reverse })) := by
  unfold __nvmap_pp_alloc_n_pages
  have hspec := alloc_n_loop_spec n s []
  have hfail := alloc_n_loop_fail n s []
  rcases hr : alloc_n_loop n s [] with ⟨err, pending, s2⟩
  rw [hr] at hspec hfail
  simp only at hspec hfail
  obtain ⟨hframe, hsucc⟩ := hspec
  constructor
  · intro hall
    by_cases herr : err = 0
    · obtain ⟨new, hpend, hlen, hfreed, hcalls, hans⟩ := hsucc herr
      simp only [List.nil_append] at hpend
      have hs2 : s2 = { s with page_alloc_calls := s.page_alloc_calls + n } := by
        rw [hframe, hcalls, hfreed]
      exact ⟨new, by rw [herr, hpend, hs2], hlen, hans⟩
    · obtain ⟨new, i, hi, _, _, hnone, _⟩ := hfail herr
      have := hall i hi
      rw [hnone] at this
      simp at this
  · intro i hi hprev hnone
    by_cases herr : err = 0
    · obtain ⟨new, _, hlen, _, _, hans⟩ := hsucc herr
      have h1 := hans i hi
      rw [hnone, List.getElem?_eq_getElem (by omega)] at h1
      simp at h1
    · obtain ⟨new, i1, hi1, hlen, hk, hnone1, herr1, hpend, hfreed, hcalls⟩ := hfail herr
      simp only [List.nil_append] at hpend hfreed
      have hii : i1 = i := by
        rcases Nat.lt_trichotomy i1 i with hlt | heq | hgt
        · have := hprev i1 hlt
          rw [hnone1] at this
          simp at this
        · exact heq
        · have h1 := hk i hgt
          rw [hnone, List.getElem?_eq_getElem (by omega)] at h1
          simp at h1
      subst hii
      have hs2 : s2 = { s with page_alloc_calls := s.page_alloc_calls + i1 + 1,
                               freed := s.freed ++ new.reverse } := by
        rw [hframe, hcalls, hfreed]
      exact ⟨new, hlen, hk, by rw [herr1, hpend, hs2]⟩

/-- Witness of C33: with an allocator that fails at its third call, a request for five
pages returns `-ENOMEM` after releasing the two pages obtained. -/
theorem alloc_n_pages_all_or_nothing_witness :
    ∃ got : List Page, got.length = 2 ∧
      (∀ k, k < 2 → failing_refill_state.page_alloc
        (failing_refill_state.page_alloc_calls + k) = got[k]?) ∧
      __nvmap_pp_alloc_n_pages failing_refill_state 5
        = (-ENOMEM, got,
            { failing_refill_state with
              page_alloc_calls := failing_refill_state.page_alloc_calls + 2 + 1,
              freed := failing_refill_state.freed ++ got.reverse }) :=
  (alloc_n_pages_all_or_nothing failing_refill_state 5).2 2 (by decide) (by decide) rfl

/-- C34: the low-memory return of the refill pass.  A pass of the loop of
`nvmap_pp_do_background_fill` that finds `info.freeram` at or below the reserved floor
returns at once: it only counts one more `si_meminfo` call, so it requests no page, leaves
the pool as the earlier passes left it, releases nothing and does not touch the pending
target.  For the whole function: if the first `j` passes find memory above the floor,
obtain a full batch of `PENDING_PAGES_SIZE` pages each and find room for it, and the next
pass finds memory at or below the floor, the function returns with exactly these
`j * PENDING_PAGES_SIZE` pages appended to the pool, nothing released, no further page
requested and the pending target 0 (the rest of the target is dropped). -/
theorem background_fill_low_memory_abort (s : State) (j : Nat) (h : ring_inv s.pool)
    (hps : s.PAGE_SHIFT ≤ 20) (hen : s.enable_pp = true)
    (ht32 : s.bg_pages_to_fill < 4294967296)
    (hj : j * PENDING_PAGES_SIZE s.PAGE_SHIFT < s.bg_pages_to_fill)
    (hroom : j * PENDING_PAGES_SIZE s.PAGE_SHIFT ≤ s.pool.length - s.pool.count)
    (hmem : ∀ k, k < j →
      reserved_floor s.PAGE_SHIFT < (s.meminfo (s.meminfo_calls + k)).freeram)
    (hlow : (s.meminfo (s.meminfo_calls + j)).freeram ≤ reserved_floor s.PAGE_SHIFT)
    (hall : ∀ k, k < j * PENDING_PAGES_SIZE s.PAGE_SHIFT →
      (s.page_alloc (s.page_alloc_calls + k)).isSome = true) :
    (∀ (fuel : Nat) (s0 : State) (pages : Nat),
      (s0.meminfo s0.meminfo_calls).freeram ≤ reserved_floor s0.PAGE_SHIFT →
      bg_fill_loop (fuel + 1) s0 pages
        = .ok { s0 with meminfo_calls := s0.meminfo_calls + 1 }) ∧
    ∃ s1, nvmap_pp_do_background_fill s = .ok s1 ∧
      pool_pages s1.pool
        = pool_pages s.pool ++ pages_obtained s.page_alloc s.page_alloc_calls
            (j * PENDING_PAGES_SIZE s.PAGE_SHIFT) ∧
      s1.pool.count = s.pool.count + j * PENDING_PAGES_SIZE s.PAGE_SHIFT ∧
      s1.page_alloc_calls = s.page_alloc_calls + j * PENDING_PAGES_SIZE s.PAGE_SHIFT ∧
      s1.freed = s.freed ∧ s1.meminfo_calls = s.meminfo_calls + j + 1 ∧
      s1.bg_pages_to_fill = 0 := by
  constructor
  · intro fuel s0 pages hlow0
    unfold reserved_floor at hlow0
    rw [bg_fill_loop]
    simp only
    rw [if_pos hlow0]
  · have habs := inv_abs h
    have hcount := habs.count_eq
    have hP := pending_pos _ hps
    have ht' : u32 s.bg_pages_to_fill = s.bg_pages_to_fill := u32_of_lt _ ht32
    have hjle : j ≤ j * PENDING_PAGES_SIZE s.PAGE_SHIFT := Nat.le_mul_of_pos_right j hP
    unfold nvmap_pp_do_background_fill
    simp only
    rw [ht', if_neg (by rw [hen]; simp; omega)]
    have hfuel : s.bg_pages_to_fill + 1 = (s.bg_pages_to_fill - j) + j + 1 := by omega
    rw [hfuel]
    obtain ⟨s1, e1, habs1, hcalls, hfr, hmc, hbg, _⟩ :=
      bg_fill_loop_abort j (s.bg_pages_to_fill - j) { s with bg_pages_to_fill := 0 }
        s.bg_pages_to_fill (pool_pages s.pool) habs hj ht32
        (by rw [← hcount]; exact hroom) hmem hlow hall
    simp only at habs1 hcalls hfr hmc hbg
    have hlen : (pages_obtained s.page_alloc s.page_alloc_calls
        (j * PENDING_PAGES_SIZE s.PAGE_SHIFT)).length
          = j * PENDING_PAGES_SIZE s.PAGE_SHIFT := by
      have e : ∀ i, i < j * PENDING_PAGES_SIZE s.PAGE_SHIFT →
          s.page_alloc (s.page_alloc_calls + i)
            = ((List.range (j * PENDING_PAGES_SIZE s.PAGE_SHIFT)).map
                (fun k => (s.page_alloc (s.page_alloc_calls + k)).getD 0))[i]? := by
        intro i hi
        obtain ⟨p, hp⟩ := Option.isSome_iff_exists.1 (hall i hi)
        rw [List.getElem?_map, List.getElem?_range hi]
        simp only [Option.map_some', hp, Option.getD_some]
      rw [pages_obtained_of_answers _ _ _ _ (by simp) e]
      simp
    exact ⟨s1, e1, abs_pages habs1,
      by rw [habs1.count_eq, List.length_append, hlen, hcount], hcalls, hfr, hmc, hbg⟩

/-- Witness of C34: a target of 600 pages on an empty pool of 1024 slots; memory is above
the floor at the first pass and below it at the second, after one batch of 256 pages. -/
theorem background_fill_low_memory_abort_witness :
    ring_inv fading_state.pool ∧ fading_state.enable_pp = true ∧
    PENDING_PAGES_SIZE fading_state.PAGE_SHIFT = 256 ∧
    fading_state.bg_pages_to_fill = 600 ∧
    ((∀ (fuel : Nat) (s0 : State) (pages : Nat),
      (s0.meminfo s0.meminfo_calls).freeram ≤ reserved_floor s0.PAGE_SHIFT →
      bg_fill_loop (fuel + 1) s0 pages
        = .ok { s0 with meminfo_calls := s0.meminfo_calls + 1 }) ∧
    ∃ s1, nvmap_pp_do_background_fill fading_state = .ok s1 ∧
      pool_pages s1.pool
        = pool_pages fading_state.pool
          ++ pages_obtained fading_state.page_alloc fading_state.page_alloc_calls
            (1 * PENDING_PAGES_SIZE fading_state.PAGE_SHIFT) ∧
      s1.pool.count
        = fading_state.pool.count + 1 * PENDING_PAGES_SIZE fading_state.PAGE_SHIFT ∧
      s1.page_alloc_calls
        = fading_state.page_alloc_calls + 1 * PENDING_PAGES_SIZE fading_state.PAGE_SHIFT ∧
      s1.freed = fading_state.freed ∧
      s1.meminfo_calls = fading_state.meminfo_calls + 1 + 1 ∧
      s1.bg_pages_to_fill = 0) :=
  have hinv : ring_inv fading_state.pool :=
    abs_inv (abs_empty_pool 1024 (by decide) (by decide))
  ⟨hinv, rfl, by decide, rfl,
    background_fill_low_memory_abort fading_state 1 hinv (by decide) rfl (by decide)
      (by decide) (by decide)
      (fun k hk => by
        have hk0 : k = 0 := by omega
        subst hk0
        decide)
      (by decide) (fun _ _ => rfl)⟩

/-- C35: the loop of `nvmap_pp_do_background_fill` terminates, for every target and
whatever `alloc_page` and `si_meminfo` answer (with `PAGE_SHIFT <= 20`, so that
`PENDING_PAGES_SIZE >= 1`).  In no state does the pass use up the `t + 1` passes of the loop
that its embedding allows; the batch size `min(PENDING_PAGES_SIZE, remaining)` is at least 1
and the remaining target drops by it, without wrapping, in every pass; and from a state
that satisfies the ring invariants the function returns after at most
`ceil(t / PENDING_PAGES_SIZE)` passes (each pass makes one `si_meminfo` call). -/
theorem background_fill_terminates (s : State) (hps : s.PAGE_SHIFT ≤ 20) :
    nvmap_pp_do_background_fill s ≠ .error .no_progress ∧
    (∀ pages, 0 < pages → pages < 4294967296 →
      1 ≤ min (PENDING_PAGES_SIZE s.PAGE_SHIFT) pages ∧
      u32_sub pages (min (PENDING_PAGES_SIZE s.PAGE_SHIFT) pages) < pages) ∧
    (ring_inv s.pool →
      ∃ (s1 : State) (iters : Nat), nvmap_pp_do_background_fill s = .ok s1 ∧
        s1.meminfo_calls = s.meminfo_calls + iters ∧
        iters ≤ (u32 s.bg_pages_to_fill + PENDING_PAGES_SIZE s.PAGE_SHIFT - 1)
                  / PENDING_PAGES_SIZE s.PAGE_SHIFT) := by
  have hP := pending_pos _ hps
  refine ⟨?_, ?_, ?_⟩
  · unfold nvmap_pp_do_background_fill
    simp only
    split
    · simp
    · rename_i hne
      have hpos : 0 < u32 s.bg_pages_to_fill := by
        rcases Nat.eq_zero_or_pos (u32 s.bg_pages_to_fill) with h0 | h0
        · exact absurd (Or.inl h0) hne
        · exact h0
      have h32 : u32 s.bg_pages_to_fill < 4294967296 := by unfold u32; omega
      exact bg_fill_loop_progress _ { s with bg_pages_to_fill := 0 } _ hP hpos (by omega) h32
  · intro pages hpos h32
    have h1 : 1 ≤ min (PENDING_PAGES_SIZE s.PAGE_SHIFT) pages := Nat.le_min.2 ⟨hP, hpos⟩
    refine ⟨h1, ?_⟩
    rw [u32_sub_of_le _ _ (Nat.min_le_right _ _) h32]
    omega
  · intro h
    obtain ⟨s1, _, _, _, _, iters, e1, _, _, _, _, _, _, _, _, hmc, hit, _⟩ :=
      background_fill_account s (pool_pages s.pool) (inv_abs h) hps
    exact ⟨s1, iters, e1, hmc, hit⟩

/-- Witness of C35: the state with a pending target of 6 pages and 4 KiB pages. -/
theorem background_fill_terminates_witness :
    refill_state.PAGE_SHIFT ≤ 20 ∧
    nvmap_pp_do_background_fill refill_state ≠ .error .no_progress ∧
    (∀ pages, 0 < pages → pages < 4294967296 →
      1 ≤ min (PENDING_PAGES_SIZE refill_state.PAGE_SHIFT) pages ∧
      u32_sub pages (min (PENDING_PAGES_SIZE refill_state.PAGE_SHIFT) pages) < pages) ∧
    (ring_inv refill_state.pool →
      ∃ (s1 : State) (iters : Nat), nvmap_pp_do_background_fill refill_state = .ok s1 ∧
        s1.meminfo_calls = refill_state.meminfo_calls + iters ∧
        iters ≤ (u32 refill_state.bg_pages_to_fill
                  + PENDING_PAGES_SIZE refill_state.PAGE_SHIFT - 1)
                  / PENDING_PAGES_SIZE refill_state.PAGE_SHIFT) :=
  ⟨by decide, background_fill_terminates refill_state (by decide)⟩

/-- C36: every removal path evaluates the wakeup policy.  From a state that satisfies the
ring invariants with `c` pooled pages: `nvmap_page_pool_free(pool, nr_free)` with
`nr_free >= 1` calls `nvmap_pp_wake_up_allocator` once for each page it removes (and once
more at the miss, if it asked for more than `c`), `nvmap_page_pool_clear` does so `c + 2`
times and the release loop of `nvmap_page_pool_resize` `c` times.  If pooling is enabled,
zero-fill is active or the count after the drain is at most 256, the free space after
the drain is at least 1024 and the estimate of free memory is above the reserved floor
whenever `si_meminfo` is asked, then after the drain the pending target is
`min(free memory - reserved floor, length - count)` for the count after the drain and the
last `si_meminfo` answer read, and the worker has been signalled. -/
theorem drain_evaluates_policy (s : State) (nr_free : Nat) (h : ring_inv s.pool)
    (hn : 1 ≤ nr_free) (hen : s.enable_pp = true)
    (hocc : s.zero_memory = true ∨
      s.pool.count - min nr_free s.pool.count ≤ NVMAP_PP_ZERO_MEM_FILL_MIN)
    (hroom : NVMAP_PP_DEF_FILL_THRESH
      ≤ s.pool.length - (s.pool.count - min nr_free s.pool.count))
    (hmem : ∀ k, s.meminfo_calls ≤ k →
      reserved_floor s.PAGE_SHIFT < policy_free_pages s.PAGE_SHIFT (s.meminfo k)) :
    (∃ r s1, nvmap_page_pool_free s nr_free = .ok (r, s1) ∧
      s1.pool.count = s.pool.count - min nr_free s.pool.count ∧
      s1.pool.length = s.pool.length ∧
      s1.policy_evals = s.policy_evals + min nr_free (s.pool.count + 1) ∧
      s.meminfo_calls < s1.meminfo_calls ∧
      s1.bg_pages_to_fill
        = min (policy_free_pages s.PAGE_SHIFT (s.meminfo (s1.meminfo_calls - 1))
                - reserved_floor s.PAGE_SHIFT)
            (s1.pool.length - s1.pool.count) ∧
      s.wakeups < s1.wakeups) ∧
    (∃ s2, nvmap_page_pool_clear s = .ok (0, s2) ∧
      s2.policy_evals = s.policy_evals + s.pool.count + 2) ∧
    (∃ s3, resize_free_loop (array_size s.pool + 1) s = .ok s3 ∧
      s3.policy_evals = s.policy_evals + s.pool.count) := by
  have habs := inv_abs h
  have hcount := habs.count_eq
  have hle := habs.len_le
  have hL : s.pool.length < 4294967296 := by
    obtain ⟨_, hr, _⟩ := habs
    exact hr.hu32
  refine ⟨?_, ?_, ?_⟩
  · obtain ⟨n, hn1⟩ : ∃ n, nr_free = n + 1 := ⟨nr_free - 1, by omega⟩
    subst hn1
    obtain ⟨r, s1, sl, e1, hin, hcnt, hlen, hpool, hbg, hw, hmc, hev⟩ :=
      free_loop_policy n s (pool_pages s.pool) habs
    obtain ⟨i1, i2, i3, i4, i5, i6⟩ := hin
    rw [← hcount] at hcnt hev
    have hfire := wake_fires sl (by rw [i1]; exact hen)
      (by rw [i2, hcnt]; exact hocc) (by rw [hcnt, hlen]; omega) (by rw [hlen]; exact hL)
      (by rw [hcnt, hlen]; exact hroom) (by rw [i3, i4]; exact hmem _ i5)
    obtain ⟨f1, f2, f3⟩ := hfire
    rw [← hbg, i3, i4] at f1
    rw [← hw] at f2
    rw [← hmc] at f3
    have hidx : sl.meminfo_calls = s1.meminfo_calls - 1 := by omega
    rw [hidx, ← hpool] at f1
    refine ⟨r, s1, ?_, by rw [hpool, hcnt], by rw [hpool, hlen], hev, by omega, f1, by omega⟩
    unfold nvmap_page_pool_free
    rw [if_neg (by omega)]
    exact e1
  · obtain ⟨s2, e2, hev, _⟩ := clear_evals habs
    exact ⟨s2, e2, by rw [hev, hcount]⟩
  · obtain ⟨s3, e3, _, hev⟩ := resize_free_loop_evals (pool_pages s.pool) s
      (array_size s.pool + 1) habs (by have := habs.array_size_ge; omega)
    exact ⟨s3, e3, by rw [hev, hcount]⟩

/-- Witness of C36: draining one of the two pages of a pool of 2048 slots. -/
theorem drain_evaluates_policy_witness :
    ring_inv (plenty_state pool_of_two).pool ∧
    (plenty_state pool_of_two).enable_pp = true ∧
    (plenty_state pool_of_two).pool.count = 2 ∧
    ((∃ r s1, nvmap_page_pool_free (plenty_state pool_of_two) 1 = .ok (r, s1) ∧
      s1.pool.count
        = (plenty_state pool_of_two).pool.count
            - min 1 (plenty_state pool_of_two).pool.count ∧
      s1.pool.length = (plenty_state pool_of_two).pool.length ∧
      s1.policy_evals
        = (plenty_state pool_of_two).policy_evals
            + min 1 ((plenty_state pool_of_two).pool.count + 1) ∧
      (plenty_state pool_of_two).meminfo_calls < s1.meminfo_calls ∧
      s1.bg_pages_to_fill
        = min (policy_free_pages (plenty_state pool_of_two).PAGE_SHIFT
                  ((plenty_state pool_of_two).meminfo (s1.meminfo_calls - 1))
                - reserved_floor (plenty_state pool_of_two).PAGE_SHIFT)
            (s1.pool.length - s1.pool.count) ∧
      (plenty_state pool_of_two).wakeups < s1.wakeups) ∧
    (∃ s2, nvmap_page_pool_clear (plenty_state pool_of_two) = .ok (0, s2) ∧
      s2.policy_evals
        = (plenty_state pool_of_two).policy_evals
            + (plenty_state pool_of_two).pool.count + 2) ∧
    (∃ s3, resize_free_loop (array_size (plenty_state pool_of_two).pool + 1)
        (plenty_state pool_of_two) = .ok s3 ∧
      s3.policy_evals
        = (plenty_state pool_of_two).policy_evals
            + (plenty_state pool_of_two).pool.count)) :=
  have hinv : ring_inv (plenty_state pool_of_two).pool :=
    abs_inv (abs_front 2048 [7, 8] (by decide) (by decide) (by decide))
  ⟨hinv, rfl, rfl,
    drain_evaluates_policy (plenty_state pool_of_two) 1 hinv (by decide) rfl
      (Or.inr (by decide)) (by decide)
      (fun _ _ => (by decide :
        reserved_floor 12 < policy_free_pages 12 { freeram := 100000, mem_unit := 4096 }))⟩

/-- C37: disabling pooling empties the pool.  From a state that satisfies the ring
invariants with `c` pooled pages, `shrink_page_pools` called with `*total_pages = 0`
leaves `*total_pages = c` and `*available_pages = 0`, hands the `c` pooled pages to
`__free_page` (oldest first) and leaves `count = 0` with the ring invariants intact;
`enable_pp_set` storing `false` does exactly this and returns 0. -/
theorem disable_empties_pool (s : State) (h : ring_inv s.pool) :
    (∃ s1, shrink_page_pools s 0 = .ok (s.pool.count, 0, s1) ∧
      s1.freed = s.freed ++ pool_pages s.pool ∧
      (pool_pages s.pool).length = s.pool.count ∧
      s1.pool.count = 0 ∧ pool_pages s1.pool = [] ∧ ring_inv s1.pool) ∧
    (∃ s2, enable_pp_set s false = .ok (0, s2) ∧ s2.enable_pp = false ∧
      s2.freed = s.freed ++ pool_pages s.pool ∧
      s2.pool.count = 0 ∧ pool_pages s2.pool = [] ∧ ring_inv s2.pool) := by
  have key : ∀ s : State, ring_inv s.pool →
      ∃ s1, shrink_page_pools s 0 = .ok (s.pool.count, 0, s1) ∧
        s1.freed = s.freed ++ pool_pages s.pool ∧
        (pool_pages s.pool).length = s.pool.count ∧
        s1.pool.count = 0 ∧ pool_pages s1.pool = [] ∧ ring_inv s1.pool ∧
        s1.enable_pp = s.enable_pp := by
    intro s h
    have habs := inv_abs h
    have hcount := habs.count_eq
    have e0 : nvmap_page_pool_shrink s 0 = .ok (s.pool.count, s) := by
      simp [nvmap_page_pool_shrink, nvmap_page_pool_get_unused_pages,
        nvmap_page_pool_get_available_count]
    by_cases hc : s.pool.count = 0
    · have hnil : pool_pages s.pool = [] := by
        apply List.eq_nil_of_length_eq_zero
        rw [← hcount, hc]
      refine ⟨s, ?_, by rw [hnil]; simp, hcount.symm, hc, hnil, h, rfl⟩
      unfold shrink_page_pools
      simp only [if_true, e0]
      rw [hc]
      simp [nvmap_page_pool_shrink, nvmap_page_pool_get_unused_pages,
        nvmap_page_pool_get_available_count, hc]
    · obtain ⟨s1, e1, habs1, hfr, _, _⟩ := free_abs habs s.pool.count
      rw [hcount, List.drop_length] at habs1
      rw [hcount, List.take_length] at hfr
      have hc1 := habs1.count_eq
      simp only [List.length_nil] at hc1
      have hfrm : s1.enable_pp = s.enable_pp := by
        obtain ⟨r2, s2, e2, hin⟩ := free_loop_inputs s.pool.count s (pool_pages s.pool) habs
        unfold nvmap_page_pool_free at e1
        rw [if_neg hc, e2] at e1
        simp only [Except.ok.injEq, Prod.mk.injEq] at e1
        rw [← e1.2]
        exact hin.1
      refine ⟨s1, ?_, hfr, hcount.symm, hc1, abs_pages habs1, abs_inv habs1, hfrm⟩
      unfold shrink_page_pools
      simp only [if_true, e0]
      unfold nvmap_page_pool_shrink
      simp only [hc, if_false, e1]
      simp [nvmap_page_pool_get_unused_pages, nvmap_page_pool_get_available_count, hc1]
  constructor
  · obtain ⟨s1, e1, h1, h2, h3, h4, h5, _⟩ := key s h
    exact ⟨s1, e1, h1, h2, h3, h4, h5⟩
  · obtain ⟨s1, e1, h1, _, h3, h4, h5, h6⟩ := key { s with enable_pp := false } h
    refine ⟨s1, ?_, h6, h1, h3, h4, h5⟩
    unfold enable_pp_set
    simp only [Bool.not_false, if_true, e1]

/-- Witness of C37: disabling the pools on a wrapped pool of three pages. -/
theorem disable_empties_pool_witness :
    ring_inv wrapped_state.pool ∧ wrapped_state.pool.count = 3 ∧
    (∃ s1, shrink_page_pools wrapped_state 0 = .ok (wrapped_state.pool.count, 0, s1) ∧
      s1.freed = wrapped_state.freed ++ pool_pages wrapped_state.pool ∧
      (pool_pages wrapped_state.pool).length = wrapped_state.pool.count ∧
      s1.pool.count = 0 ∧ pool_pages s1.pool = [] ∧ ring_inv s1.pool) ∧
    (∃ s2, enable_pp_set wrapped_state false = .ok (0, s2) ∧ s2.enable_pp = false ∧
      s2.freed = wrapped_state.freed ++ pool_pages wrapped_state.pool ∧
      s2.pool.count = 0 ∧ pool_pages s2.pool = [] ∧ ring_inv s2.pool) :=
  ⟨by decide, rfl, disable_empties_pool wrapped_state (by decide)⟩

end Nvmap
